import Mathlib

/-!
# XMMS2: the server object bus and the nycli playlist edits

Shallow embedding of

* `src/xmms/object.c`: reference-counted objects with a signal subscription
  table and a command table;
* `src/clients/nycli/utils.c`: the client-side loops that turn a query result
  into a batch of playlist commands.

Conventions of the embedding.

* A C function pointer or data pointer that the code only stores, compares
  and calls is a natural number (its address); a nullable one is an `Option`,
  `none` being `NULL`.
* Calls into code the object bus does not own (signal handlers, the destroy
  callback, command functions, the GLib mutex and allocator) are recorded as
  events, in program order.  What a handler does to the object while it runs
  is outside the embedding.
* `gint`/`gint32` values are integers, `guint` values are naturals below
  `2 ^ 32`.
-/

namespace XMMS2

/-! ## Data model of `object.c` -/

/-- Argument and return type tags, the enumerators that `xmms_object_emit_f`
switches over. -/
inductive xmms_object_cmd_arg_type_t where
  | XMMS_OBJECT_CMD_ARG_NONE
  | XMMS_OBJECT_CMD_ARG_UINT32
  | XMMS_OBJECT_CMD_ARG_INT32
  | XMMS_OBJECT_CMD_ARG_STRING
  | XMMS_OBJECT_CMD_ARG_HASHTABLE
  | XMMS_OBJECT_CMD_ARG_UINTLIST
  | XMMS_OBJECT_CMD_ARG_HASHLIST
  | XMMS_OBJECT_CMD_ARG_INTLIST
  | XMMS_OBJECT_CMD_ARG_STRINGLIST
  | XMMS_OBJECT_CMD_ARG_PLCH
deriving DecidableEq, Repr

/-- The `retval` union of `xmms_object_cmd_arg_t`: the member written last
and its value, or nothing written yet. -/
inductive xmms_object_cmd_retval_t where
  | unwritten
  | uint32 (v : Nat)
  | int32 (v : Int)
  | string (p : Nat)
  | hashtable (p : Nat)
  | uintlist (p : Nat)
  | hashlist (p : Nat)
  | intlist (p : Nat)
  | stringlist (p : Nat)
  | plch (p : Nat)
deriving DecidableEq, Repr

/-- The fields of `xmms_object_cmd_arg_t` that `object.c` touches. -/
structure xmms_object_cmd_arg_t where
  rettype : xmms_object_cmd_arg_type_t
  retval : xmms_object_cmd_retval_t
deriving DecidableEq, Repr

/-- Command descriptor: `func` is the only field `object.c` reads; the type
tags are the ones `XMMS_CMD_DEFINE` records. -/
structure xmms_object_cmd_desc_t where
  func : Option Nat
  retval : xmms_object_cmd_arg_type_t
  arg1 : xmms_object_cmd_arg_type_t
  arg2 : xmms_object_cmd_arg_type_t
deriving DecidableEq, Repr

/-- A signal handler and its data (`xmms_object_handler_entry_t`). -/
structure xmms_object_handler_entry_t where
  handler : Option Nat
  userdata : Nat
deriving DecidableEq, Repr

/-- The object header.  `signals` and `cmds` are the two tables, indexed by
signal id and command id; an empty list is the `NULL` list head, `none` is
the `NULL` descriptor.  The object pointer itself is never `NULL` here. -/
structure xmms_object_t where
  id : Nat
  signals : Nat → List xmms_object_handler_entry_t
  cmds : Nat → Option xmms_object_cmd_desc_t
  ref : Int
  destroy_func : Option Nat

/-- Modelled from the spec: the "unique type tag" that `xmms/object.h`
stores in `id`; only equality with it is ever tested. -/
def XMMS_OBJECT_MID : Nat := 0x00455574

/-- Modelled from the spec: the reserved "object destroyed" signal kind of
`xmms/signal_xmms.h`. -/
def XMMS_IPC_SIGNAL_OBJECT_DESTROYED : Nat := 0

/-- Modelled from the spec: the number of signal kinds, the size of the
`signals` table (`xmms/signal_xmms.h`). -/
def XMMS_IPC_SIGNAL_END : Nat := 32

/-- Modelled from the spec: macro `XMMS_IS_OBJECT` of `xmms/object.h`, the
type-tag test behind every `g_return_if_fail (XMMS_IS_OBJECT (object))`. -/
def XMMS_IS_OBJECT (p : xmms_object_t) : Bool :=
  p.id == XMMS_OBJECT_MID

/-- What the object bus does to the outside, in program order.  `δ` is the
type the payload pointer of a signal points to. -/
inductive Event (δ : Type) where
  | g_mutex_lock
  | g_mutex_unlock
  /-- The call `entry->handler (object, data, entry->userdata)`. -/
  | handler (h : Nat) (object : xmms_object_t) (data : Option δ) (userdata : Nat)
  /-- The call `object->destroy_func (object)`. -/
  | destroy_func (f : Nat) (object : xmms_object_t)
  /-- The call `desc->func (object, arg)`. -/
  | cmd_func (f : Nat) (object : xmms_object_t) (arg : xmms_object_cmd_arg_t)
  /-- The call `g_free (node->data)` on a subscription entry. -/
  | g_free_entry (entry : xmms_object_handler_entry_t)
  /-- The call `g_list_free` on the list of one signal kind. -/
  | g_list_free (signalid : Nat)
  | g_mutex_free
  /-- The call `g_free (object)`. -/
  | g_free_object

/-- Run-time faults of the C code that the embedding makes explicit. -/
inductive Fault where
  | null_dereference
  | division_by_zero
  /-- A read of memory that `g_free` has released. -/
  | use_after_free
deriving DecidableEq, Repr

/-- Two's complement wrap of a 32-bit `gint`. -/
def gint_wrap (x : Int) : Int :=
  (x + 2147483648) % 4294967296 - 2147483648

/-! ## Operations of `object.c` -/

/-- Function `xmms_object_cleanup`: frees every entry and every list of the
subscription table, then the mutex. -/
def xmms_object_cleanup {δ : Type} (object : xmms_object_t) : List (Event δ) :=
  if !XMMS_IS_OBJECT object then []
  else
    (List.range XMMS_IPC_SIGNAL_END).flatMap (fun i =>
      match object.signals i with
      | [] => []
      | list => list.map (fun entry => Event.g_free_entry entry) ++ [Event.g_list_free i])
    ++ [Event.g_mutex_free]

/-- Function `xmms_object_connect`. -/
def xmms_object_connect (object : xmms_object_t) (signalid : Nat)
    (handler : Option Nat) (userdata : Nat) : xmms_object_t :=
  if !XMMS_IS_OBJECT object then object
  else
    match handler with
    | none => object
    | some _ =>
      let entry : xmms_object_handler_entry_t := { handler := handler, userdata := userdata }
      match object.signals signalid with
      | [] => { object with signals := Function.update object.signals signalid [entry] }
      | node :: rest =>
        { object with
          signals := Function.update object.signals signalid (entry :: node :: rest) }

/-- The search loop of `xmms_object_disconnect`: the index of the first node
whose entry has the given handler, `none` when the loop runs off the list. -/
def disconnect_find (handler : Option Nat) :
    List xmms_object_handler_entry_t → Option Nat
  | [] => none
  | entry :: rest =>
    if entry.handler = handler then some 0
    else (disconnect_find handler rest).map (fun k => k + 1)

/-- Function `xmms_object_disconnect`. -/
def xmms_object_disconnect (object : xmms_object_t) (signalid : Nat)
    (handler : Option Nat) : xmms_object_t :=
  if !XMMS_IS_OBJECT object then object
  else
    match handler with
    | none => object
    | some _ =>
      match object.signals signalid with
      | [] => object
      | list =>
        match disconnect_find handler list with
        | none => object
        | some node =>
          { object with signals := Function.update object.signals signalid (list.eraseIdx node) }

/-- Function `xmms_object_emit`.  The first loop copies the list by
prepending each entry to `list2`; the second loop walks `list2`. -/
def xmms_object_emit {δ : Type} (object : xmms_object_t) (signalid : Nat)
    (data : Option δ) : List (Event δ) :=
  if !XMMS_IS_OBJECT object then []
  else
    let list := object.signals signalid
    let list2 := list.foldl (fun list2 entry => entry :: list2) []
    [Event.g_mutex_lock] ++ [Event.g_mutex_unlock] ++
      list2.filterMap (fun entry =>
        match entry.handler with
        | some h => some (Event.handler h object data entry.userdata)
        | none => none)

/-- Function `xmms_object_cmd_add`. -/
def xmms_object_cmd_add (object : xmms_object_t) (cmdid : Nat)
    (desc : Option xmms_object_cmd_desc_t) : xmms_object_t :=
  match desc with
  | none => object
  | some d => { object with cmds := Function.update object.cmds cmdid (some d) }

/-- Function `xmms_object_cmd_call`.  `desc->func` is read without a test on
`desc`, so a `NULL` descriptor is a null dereference. -/
def xmms_object_cmd_call {δ : Type} (object : xmms_object_t) (cmdid : Nat)
    (arg : xmms_object_cmd_arg_t) : Except Fault (List (Event δ)) :=
  match object.cmds cmdid with
  | none => Except.error Fault.null_dereference
  | some desc =>
    match desc.func with
    | some f => Except.ok [Event.cmd_func f object arg]
    | none => Except.ok []

/-- Modelled from the spec: macro `xmms_object_ref` of `xmms/object.h`,
"increments refcount" on what passes the type-tag test. -/
def xmms_object_ref (object : xmms_object_t) : xmms_object_t :=
  if XMMS_IS_OBJECT object then { object with ref := gint_wrap (object.ref + 1) }
  else object

/-- Function `__int_xmms_object_unref`.  The result is the object that is
left (`none` once it has been freed) and the events of this call. -/
def __int_xmms_object_unref (δ : Type) (object : xmms_object_t) :
    Option xmms_object_t × List (Event δ) :=
  let object := { object with ref := gint_wrap (object.ref - 1) }
  if object.ref = 0 then
    (none,
      xmms_object_emit object XMMS_IPC_SIGNAL_OBJECT_DESTROYED none ++
      (match object.destroy_func with
        | some f => [Event.destroy_func f object]
        | none => []) ++
      xmms_object_cleanup object ++
      [Event.g_free_object])
  else (some object, [])

/-- Function `__int_xmms_object_new`: zeroed storage, the destroy callback,
the type tag, then one `xmms_object_ref`. -/
def __int_xmms_object_new (destfunc : Option Nat) : xmms_object_t :=
  let ret : xmms_object_t :=
    { id := 0, signals := fun _ => [], cmds := fun _ => none, ref := 0, destroy_func := none }
  let ret := { ret with destroy_func := destfunc }
  let ret := { ret with id := XMMS_OBJECT_MID }
  xmms_object_ref ret

/-- The two reference operations a holder of the object can issue. -/
inductive RefOp where
  | ref
  | unref
deriving DecidableEq, Repr

/-- One reference operation on an object that may already have been freed
(`none`); the events are those of this operation.  Nothing is defined on a
freed object, it stays freed and no event is recorded. -/
def ref_step (δ : Type) : Option xmms_object_t → RefOp → Option xmms_object_t × List (Event δ)
  | none, _ => (none, [])
  | some object, RefOp.ref => (some (xmms_object_ref object), [])
  | some object, RefOp.unref => __int_xmms_object_unref δ object

/-- The object left after a sequence of reference operations. -/
def ref_run (δ : Type) : Option xmms_object_t → List RefOp → Option xmms_object_t
  | o, [] => o
  | o, op :: ops => ref_run δ (ref_step δ o op).1 ops

/-- The events of each operation of a sequence, one list per operation. -/
def ref_trace (δ : Type) : Option xmms_object_t → List RefOp → List (List (Event δ))
  | _, [] => []
  | o, op :: ops => (ref_step δ o op).2 :: ref_trace δ (ref_step δ o op).1 ops

/-- The destroy callbacks called in a list of events. -/
def destroy_calls {δ : Type} : List (Event δ) → List Nat
  | [] => []
  | Event.destroy_func f _ :: rest => f :: destroy_calls rest
  | _ :: rest => destroy_calls rest

/-- The handler calls of a list of events: handler and userdata of each. -/
def handler_calls {δ : Type} : List (Event δ) → List (Nat × Nat)
  | [] => []
  | Event.handler h _ _ userdata :: rest => (h, userdata) :: handler_calls rest
  | _ :: rest => handler_calls rest

/-- Connects a list of (handler, userdata) pairs, first pair first. -/
def connect_all (object : xmms_object_t) (signalid : Nat) :
    List (Nat × Nat) → xmms_object_t
  | [] => object
  | (h, userdata) :: rest =>
    connect_all (xmms_object_connect object signalid (some h) userdata) signalid rest

/-- Net effect of a sequence of reference operations on the count. -/
def ref_balance : List RefOp → Int
  | [] => 0
  | RefOp.ref :: ops => ref_balance ops + 1
  | RefOp.unref :: ops => ref_balance ops - 1

/-! ## Values and containers used by `utils.c` -/

/-- Conversion of a `gint`/`gint32` to `guint`, as C does when the two are
compared or when a `gint` is read through a `guint *`. -/
def guint_of_gint (x : Int) : Nat :=
  (x % 4294967296).toNat

/-- Modelled from the spec: the cursor over a list of integers
(`xmmsv_list_iter_t` of the xmmsv library).  The value is the entries from the
cursor to the end: `xmmsv_get_list_iter` gives the whole list,
`xmmsv_list_iter_entry_int` fails on `[]` and yields the head otherwise,
`xmmsv_list_iter_next` drops the head.  The cursor is never rewound by the
functions embedded here. -/
abbrev xmmsv_list_iter_t := List Int

/-- Function `compare_uint`. -/
def compare_uint (a b : Nat) : Int :=
  let va := a
  let vb := b
  if va < vb then -1
  else if va > vb then 1
  else 0

/-- Modelled from the spec: GLib's `GTree`, the "balanced ordered structure",
as a binary search tree.  A key is the `guint` its pointer points to.
Rebalancing is left out: it changes neither the set of keys nor their
order. -/
inductive GTree where
  | nil
  | node (left : GTree) (key : Nat) (value : Nat) (right : GTree)
deriving DecidableEq, Repr

/-- Modelled from the spec: `g_tree_insert`.  On an equal key the node keeps
its key and takes the new value. -/
def g_tree_insert (key_compare : Nat → Nat → Int) : GTree → Nat → Nat → GTree
  | GTree.nil, key, value => GTree.node GTree.nil key value GTree.nil
  | GTree.node left k v right, key, value =>
    let cmp := key_compare key k
    if cmp = 0 then GTree.node left k value right
    else if cmp < 0 then GTree.node (g_tree_insert key_compare left key value) k v right
    else GTree.node left k v (g_tree_insert key_compare right key value)

/-- Modelled from the spec: `g_tree_lookup`, the value stored under the key
or `none` for `NULL`. -/
def g_tree_lookup (key_compare : Nat → Nat → Int) : GTree → Nat → Option Nat
  | GTree.nil, _ => none
  | GTree.node left k v right, key =>
    let cmp := key_compare key k
    if cmp = 0 then some v
    else if cmp < 0 then g_tree_lookup key_compare left key
    else g_tree_lookup key_compare right key

/-- Modelled from the spec: `g_tree_nnodes`, the number of entries. -/
def g_tree_nnodes : GTree → Nat
  | GTree.nil => 0
  | GTree.node left _ _ right => g_tree_nnodes left + 1 + g_tree_nnodes right

/-- The keys of a tree, in order. -/
def GTree.keys : GTree → List Nat
  | GTree.nil => []
  | GTree.node left k _ right => left.keys ++ k :: right.keys

/-- The search-tree order: every key of the left subtree is below the key of
the node and every key of the right subtree above it. -/
def GTree.ordered : GTree → Prop
  | GTree.nil => True
  | GTree.node left k _ right =>
    left.ordered ∧ right.ordered ∧ (∀ x ∈ left.keys, x < k) ∧ (∀ x ∈ right.keys, k < x)

/-- The values of a `gint32`. -/
def is_gint32 (x : Int) : Prop :=
  -2147483648 ≤ x ∧ x < 2147483648

/-- The loop of `matching_ids_tree`: each id is stored in a fresh `guint`
and inserted as key and value. -/
def matching_ids_tree_loop : xmmsv_list_iter_t → GTree → GTree
  | [], list => list
  | id :: it, list =>
    let tid := guint_of_gint id
    matching_ids_tree_loop it (g_tree_insert compare_uint list tid tid)

/-- Function `matching_ids_tree`. -/
def matching_ids_tree (matching : List Int) : GTree :=
  matching_ids_tree_loop matching GTree.nil

/-! ## Playlist commands and what the daemon does with them -/

/-- The playlist commands the client issues (`xmmsc_playlist_insert_id`,
`xmmsc_playlist_move_entry`, `xmmsc_playlist_remove_entry`,
`xmmsc_playlist_set_next`, `xmmsc_playback_tickle`). -/
inductive Cmd where
  | insert_id (pos : Int) (id : Int)
  | move_entry (cur_pos : Int) (new_pos : Int)
  | remove_entry (pos : Int)
  | set_next (pos : Int)
  | tickle
deriving DecidableEq, Repr

/-- What a client function does, in program order: a command sent to the
daemon or a line printed. -/
inductive ClientEvent where
  | call (c : Cmd)
  | g_printf (msg : String)
deriving DecidableEq, Repr

/-- Modelled from the spec: the daemon's `remove-at(pos)`, rejected (`none`)
outside the playlist. -/
def playlist_remove_entry {α : Type} (pl : List α) (pos : Int) : Option (List α) :=
  if 0 ≤ pos ∧ pos < pl.length then
    some (pl.take pos.toNat ++ pl.drop (pos.toNat + 1))
  else none

/-- Modelled from the spec: the daemon's `move(from,to)`: the entry is taken
out at `from` and put back so that it ends at index `to`; rejected (`none`)
when either index is outside the playlist. -/
def playlist_move_entry {α : Type} (pl : List α) (cur_pos new_pos : Int) : Option (List α) :=
  if 0 ≤ cur_pos ∧ cur_pos < pl.length ∧ 0 ≤ new_pos ∧ new_pos < pl.length then
    match pl[cur_pos.toNat]? with
    | some x =>
      let without := pl.take cur_pos.toNat ++ pl.drop (cur_pos.toNat + 1)
      some (without.take new_pos.toNat ++ x :: without.drop new_pos.toNat)
    | none => none
  else none

/-- Modelled from the spec: the daemon applying one command to the playlist;
`set_next` and `tickle` leave the order alone. -/
def playlist_apply (pl : List Int) : Cmd → Option (List Int)
  | Cmd.insert_id pos id =>
    if 0 ≤ pos ∧ pos ≤ pl.length then some (pl.take pos.toNat ++ id :: pl.drop pos.toNat)
    else none
  | Cmd.move_entry cur_pos new_pos => playlist_move_entry pl cur_pos new_pos
  | Cmd.remove_entry pos => playlist_remove_entry pl pos
  | Cmd.set_next _ => some pl
  | Cmd.tickle => some pl

/-- A batch applied in order; `none` as soon as the daemon rejects a
command. -/
def playlist_run : List Int → List Cmd → Option (List Int)
  | pl, [] => some pl
  | pl, c :: cs =>
    match playlist_apply pl c with
    | some pl1 => playlist_run pl1 cs
    | none => none

/-- The order the specification gives for moving the entries matched by
`matching` to `pos`: the unmatched entries before `pos`, the matched entries
in their order, the unmatched entries from `pos` on. -/
def moved_to_spec (matching pl : List Int) (pos : Nat) : List Int :=
  (pl.take pos).filter (fun x => decide (x ∉ matching))
    ++ pl.filter (fun x => decide (x ∈ matching))
    ++ (pl.drop pos).filter (fun x => decide (x ∉ matching))

/-! ## The loops of `utils.c` -/

/-- The inner loop of `list_jump_rel` for the playlist entry `plid`: walks
the match cursor until an id equal to `plid` (compared as `guint`); the
result is whether one was found and where the cursor stands. -/
def list_jump_rel_scan (plid : Nat) : xmmsv_list_iter_t → Bool × xmmsv_list_iter_t
  | [] => (false, [])
  | id :: rest =>
    if plid = guint_of_gint id then (true, id :: rest)
    else list_jump_rel_scan plid rest

/-- The text `list_jump_rel` prints when it does not jump. -/
def no_match_msg : String :=
  "No media matching the pattern in the playlist!\n"

/-- The outer loop of `list_jump_rel`, `i` being the loop variable and `it`
the match cursor.  `fuel` bounds the number of loop tests; `none` is fuel
running out. -/
def list_jump_rel_loop (playlist : List Nat) (currpos inc plsize : Int) :
    Nat → Int → xmmsv_list_iter_t → Option (List ClientEvent)
  | 0, _, _ => none
  | fuel + 1, i, it =>
    if i = currpos then some [ClientEvent.g_printf no_match_msg]
    else
      match list_jump_rel_scan (playlist.getD i.toNat 0) it with
      | (true, _) => some [ClientEvent.call (Cmd.set_next i), ClientEvent.call Cmd.tickle]
      | (false, it1) =>
        list_jump_rel_loop playlist currpos inc plsize fuel (Int.tmod (i + inc) plsize) it1

/-- Function `list_jump_rel`: `val` is the match list, `cache_currpos` and
`active_playlist` are the cached position and playlist, `inc` the
direction.  An empty playlist makes the first `% plsize` a division by
zero. -/
def list_jump_rel (fuel : Nat) (val : List Int) (cache_currpos : Int)
    (active_playlist : List Nat) (inc : Int) : Option (Except Fault (List ClientEvent)) :=
  let currpos := cache_currpos
  let plsize : Int := active_playlist.length
  let currpos := if currpos < 0 then 0 else currpos
  let inc := inc + plsize
  if plsize = 0 then some (Except.error Fault.division_by_zero)
  else
    (list_jump_rel_loop active_playlist currpos inc plsize fuel
      (Int.tmod (currpos + inc) plsize) val).map Except.ok

/-- The loop of `move_entries`: `list` is the tree of matching ids, `it` the
cursor over the playlist. -/
def move_entries_loop (list : GTree) (pos : Int) :
    xmmsv_list_iter_t → Int → Int → Bool → List Cmd
  | [], _, _, _ => []
  | id :: it, curr, inc, up =>
    let up := if curr = pos then false else up
    if g_tree_lookup compare_uint list (guint_of_gint id) ≠ none then
      (if up then Cmd.move_entry (curr - inc) (pos - 1)
        else Cmd.move_entry curr (pos + inc))
        :: move_entries_loop list pos it (curr + 1) (inc + 1) up
    else move_entries_loop list pos it (curr + 1) inc up

/-- Function `move_entries`: the commands issued for the match list
`matching`, the playlist `lisval` and the target `pos`. -/
def move_entries (matching lisval : List Int) (pos : Int) : List Cmd :=
  let list := matching_ids_tree matching
  move_entries_loop list pos lisval 0 0 true

/-- The inner loop of `remove_list` for the playlist entry `plid`: walks the
match cursor until an id equal to `plid`; on a hit the cursor stays on the
entry found (`break` comes before `xmmsv_list_iter_next`). -/
def remove_list_scan (plid : Int) : xmmsv_list_iter_t → Bool × xmmsv_list_iter_t
  | [] => (false, [])
  | id :: rest =>
    if plid = id then (true, id :: rest)
    else remove_list_scan plid rest

/-- The outer loop of `remove_list`: playlist cursor, match cursor, `i` and
`offset`.  `i - offset` never wraps since `offset ≤ i`. -/
def remove_list_loop : xmmsv_list_iter_t → xmmsv_list_iter_t → Int → Int → List Cmd
  | [], _, _, _ => []
  | plid :: plistit, matchit, i, offset =>
    match remove_list_scan plid matchit with
    | (true, matchit1) =>
      Cmd.remove_entry (i - offset) :: remove_list_loop plistit matchit1 (i + 1) (offset + 1)
    | (false, matchit1) => remove_list_loop plistit matchit1 (i + 1) offset

/-- Function `remove_list`. -/
def remove_list (matchval plistval : List Int) : List Cmd :=
  remove_list_loop plistval matchval 0 0

/-- Function `add_list`, the loop: one `xmmsc_playlist_insert_id` per id,
at `pos++`; `pos` is a `gint` and the increment wraps. -/
def add_list_loop : xmmsv_list_iter_t → Int → List Cmd
  | [], _ => []
  | id :: it, pos => Cmd.insert_id pos id :: add_list_loop it (gint_wrap (pos + 1))

/-- Function `add_list`: the commands issued and the value stored in
`*count`, `xmmsv_list_get_size (idlist)`. -/
def add_list (idlist : List Int) (pos : Int) : List Cmd × Int :=
  (add_list_loop idlist pos, idlist.length)

/-- The fields of `pl_pos_udata_t` that decide the commands (`infos`,
`coldisp`, `playlist` and `entries` do not). -/
structure pl_pos_udata_t where
  inc : Int
  pos : Int
deriving DecidableEq, Repr

/-- Function `pos_remove_cb`: the callback leaves `pack` alone and issues one
`xmmsc_playlist_remove_entry`. -/
def pos_remove_cb (pos : Int) (pack : pl_pos_udata_t) : pl_pos_udata_t × List Cmd :=
  (pack, [Cmd.remove_entry pos])

/-- Calls `f` on each position of `visit` in turn, handing the user data
on. -/
def positions_visit (f : Int → pl_pos_udata_t → pl_pos_udata_t × List Cmd) :
    List Int → pl_pos_udata_t → pl_pos_udata_t × List Cmd
  | [], udata => (udata, [])
  | p :: rest, udata =>
    ((positions_visit f rest (f p udata).1).1,
      (f p udata).2 ++ (positions_visit f rest (f p udata).1).2)

/-- Modelled from the spec: `playlist_positions_foreach` of the nycli
position lists.  `positions` is the sequence a forward traversal visits; with
`forward = FALSE` the callback sees it from the far end ("visit target
positions descending"). -/
def playlist_positions_foreach (positions : List Int)
    (f : Int → pl_pos_udata_t → pl_pos_udata_t × List Cmd) (forward : Bool)
    (udata : pl_pos_udata_t) : pl_pos_udata_t × List Cmd :=
  positions_visit f (if forward then positions else positions.reverse) udata

/-- Function `positions_remove`. -/
def positions_remove (positions : List Int) : List Cmd :=
  let udata : pl_pos_udata_t := { inc := 0, pos := 0 }
  (playlist_positions_foreach positions pos_remove_cb false udata).2

/-- The inner loop of `remove_cached_list` for the cached entry `plid`
(a `guint` compared with a `gint32`); on a hit the cursor stays where it
is. -/
def remove_cached_list_scan (plid : Nat) : xmmsv_list_iter_t → Bool × xmmsv_list_iter_t
  | [] => (false, [])
  | id :: rest =>
    if plid = guint_of_gint id then (true, id :: rest)
    else remove_cached_list_scan plid rest

/-- The outer loop of `remove_cached_list`, `for (i = plsize - 1; i >= 0; i--)`:
the counter is `i + 1`, so `k + 1` stands for `i = k` and `0` for the end of
the loop. -/
def remove_cached_list_loop (playlist : List Nat) : Nat → xmmsv_list_iter_t → List Cmd
  | 0, _ => []
  | k + 1, it =>
    let plid := playlist.getD k 0
    match remove_cached_list_scan plid it with
    | (true, it1) => Cmd.remove_entry k :: remove_cached_list_loop playlist k it1
    | (false, it1) => remove_cached_list_loop playlist k it1

/-- Function `remove_cached_list`: `matching` is the match list,
`active_playlist` the cached array. -/
def remove_cached_list (matching : List Int) (active_playlist : List Nat) : List Cmd :=
  let plsize := active_playlist.length
  remove_cached_list_loop active_playlist plsize matching

/-! ## Vocabulary of the statements -/

/-- The entries of a list that are left when those at the raw indices in `s`
are deleted; the head of the list has raw index `i`. -/
def delete_indices_from {α : Type} (i : Int) : List α → List Int → List α
  | [], _ => []
  | x :: xs, s =>
    if i ∈ s then delete_indices_from (i + 1) xs s
    else x :: delete_indices_from (i + 1) xs s

/-- The playlist without the entries at the raw indices in `s`. -/
def delete_indices {α : Type} (pl : List α) (s : List Int) : List α :=
  delete_indices_from 0 pl s

/-- The raw indices of the playlist slots that the scan of `remove_list`
matches: the loop of `remove_list` with the index of each hit in place of
the command. -/
def remove_list_hits : xmmsv_list_iter_t → xmmsv_list_iter_t → Int → List Int
  | [], _, _ => []
  | plid :: plistit, matchit, i =>
    match remove_list_scan plid matchit with
    | (true, matchit1) => i :: remove_list_hits plistit matchit1 (i + 1)
    | (false, matchit1) => remove_list_hits plistit matchit1 (i + 1)

/-- The positions of the `remove_entry` commands of a batch. -/
def removed_positions : List Cmd → List Int
  | [] => []
  | Cmd.remove_entry pos :: cs => pos :: removed_positions cs
  | _ :: cs => removed_positions cs

/-- The test `g_tree_lookup (list, &id) != NULL` of `move_entries`. -/
def tree_has (list : GTree) (id : Int) : Bool :=
  decide (g_tree_lookup compare_uint list (guint_of_gint id) ≠ none)

/-- An id that `move_entries` treats as matched for the match list
`matching`. -/
def is_matching (matching : List Int) (id : Int) : Bool :=
  tree_has (matching_ids_tree matching) id

/-- A batch applied as the client sends it, without looking at the
results: a command the daemon rejects changes nothing and the next one is
sent all the same. -/
def playlist_run_lenient : List Int → List Cmd → List Int
  | pl, [] => pl
  | pl, c :: cs =>
    match playlist_apply pl c with
    | some pl1 => playlist_run_lenient pl1 cs
    | none => playlist_run_lenient pl cs

/-! ## `xmms_object_emit_f` -/

/-- The C type of the variadic argument that `xmms_object_emit_f` reads with
`va_arg` for each type tag: a `guint32`, a `gint32`, a pointer (its address),
and nothing for `XMMS_OBJECT_CMD_ARG_NONE`. -/
def va_arg_type : xmms_object_cmd_arg_type_t → Type
  | xmms_object_cmd_arg_type_t.XMMS_OBJECT_CMD_ARG_NONE => Unit
  | xmms_object_cmd_arg_type_t.XMMS_OBJECT_CMD_ARG_UINT32 => Nat
  | xmms_object_cmd_arg_type_t.XMMS_OBJECT_CMD_ARG_INT32 => Int
  | xmms_object_cmd_arg_type_t.XMMS_OBJECT_CMD_ARG_STRING => Nat
  | xmms_object_cmd_arg_type_t.XMMS_OBJECT_CMD_ARG_HASHTABLE => Nat
  | xmms_object_cmd_arg_type_t.XMMS_OBJECT_CMD_ARG_UINTLIST => Nat
  | xmms_object_cmd_arg_type_t.XMMS_OBJECT_CMD_ARG_HASHLIST => Nat
  | xmms_object_cmd_arg_type_t.XMMS_OBJECT_CMD_ARG_INTLIST => Nat
  | xmms_object_cmd_arg_type_t.XMMS_OBJECT_CMD_ARG_STRINGLIST => Nat
  | xmms_object_cmd_arg_type_t.XMMS_OBJECT_CMD_ARG_PLCH => Nat

/-- The `switch` of `xmms_object_emit_f`: the member of `arg.retval` that the
type tag selects is written; `XMMS_OBJECT_CMD_ARG_NONE` writes nothing. -/
def emit_f_switch : (type : xmms_object_cmd_arg_type_t) → va_arg_type type →
    xmms_object_cmd_arg_t → xmms_object_cmd_arg_t
  | xmms_object_cmd_arg_type_t.XMMS_OBJECT_CMD_ARG_UINT32, v, arg =>
    { arg with retval := xmms_object_cmd_retval_t.uint32 v }
  | xmms_object_cmd_arg_type_t.XMMS_OBJECT_CMD_ARG_INT32, v, arg =>
    { arg with retval := xmms_object_cmd_retval_t.int32 v }
  | xmms_object_cmd_arg_type_t.XMMS_OBJECT_CMD_ARG_STRING, v, arg =>
    { arg with retval := xmms_object_cmd_retval_t.string v }
  | xmms_object_cmd_arg_type_t.XMMS_OBJECT_CMD_ARG_HASHTABLE, v, arg =>
    { arg with retval := xmms_object_cmd_retval_t.hashtable v }
  | xmms_object_cmd_arg_type_t.XMMS_OBJECT_CMD_ARG_UINTLIST, v, arg =>
    { arg with retval := xmms_object_cmd_retval_t.uintlist v }
  | xmms_object_cmd_arg_type_t.XMMS_OBJECT_CMD_ARG_HASHLIST, v, arg =>
    { arg with retval := xmms_object_cmd_retval_t.hashlist v }
  | xmms_object_cmd_arg_type_t.XMMS_OBJECT_CMD_ARG_INTLIST, v, arg =>
    { arg with retval := xmms_object_cmd_retval_t.intlist v }
  | xmms_object_cmd_arg_type_t.XMMS_OBJECT_CMD_ARG_STRINGLIST, v, arg =>
    { arg with retval := xmms_object_cmd_retval_t.stringlist v }
  | xmms_object_cmd_arg_type_t.XMMS_OBJECT_CMD_ARG_PLCH, v, arg =>
    { arg with retval := xmms_object_cmd_retval_t.plch v }
  | xmms_object_cmd_arg_type_t.XMMS_OBJECT_CMD_ARG_NONE, _, arg => arg

/-- Function `xmms_object_emit_f`.  `ap` is the variadic argument, of the C
type that goes with `type`; `arg` is the local `xmms_object_cmd_arg_t` as it
comes off the stack, not initialised. -/
def xmms_object_emit_f (object : xmms_object_t) (signalid : Nat)
    (type : xmms_object_cmd_arg_type_t) (ap : va_arg_type type)
    (arg : xmms_object_cmd_arg_t) : List (Event xmms_object_cmd_arg_t) :=
  let arg := emit_f_switch type ap arg
  let arg := { arg with rettype := type }
  xmms_object_emit object signalid (some arg)

/-- What a handler gets when it reads `retval` through the member that goes
with the tag `type`: the value, if that member is the one written last;
nothing is there to read for `XMMS_OBJECT_CMD_ARG_NONE`. -/
def retval_read : (type : xmms_object_cmd_arg_type_t) → xmms_object_cmd_retval_t →
    Option (va_arg_type type)
  | xmms_object_cmd_arg_type_t.XMMS_OBJECT_CMD_ARG_NONE, _ => some ()
  | xmms_object_cmd_arg_type_t.XMMS_OBJECT_CMD_ARG_UINT32, xmms_object_cmd_retval_t.uint32 v =>
    some v
  | xmms_object_cmd_arg_type_t.XMMS_OBJECT_CMD_ARG_INT32, xmms_object_cmd_retval_t.int32 v =>
    some v
  | xmms_object_cmd_arg_type_t.XMMS_OBJECT_CMD_ARG_STRING, xmms_object_cmd_retval_t.string v =>
    some v
  | xmms_object_cmd_arg_type_t.XMMS_OBJECT_CMD_ARG_HASHTABLE,
      xmms_object_cmd_retval_t.hashtable v => some v
  | xmms_object_cmd_arg_type_t.XMMS_OBJECT_CMD_ARG_UINTLIST,
      xmms_object_cmd_retval_t.uintlist v => some v
  | xmms_object_cmd_arg_type_t.XMMS_OBJECT_CMD_ARG_HASHLIST,
      xmms_object_cmd_retval_t.hashlist v => some v
  | xmms_object_cmd_arg_type_t.XMMS_OBJECT_CMD_ARG_INTLIST,
      xmms_object_cmd_retval_t.intlist v => some v
  | xmms_object_cmd_arg_type_t.XMMS_OBJECT_CMD_ARG_STRINGLIST,
      xmms_object_cmd_retval_t.stringlist v => some v
  | xmms_object_cmd_arg_type_t.XMMS_OBJECT_CMD_ARG_PLCH, xmms_object_cmd_retval_t.plch v =>
    some v
  | _, _ => none

/-! ## `decode_url` -/

/-- The value of a hexadecimal digit, `none` for any other byte. -/
def hex_digit (c : Nat) : Option Nat :=
  if 48 ≤ c ∧ c ≤ 57 then some (c - 48)
  else if 97 ≤ c ∧ c ≤ 102 then some (c - 87)
  else if 65 ≤ c ∧ c ≤ 70 then some (c - 55)
  else none

/-- The bytes `isspace` accepts in the C locale: space and `\t` to `\r`. -/
def is_space (c : Nat) : Bool :=
  c = 32 ∨ (9 ≤ c ∧ c ≤ 13)

/-- The call `strtoul (ts, &t, 16)` of `decode_url` on the two-character
string `ts = {a, b, 0}`, after the C standard: white space is skipped, one
sign is taken, then hexadecimal digits as far as they go (a `0x` prefix
cannot be followed by a digit in two characters, so its `0` counts as the
number).  The result is the `guchar` the value is stored in (the value
modulo 256, a negated value wrapping first) and how far `t` has moved from
`ts`; without any digit there is no conversion and `t` stays at `ts`. -/
def strtoul_ts (a b : Nat) : Nat × Nat :=
  match hex_digit a, hex_digit b with
  | some x, some y => (16 * x + y, 2)
  | some x, none => (x, 1)
  | none, some y =>
    if is_space a ∨ a = 43 then (y, 2)
    else if a = 45 then ((256 - y) % 256, 2)
    else (0, 0)
  | none, none => (0, 0)

/-- The loop of `decode_url` on the bytes of `url` before its terminating
NUL (none of them 0); the result is the bytes written to `url[0 .. j)`, or
`none` for the jump to `err`.  The write index never passes the read index,
so the input is read as it was. -/
def decode_url_loop : List Nat → Option (List Nat)
  | [] => some []
  | chr :: rest =>
    if chr = 43 then (decode_url_loop rest).map (fun url => 32 :: url)
    else if chr = 37 then
      match rest with
      | [] => none
      | [_] => none
      | ts0 :: ts1 :: rest2 =>
        if (strtoul_ts ts0 ts1).2 ≠ 2 then none
        else (decode_url_loop rest2).map (fun url => (strtoul_ts ts0 ts1).1 :: url)
    else (decode_url_loop rest).map (fun url => chr :: url)

/-- The string at a `gchar *`: the bytes in memory before the first NUL. -/
def c_string (bytes : List Nat) : List Nat :=
  bytes.takeWhile (fun c => c ≠ 0)

/-- Function `decode_url` on a `string` that is not `NULL`.  `g_strdup`
copies the string at `string`; after the loop `url[j] = 0` is written and
`url` returned, so the result is the string at `url`: the bytes written up to
the first NUL among them.  `none` is `NULL`. -/
def decode_url (string : List Nat) : Option (List Nat) :=
  (decode_url_loop (c_string string)).map c_string

/-! ## The positions `list_jump_rel` examines -/

/-- The outer loop of `list_jump_rel` again, giving the playlist positions at
which the loop body runs, in order, in place of what the body does. -/
def list_jump_rel_examined (playlist : List Nat) (currpos inc plsize : Int) :
    Nat → Int → xmmsv_list_iter_t → Option (List Int)
  | 0, _, _ => none
  | fuel + 1, i, it =>
    if i = currpos then some []
    else
      match list_jump_rel_scan (playlist.getD i.toNat 0) it with
      | (true, _) => some [i]
      | (false, it1) =>
        (list_jump_rel_examined playlist currpos inc plsize fuel
          (Int.tmod (i + inc) plsize) it1).map (fun l => i :: l)

/-- The positions `list_jump_rel` examines, with the set-up of the function
around the loop. -/
def list_jump_rel_positions (fuel : Nat) (val : List Int) (cache_currpos : Int)
    (active_playlist : List Nat) (inc : Int) : Option (Except Fault (List Int)) :=
  let currpos := cache_currpos
  let plsize : Int := active_playlist.length
  let currpos := if currpos < 0 then 0 else currpos
  let inc := inc + plsize
  if plsize = 0 then some (Except.error Fault.division_by_zero)
  else
    (list_jump_rel_examined active_playlist currpos inc plsize fuel
      (Int.tmod (currpos + inc) plsize) val).map Except.ok

/-! ## `positions_move` -/

/-- Function `pos_move_cb`: below the target the offset restarts at -1 and
counts down, the destination being `pos + inc`; from the target on it counts
up and is added to the source. -/
def pos_move_cb (curr : Int) (pack : pl_pos_udata_t) : pl_pos_udata_t × List Cmd :=
  if curr < pack.pos then
    let pack : pl_pos_udata_t := if pack.inc ≥ 0 then { pack with inc := -1 } else pack
    ({ pack with inc := pack.inc - 1 }, [Cmd.move_entry curr (pack.pos + pack.inc)])
  else
    ({ pack with inc := pack.inc + 1 }, [Cmd.move_entry (curr + pack.inc) pack.pos])

/-- Function `positions_move`. -/
def positions_move (positions : List Int) (pos : Int) : List Cmd :=
  let udata : pl_pos_udata_t := { inc := 0, pos := pos }
  (playlist_positions_foreach positions pos_move_cb false udata).2

/-- The entries of a list that stand at the raw indices in `s`, in their
order; the head of the list has raw index `i`. -/
def select_indices_from {α : Type} (i : Int) : List α → List Int → List α
  | [], _ => []
  | x :: xs, s =>
    if i ∈ s then x :: select_indices_from (i + 1) xs s
    else select_indices_from (i + 1) xs s

/-- The entries of the playlist at the raw indices in `s`, in ascending
order of index. -/
def select_indices {α : Type} (pl : List α) (s : List Int) : List α :=
  select_indices_from 0 pl s

/-! ## The subscription table in memory

The lists of `object->signals` hold pointers to entries that `g_new0`
allocates and `g_free` releases.  The definitions below follow the same
three functions with the entries on a heap and record every access in
program order. -/

/-- One access of the object bus, in program order. -/
inductive Access where
  | g_mutex_lock
  | g_mutex_unlock
  /-- A read of `object->signals[signalid]`. -/
  | signals_read (signalid : Nat)
  /-- A write of `object->signals[signalid]`. -/
  | signals_write (signalid : Nat)
  /-- The call `g_new0 (xmms_object_handler_entry_t, 1)`, which returned `entry`. -/
  | g_new0 (entry : Nat)
  /-- The call `g_free (node->data)`. -/
  | g_free (entry : Nat)
  /-- A read of a field of `*entry`. -/
  | entry_read (entry : Nat)
  /-- The call `entry->handler (object, data, entry->userdata)`. -/
  | call (handler : Nat) (userdata : Nat)
deriving DecidableEq, Repr

/-- The object with its entries on the heap: `signals` gives the list of
entry pointers of each signal kind, `heap` the entries that are allocated,
`brk` the address the next `g_new0` returns (an address not in use). -/
structure xmms_object_mem_t where
  id : Nat
  signals : Nat → List Nat
  heap : Nat → Option xmms_object_handler_entry_t
  brk : Nat

/-- What a call leaves behind: the object, the accesses it made, and the
fault that stopped it, if any. -/
structure Run where
  object : xmms_object_mem_t
  trace : List Access
  fault : Option Fault

/-- Function `xmms_object_connect` on the heap.  No statement of it locks
the mutex. -/
def xmms_object_connect_mem (object : xmms_object_mem_t) (signalid : Nat)
    (handler : Option Nat) (userdata : Nat) : Run :=
  if !(object.id == XMMS_OBJECT_MID) then ⟨object, [], none⟩
  else
    match handler with
    | none => ⟨object, [], none⟩
    | some _ =>
      let entry := object.brk
      let heap := Function.update object.heap entry
        (some { handler := handler, userdata := userdata })
      match object.signals signalid with
      | [] =>
        ⟨{ object with
            heap := heap, brk := entry + 1,
            signals := Function.update object.signals signalid [entry] },
          [Access.g_new0 entry, Access.signals_read signalid,
            Access.signals_write signalid], none⟩
      | node :: rest =>
        ⟨{ object with
            heap := heap, brk := entry + 1,
            signals := Function.update object.signals signalid (entry :: node :: rest) },
          [Access.g_new0 entry, Access.signals_read signalid, Access.signals_read signalid,
            Access.signals_write signalid], none⟩

/-- The search loop of `xmms_object_disconnect` on the heap: the index and
the entry pointer of the first node whose entry has the handler.  Reading
`entry->handler` of a released entry is a fault. -/
def disconnect_scan (heap : Nat → Option xmms_object_handler_entry_t) (handler : Nat) :
    List Nat → Nat → List Access × Except Fault (Option (Nat × Nat))
  | [], _ => ([], Except.ok none)
  | entry :: rest, node =>
    match heap entry with
    | none => ([Access.entry_read entry], Except.error Fault.use_after_free)
    | some e =>
      if e.handler = some handler then
        ([Access.entry_read entry], Except.ok (some (node, entry)))
      else
        let r := disconnect_scan heap handler rest (node + 1)
        (Access.entry_read entry :: r.1, r.2)

/-- Function `xmms_object_disconnect` on the heap. -/
def xmms_object_disconnect_mem (object : xmms_object_mem_t) (signalid : Nat)
    (handler : Option Nat) : Run :=
  if !(object.id == XMMS_OBJECT_MID) then ⟨object, [], none⟩
  else
    match handler with
    | none => ⟨object, [], none⟩
    | some h =>
      match object.signals signalid with
      | [] =>
        ⟨object, [Access.g_mutex_lock, Access.signals_read signalid, Access.g_mutex_unlock],
          none⟩
      | node0 :: rest0 =>
        let list := node0 :: rest0
        let scan := disconnect_scan object.heap h list 0
        let head := [Access.g_mutex_lock, Access.signals_read signalid,
          Access.signals_read signalid]
        match scan.2 with
        | Except.error f => ⟨object, head ++ scan.1, some f⟩
        | Except.ok none => ⟨object, head ++ scan.1 ++ [Access.g_mutex_unlock], none⟩
        | Except.ok (some (node, entry)) =>
          ⟨{ object with
              heap := Function.update object.heap entry none,
              signals := Function.update object.signals signalid (list.eraseIdx node) },
            head ++ scan.1 ++ [Access.g_free entry, Access.signals_write signalid,
              Access.g_mutex_unlock], none⟩

/-- A call a handler makes on the object it was invoked for. -/
inductive BusOp where
  | connect (signalid : Nat) (handler : Nat) (userdata : Nat)
  | disconnect (signalid : Nat) (handler : Nat)
deriving DecidableEq, Repr

/-- One call of a handler body. -/
def bus_op (object : xmms_object_mem_t) : BusOp → Run
  | BusOp.connect signalid handler userdata =>
    xmms_object_connect_mem object signalid (some handler) userdata
  | BusOp.disconnect signalid handler =>
    xmms_object_disconnect_mem object signalid (some handler)

/-- The calls of a handler body, in order, up to the first fault. -/
def handler_body (object : xmms_object_mem_t) : List BusOp → Run
  | [] => ⟨object, [], none⟩
  | op :: ops =>
    let r := bus_op object op
    match r.fault with
    | some f => ⟨r.object, r.trace, some f⟩
    | none =>
      let r2 := handler_body r.object ops
      ⟨r2.object, r.trace ++ r2.trace, r2.fault⟩

/-- The second loop of `xmms_object_emit` on the heap: for each node of
`list2` the entry is read and its handler, if not `NULL`, is called.  `body`
gives the calls each handler makes on the object.  Reading a released entry
is a fault. -/
def emit_calls (body : Nat → List BusOp) :
    List Nat → xmms_object_mem_t → Run
  | [], object => ⟨object, [], none⟩
  | entry :: rest, object =>
    match object.heap entry with
    | none => ⟨object, [Access.entry_read entry], some Fault.use_after_free⟩
    | some e =>
      match e.handler with
      | none =>
        let r := emit_calls body rest object
        ⟨r.object, Access.entry_read entry :: r.trace, r.fault⟩
      | some h =>
        let r1 := handler_body object (body h)
        match r1.fault with
        | some f =>
          ⟨r1.object, Access.entry_read entry :: Access.call h e.userdata :: r1.trace, some f⟩
        | none =>
          let r2 := emit_calls body rest r1.object
          ⟨r2.object,
            Access.entry_read entry :: Access.call h e.userdata :: (r1.trace ++ r2.trace),
            r2.fault⟩

/-- Function `xmms_object_emit` on the heap.  The first loop copies the
pointers of the list into `list2` by prepending. -/
def xmms_object_emit_mem (body : Nat → List BusOp) (object : xmms_object_mem_t)
    (signalid : Nat) : Run :=
  if !(object.id == XMMS_OBJECT_MID) then ⟨object, [], none⟩
  else
    let list := object.signals signalid
    let list2 := list.foldl (fun list2 entry => entry :: list2) []
    let r := emit_calls body list2 object
    ⟨r.object,
      [Access.g_mutex_lock, Access.signals_read signalid, Access.g_mutex_unlock] ++ r.trace,
      r.fault⟩

/-- Whether the mutex is held after a trace that starts with it held or not. -/
def mutex_after : Bool → List Access → Bool
  | held, [] => held
  | _, Access.g_mutex_lock :: t => mutex_after true t
  | _, Access.g_mutex_unlock :: t => mutex_after false t
  | held, _ :: t => mutex_after held t

/-- Whether every handler call of a trace happens while the mutex is not
held. -/
def calls_unlocked : Bool → List Access → Bool
  | _, [] => true
  | _, Access.g_mutex_lock :: t => calls_unlocked true t
  | _, Access.g_mutex_unlock :: t => calls_unlocked false t
  | held, Access.call _ _ :: t => !held && calls_unlocked held t
  | held, _ :: t => calls_unlocked held t

/-- Whether every read and write of the subscription table in a trace
happens while the mutex is held. -/
def table_locked : Bool → List Access → Bool
  | _, [] => true
  | _, Access.g_mutex_lock :: t => table_locked true t
  | _, Access.g_mutex_unlock :: t => table_locked false t
  | held, Access.signals_read _ :: t => held && table_locked held t
  | held, Access.signals_write _ :: t => held && table_locked held t
  | held, _ :: t => table_locked held t

/-- The handlers a trace calls, in order. -/
def called : List Access → List Nat
  | [] => []
  | Access.call h _ :: t => h :: called t
  | _ :: t => called t

/-- An object as `__int_xmms_object_new` leaves it: the tag set, no
subscription, nothing allocated.  Address 0 is `NULL`. -/
def object_mem_new : xmms_object_mem_t :=
  { id := XMMS_OBJECT_MID, signals := fun _ => [], heap := fun _ => none, brk := 1 }

/-! # Theorems -/

/-! ## Lemmas on the subscription table -/

theorem disconnect_find_none (handler : Option Nat) (l : List xmms_object_handler_entry_t)
    (h : ∀ e ∈ l, e.handler ≠ handler) : disconnect_find handler l = none := by
  induction l with
  | nil => rfl
  | cons a l ih =>
    have ha : a.handler ≠ handler := h a (List.mem_cons_self a l)
    have hl : ∀ e ∈ l, e.handler ≠ handler := fun e he => h e (List.mem_cons_of_mem a he)
    simp [disconnect_find, ha, ih hl]

theorem disconnect_find_first (handler : Option Nat)
    (pre : List xmms_object_handler_entry_t) (e : xmms_object_handler_entry_t)
    (post : List xmms_object_handler_entry_t)
    (he : e.handler = handler) (hpre : ∀ x ∈ pre, x.handler ≠ handler) :
    disconnect_find handler (pre ++ e :: post) = some pre.length := by
  induction pre with
  | nil => simp [disconnect_find, he]
  | cons a pre ih =>
    have ha : a.handler ≠ handler := hpre a (List.mem_cons_self a pre)
    have hl : ∀ x ∈ pre, x.handler ≠ handler := fun x hx => hpre x (List.mem_cons_of_mem a hx)
    simp [disconnect_find, ha, ih hl]

theorem eraseIdx_length_append {α : Type} (pre : List α) (e : α) (post : List α) :
    (pre ++ e :: post).eraseIdx pre.length = pre ++ post := by
  induction pre with
  | nil => rfl
  | cons a pre ih => simp [List.eraseIdx, ih]

theorem foldl_prepend_eq_reverse {α : Type} (l acc : List α) :
    l.foldl (fun list2 entry => entry :: list2) acc = l.reverse ++ acc := by
  induction l generalizing acc with
  | nil => rfl
  | cons a l ih => simp [List.foldl, ih]

theorem connect_signals (object : xmms_object_t) (signalid h userdata : Nat)
    (hobj : XMMS_IS_OBJECT object = true) :
    (xmms_object_connect object signalid (some h) userdata).signals =
      Function.update object.signals signalid
        (⟨some h, userdata⟩ :: object.signals signalid) := by
  unfold xmms_object_connect
  cases hs : object.signals signalid <;> simp [hobj]

theorem connect_id (object : xmms_object_t) (signalid : Nat) (handler : Option Nat)
    (userdata : Nat) :
    (xmms_object_connect object signalid handler userdata).id = object.id := by
  unfold xmms_object_connect
  split
  · rfl
  · split
    · rfl
    · split <;> rfl

theorem connect_is_object (object : xmms_object_t) (signalid : Nat) (handler : Option Nat)
    (userdata : Nat) :
    XMMS_IS_OBJECT (xmms_object_connect object signalid handler userdata)
      = XMMS_IS_OBJECT object := by
  simp [XMMS_IS_OBJECT, connect_id]

theorem connect_all_is_object (object : xmms_object_t) (signalid : Nat) (regs : List (Nat × Nat)) :
    XMMS_IS_OBJECT (connect_all object signalid regs) = XMMS_IS_OBJECT object := by
  induction regs generalizing object with
  | nil => rfl
  | cons r regs ih =>
    obtain ⟨h, u⟩ := r
    simp [connect_all, ih, connect_is_object]

theorem connect_all_signals (object : xmms_object_t) (signalid : Nat) (regs : List (Nat × Nat))
    (hobj : XMMS_IS_OBJECT object = true) :
    (connect_all object signalid regs).signals signalid =
      (regs.map (fun r => (⟨some r.1, r.2⟩ : xmms_object_handler_entry_t))).reverse
        ++ object.signals signalid := by
  induction regs generalizing object with
  | nil => simp [connect_all]
  | cons r regs ih =>
    obtain ⟨h, u⟩ := r
    have ho : XMMS_IS_OBJECT (xmms_object_connect object signalid (some h) u) = true := by
      rw [connect_is_object]; exact hobj
    simp [connect_all, ih _ ho, connect_signals _ _ _ _ hobj]

theorem emit_eq (δ : Type) (object : xmms_object_t) (signalid : Nat) (data : Option δ)
    (hobj : XMMS_IS_OBJECT object = true) :
    xmms_object_emit object signalid data =
      Event.g_mutex_lock :: Event.g_mutex_unlock ::
        (object.signals signalid).reverse.filterMap (fun entry =>
          match entry.handler with
          | some h => some (Event.handler h object data entry.userdata)
          | none => none) := by
  simp [xmms_object_emit, hobj, foldl_prepend_eq_reverse]

theorem gint_wrap_of_range (x : Int) (h0 : -2147483648 ≤ x) (h1 : x < 2147483648) :
    gint_wrap x = x := by
  unfold gint_wrap
  omega

theorem new_is_object (destfunc : Option Nat) :
    XMMS_IS_OBJECT (__int_xmms_object_new destfunc) = true := by
  simp only [__int_xmms_object_new, xmms_object_ref, XMMS_IS_OBJECT, beq_self_eq_true, if_true]

theorem new_fields (destfunc : Option Nat) :
    __int_xmms_object_new destfunc =
      { id := XMMS_OBJECT_MID, signals := fun _ => [], cmds := fun _ => none, ref := 1,
        destroy_func := destfunc } := by
  simp only [__int_xmms_object_new, xmms_object_ref, XMMS_IS_OBJECT, beq_self_eq_true, if_true]
  rw [gint_wrap_of_range (0 + 1) (by omega) (by omega)]
  simp only [zero_add]


/-! ## Signals: `xmms_object_emit` and `xmms_object_disconnect` -/

/-- C1 (as amended): on every object that passes the type-tag test,
`xmms_object_emit` locks, copies and unlocks, and then calls the handler of
every entry of the signal kind exactly once, with the emitting object, the
given payload and the entry's own userdata, in the reverse of the
subscription-list order; after connecting a sequence of (handler, userdata)
pairs to a signal kind that had no entry, that is the order of registration:
first connected, first called. -/
theorem emit_calls_in_registration_order (δ : Type) (object : xmms_object_t) (signalid : Nat)
    (data : Option δ) (regs : List (Nat × Nat))
    (hobj : XMMS_IS_OBJECT object = true) :
    xmms_object_emit object signalid data =
        Event.g_mutex_lock :: Event.g_mutex_unlock ::
          (object.signals signalid).reverse.filterMap (fun entry =>
            match entry.handler with
            | some h => some (Event.handler h object data entry.userdata)
            | none => none)
    ∧ (object.signals signalid = [] →
        xmms_object_emit (connect_all object signalid regs) signalid data =
          Event.g_mutex_lock :: Event.g_mutex_unlock ::
            regs.map (fun r =>
              Event.handler r.1 (connect_all object signalid regs) data r.2)) := by
  refine ⟨emit_eq δ object signalid data hobj, fun hempty => ?_⟩
  have ho : XMMS_IS_OBJECT (connect_all object signalid regs) = true := by
    rw [connect_all_is_object]; exact hobj
  rw [emit_eq δ _ signalid data ho, connect_all_signals object signalid regs hobj, hempty]
  simp only [List.reverse_append, List.reverse_nil, List.nil_append, List.reverse_reverse,
    List.filterMap_map, Function.comp_def]
  have key : ∀ (o : xmms_object_t) (l : List (Nat × Nat)),
      List.filterMap (fun x => some (Event.handler x.1 o data x.2)) l
        = List.map (fun r => Event.handler r.1 o data r.2) l := by
    intro o l
    induction l with
    | nil => rfl
    | cons r l ih => simp [List.filterMap_cons, ih]
  rw [key]

/-- Witness of `emit_calls_in_registration_order`: handlers 1, 2, 3 connected
in this order to signal 5 of a new object. -/
theorem emit_calls_in_registration_order_witness :
    handler_calls (xmms_object_emit
      (connect_all (__int_xmms_object_new none) 5 [(1, 10), (2, 20), (3, 30)]) 5
      (none : Option Nat)) = [(1, 10), (2, 20), (3, 30)] := by
  have h := (emit_calls_in_registration_order Nat (__int_xmms_object_new none) 5 none
    [(1, 10), (2, 20), (3, 30)] (by decide)).2 (by rfl)
  rw [h]
  rfl

/-- C1, counterexample: handlers A = 1, B = 2, C = 3 connected in this order
to one signal kind of a new object stand in the list as C, B, A and are
called as A, B, C, not as C, B, A. -/
theorem emit_order_counterexample :
    (connect_all (__int_xmms_object_new none) 5 [(1, 10), (2, 20), (3, 30)]).signals 5
        = [⟨some 3, 30⟩, ⟨some 2, 20⟩, ⟨some 1, 10⟩]
    ∧ handler_calls (xmms_object_emit
        (connect_all (__int_xmms_object_new none) 5 [(1, 10), (2, 20), (3, 30)]) 5
        (none : Option Nat)) = [(1, 10), (2, 20), (3, 30)]
    ∧ handler_calls (xmms_object_emit
        (connect_all (__int_xmms_object_new none) 5 [(1, 10), (2, 20), (3, 30)]) 5
        (none : Option Nat)) ≠ [(3, 30), (2, 20), (1, 10)] := by
  refine ⟨by rfl, by rfl, ?_⟩
  have h : handler_calls (xmms_object_emit
        (connect_all (__int_xmms_object_new none) 5 [(1, 10), (2, 20), (3, 30)]) 5
        (none : Option Nat)) = [(1, 10), (2, 20), (3, 30)] := by rfl
  rw [h]
  decide

theorem disconnect_eq (object : xmms_object_t) (signalid h : Nat)
    (hobj : XMMS_IS_OBJECT object = true) :
    xmms_object_disconnect object signalid (some h) =
      match disconnect_find (some h) (object.signals signalid) with
      | none => object
      | some node =>
        { object with
          signals := Function.update object.signals signalid
            ((object.signals signalid).eraseIdx node) } := by
  unfold xmms_object_disconnect
  cases hl : object.signals signalid with
  | nil => simp [hobj, disconnect_find]
  | cons a l => simp [hobj]

/-- C10: on an object that passes the type-tag test, `xmms_object_disconnect`
of a handler takes out of the list of the signal kind the first entry with
that handler, whatever its userdata, and keeps the entries before and after
it in their order; with no such entry the list stays as it is; the lists of
the other signal kinds and the other fields are never touched. -/
theorem disconnect_removes_first_match (object : xmms_object_t) (signalid h : Nat)
    (hobj : XMMS_IS_OBJECT object = true) :
    (∀ pre e post, object.signals signalid = pre ++ e :: post →
        e.handler = some h → (∀ x ∈ pre, x.handler ≠ some h) →
        (xmms_object_disconnect object signalid (some h)).signals signalid = pre ++ post)
    ∧ ((∀ e ∈ object.signals signalid, e.handler ≠ some h) →
        (xmms_object_disconnect object signalid (some h)).signals signalid
          = object.signals signalid)
    ∧ (∀ s, s ≠ signalid →
        (xmms_object_disconnect object signalid (some h)).signals s = object.signals s)
    ∧ (xmms_object_disconnect object signalid (some h)).cmds = object.cmds
    ∧ (xmms_object_disconnect object signalid (some h)).ref = object.ref
    ∧ (xmms_object_disconnect object signalid (some h)).id = object.id
    ∧ (xmms_object_disconnect object signalid (some h)).destroy_func = object.destroy_func := by
  rw [disconnect_eq object signalid h hobj]
  refine ⟨?_, ?_, ?_, ?_, ?_, ?_, ?_⟩
  · intro pre e post hl he hpre
    rw [hl, disconnect_find_first (some h) pre e post he hpre]
    simp only [Function.update_same]
    exact eraseIdx_length_append pre e post
  · intro hno
    rw [disconnect_find_none (some h) _ hno]
  · intro s hs
    cases disconnect_find (some h) (object.signals signalid) with
    | none => rfl
    | some node => simp only [Function.update_noteq hs]
  all_goals
    cases disconnect_find (some h) (object.signals signalid) <;> rfl

/-- Witness of `disconnect_removes_first_match`: handler 7 registered with
userdata 2 and then with userdata 1; the disconnect removes the entry at the
head, the one with userdata 1. -/
theorem disconnect_removes_first_match_witness :
    (xmms_object_disconnect
      (connect_all (__int_xmms_object_new none) 0 [(7, 2), (8, 0), (7, 1)]) 0 (some 7)).signals 0
      = [⟨some 8, 0⟩, ⟨some 7, 2⟩] :=
  (disconnect_removes_first_match
    (connect_all (__int_xmms_object_new none) 0 [(7, 2), (8, 0), (7, 1)]) 0 7 (by decide)).1
    [] ⟨some 7, 1⟩ [⟨some 8, 0⟩, ⟨some 7, 2⟩] (by rfl) (by rfl) (by simp)

/-- C3, the code at the failing input: on a new object no descriptor is
registered, and `xmms_object_cmd_call` on any command id reads `desc->func`
through the `NULL` descriptor: the outcome is a null dereference, not an
"unimplemented command" result. -/
theorem cmd_call_unregistered_null_dereference (destfunc : Option Nat) (cmdid : Nat)
    (arg : xmms_object_cmd_arg_t) :
    (__int_xmms_object_new destfunc).cmds cmdid = none
    ∧ (xmms_object_cmd_call (__int_xmms_object_new destfunc) cmdid arg :
        Except Fault (List (Event Nat))) = Except.error Fault.null_dereference := by
  rw [new_fields]
  exact ⟨rfl, rfl⟩


/-! ## Reference counting -/

theorem ref_balance_eq_count (ops : List RefOp) :
    ref_balance ops = (ops.count RefOp.ref : Int) - (ops.count RefOp.unref : Int) := by
  induction ops with
  | nil => simp [ref_balance]
  | cons op ops ih =>
    cases op <;> simp [ref_balance, ih, List.count_cons] <;> omega

theorem destroy_calls_append {δ : Type} (a b : List (Event δ)) :
    destroy_calls (a ++ b) = destroy_calls a ++ destroy_calls b := by
  induction a with
  | nil => rfl
  | cons e a ih => cases e <;> simp [destroy_calls, ih]

theorem destroy_calls_handlers {δ : Type} (object : xmms_object_t) (data : Option δ)
    (l : List xmms_object_handler_entry_t) :
    destroy_calls (l.filterMap (fun entry =>
      match entry.handler with
      | some h => some (Event.handler h object data entry.userdata)
      | none => none)) = [] := by
  induction l with
  | nil => rfl
  | cons e l ih =>
    cases hh : e.handler <;> simp [List.filterMap_cons, hh, destroy_calls, ih]

theorem destroy_calls_emit {δ : Type} (object : xmms_object_t) (signalid : Nat)
    (data : Option δ) : destroy_calls (xmms_object_emit object signalid data) = [] := by
  by_cases hobj : XMMS_IS_OBJECT object = true
  · rw [emit_eq δ object signalid data hobj]
    simp only [destroy_calls]
    exact destroy_calls_handlers object data _
  · simp [xmms_object_emit, hobj, destroy_calls]

theorem destroy_calls_cleanup {δ : Type} (object : xmms_object_t) :
    destroy_calls (xmms_object_cleanup object : List (Event δ)) = [] := by
  unfold xmms_object_cleanup
  split
  · rfl
  · rw [destroy_calls_append]
    have h1 : ∀ (l : List xmms_object_handler_entry_t),
        destroy_calls (l.map (fun entry => (Event.g_free_entry entry : Event δ))) = [] := by
      intro l
      induction l with
      | nil => rfl
      | cons e l ih => simp [destroy_calls, ih]
    have h2 : ∀ (r : List Nat),
        destroy_calls (r.flatMap (fun i =>
          match object.signals i with
          | [] => ([] : List (Event δ))
          | list => list.map (fun entry => Event.g_free_entry entry) ++ [Event.g_list_free i]))
          = [] := by
      intro r
      induction r with
      | nil => rfl
      | cons i r ih =>
        rw [List.flatMap_cons, destroy_calls_append, ih]
        split
        · rfl
        · rw [destroy_calls_append, h1]; rfl
    rw [h2]
    rfl

theorem unref_destroy_calls (δ : Type) (object : xmms_object_t) (f : Nat)
    (hf : object.destroy_func = some f) (h1 : gint_wrap (object.ref - 1) = 0) :
    __int_xmms_object_unref δ object
      = (none, (__int_xmms_object_unref δ object).2)
    ∧ destroy_calls (__int_xmms_object_unref δ object).2 = [f] := by
  unfold __int_xmms_object_unref
  simp [h1, hf, destroy_calls_append, destroy_calls_emit, destroy_calls_cleanup, destroy_calls]

theorem unref_alive (δ : Type) (object : xmms_object_t)
    (h1 : gint_wrap (object.ref - 1) ≠ 0) :
    __int_xmms_object_unref δ object
      = (some { object with ref := gint_wrap (object.ref - 1) }, []) := by
  unfold __int_xmms_object_unref
  simp [h1]

theorem ref_run_cons (δ : Type) (o : Option xmms_object_t) (op : RefOp) (ops : List RefOp) :
    ref_run δ o (op :: ops) = ref_run δ (ref_step δ o op).1 ops := rfl

theorem ref_trace_cons (δ : Type) (o : Option xmms_object_t) (op : RefOp) (ops : List RefOp) :
    ref_trace δ o (op :: ops) = (ref_step δ o op).2 :: ref_trace δ (ref_step δ o op).1 ops := rfl

theorem ref_lifecycle (δ : Type) (f : Nat) (ops : List RefOp) :
    ∀ o : xmms_object_t, XMMS_IS_OBJECT o = true → o.destroy_func = some f →
      -2147483648 ≤ o.ref → o.ref < 2147483648 → ops ≠ [] →
      (o.ref + ref_balance ops) % 4294967296 = 0 →
      (∀ k, k < ops.length →
        ∃ o1, ref_run δ (some o) (ops.take k) = some o1 ∧ 0 < o1.ref) →
      ∃ init o1, ops = init ++ [RefOp.unref] ∧ ref_run δ (some o) init = some o1 ∧
        o1.ref = 1 ∧ ref_run δ (some o) ops = none ∧
        (ref_trace δ (some o) ops).map destroy_calls
          = List.replicate init.length [] ++ [[f]] := by
  induction ops with
  | nil => intro o _ _ _ _ hne; exact absurd rfl hne
  | cons op rest ih =>
    intro o hobj hf hlo hhi _ hbal hpos
    have h0 : 0 < o.ref := by
      obtain ⟨o1, h1, h2⟩ := hpos 0 (by simp)
      simp [ref_run] at h1
      subst h1
      exact h2
    cases rest with
    | nil =>
      cases op with
      | ref =>
        simp [ref_balance] at hbal
        omega
      | unref =>
        simp [ref_balance] at hbal
        have hone : o.ref = 1 := by omega
        have hw : gint_wrap (o.ref - 1) = 0 := by simp [hone, gint_wrap]
        obtain ⟨hu1, hu2⟩ := unref_destroy_calls δ o f hf hw
        refine ⟨[], o, rfl, rfl, hone, ?_, ?_⟩
        · simp only [ref_run, ref_step]
          rw [hu1]
        · simp [ref_trace, ref_step, hu2]
    | cons op2 rest2 =>
      obtain ⟨o1, hrun1, hpos1⟩ := hpos 1 (by simp)
      have hstep : ref_step δ (some o) op = (some o1, []) ∧ o1.id = o.id ∧
          o1.destroy_func = o.destroy_func ∧
          (o1.ref = gint_wrap (o.ref + 1) ∧ op = RefOp.ref ∨
            o1.ref = gint_wrap (o.ref - 1) ∧ op = RefOp.unref) := by
        cases op with
        | ref =>
          simp [ref_run, ref_step] at hrun1
          subst hrun1
          simp [ref_step, xmms_object_ref, hobj]
        | unref =>
          simp [ref_run, ref_step] at hrun1
          by_cases hw : gint_wrap (o.ref - 1) = 0
          · rw [(unref_destroy_calls δ o f hf hw).1] at hrun1
            simp at hrun1
          · rw [unref_alive δ o hw] at hrun1
            simp at hrun1
            subst hrun1
            simp [ref_step, unref_alive δ o hw]
      obtain ⟨hs, hid, hdf, href⟩ := hstep
      have hobj1 : XMMS_IS_OBJECT o1 = true := by
        simp only [XMMS_IS_OBJECT, hid] at hobj ⊢
        exact hobj
      have hrange : -2147483648 ≤ o1.ref ∧ o1.ref < 2147483648 ∧
          (o1.ref + ref_balance (op2 :: rest2)) % 4294967296 = 0 := by
        rcases href with ⟨hr, hop⟩ | ⟨hr, hop⟩
        · subst hop
          simp only [ref_balance] at hbal
          rw [hr]
          unfold gint_wrap
          omega
        · subst hop
          simp only [ref_balance] at hbal
          rw [hr]
          unfold gint_wrap
          omega
      have hpos2 : ∀ k, k < (op2 :: rest2).length →
          ∃ o2, ref_run δ (some o1) ((op2 :: rest2).take k) = some o2 ∧ 0 < o2.ref := by
        intro k hk
        obtain ⟨o2, h1, h2⟩ := hpos (k + 1) (by simpa using hk)
        refine ⟨o2, ?_, h2⟩
        simpa [ref_run, hs] using h1
      obtain ⟨init, o2, hinit, hrun, hone, hnone, htrace⟩ :=
        ih o1 hobj1 (hdf.trans hf) hrange.1 hrange.2.1 (by simp) hrange.2.2 hpos2
      refine ⟨op :: init, o2, by simp [hinit], ?_, hone, ?_, ?_⟩
      · rw [ref_run_cons, hs]
        exact hrun
      · rw [ref_run_cons, hs]
        exact hnone
      · rw [ref_trace_cons, hs, List.map_cons, htrace]
        simp only [destroy_calls, List.length_cons, List.replicate_succ, List.cons_append]

/-- C2: an object made by `__int_xmms_object_new` with a destroy callback `f`
starts with count 1; for every `n` and every sequence of `n` refs and `n + 1`
unrefs that keeps the object alive with a positive count before its last
operation, no operation but the last calls the destroy callback, the last
operation is an unref that finds the count at 1, and that unref calls `f`
exactly once and frees the object. -/
theorem unref_destroys_exactly_once_at_last (δ : Type) (f n : Nat) (ops : List RefOp)
    (hrefs : ops.count RefOp.ref = n) (hunrefs : ops.count RefOp.unref = n + 1)
    (hpos : ∀ k, k < ops.length →
      ∃ o, ref_run δ (some (__int_xmms_object_new (some f))) (ops.take k) = some o
        ∧ 0 < o.ref) :
    (__int_xmms_object_new (some f)).ref = 1
    ∧ ∃ init o, ops = init ++ [RefOp.unref]
      ∧ ref_run δ (some (__int_xmms_object_new (some f))) init = some o ∧ o.ref = 1
      ∧ ref_run δ (some (__int_xmms_object_new (some f))) ops = none
      ∧ (ref_trace δ (some (__int_xmms_object_new (some f))) ops).map destroy_calls
          = List.replicate (2 * n) [] ++ [[f]] := by
  have hnew : (__int_xmms_object_new (some f)).ref = 1 := by rw [new_fields]
  have hobj : XMMS_IS_OBJECT (__int_xmms_object_new (some f)) = true := new_is_object _
  have hdf : (__int_xmms_object_new (some f)).destroy_func = some f := by rw [new_fields]
  have hne : ops ≠ [] := by
    intro h
    subst h
    simp at hunrefs
  have hbal : ((__int_xmms_object_new (some f)).ref + ref_balance ops) % 4294967296 = 0 := by
    rw [hnew, ref_balance_eq_count, hrefs, hunrefs]
    omega
  obtain ⟨init, o, hinit, hrun, hone, hnone, htrace⟩ :=
    ref_lifecycle δ f ops _ hobj hdf (by rw [hnew]; omega) (by rw [hnew]; omega) hne hbal hpos
  refine ⟨hnew, init, o, hinit, hrun, hone, hnone, ?_⟩
  have hlen : init.length = 2 * n := by
    have h1 : ops.count RefOp.ref + ops.count RefOp.unref = ops.length := by
      clear hpos hrun hnone htrace hbal hinit hne hrefs hunrefs
      induction ops with
      | nil => rfl
      | cons op ops ih => cases op <;> simp [List.count_cons] <;> omega
    have h2 : ops.length = init.length + 1 := by rw [hinit]; simp
    omega
  rw [htrace, hlen]

/-- Witness of `unref_destroys_exactly_once_at_last`: ref, unref, unref on a
new object with destroy callback 9. -/
theorem unref_destroys_exactly_once_at_last_witness :
    (ref_trace Nat (some (__int_xmms_object_new (some 9)))
        [RefOp.ref, RefOp.unref, RefOp.unref]).map destroy_calls
      = [[], [], [9]] := by
  have hw : gint_wrap ((xmms_object_ref (__int_xmms_object_new (some 9))).ref - 1) ≠ 0 := by
    rw [new_fields]
    simp [xmms_object_ref, XMMS_IS_OBJECT, gint_wrap]
  obtain ⟨_, init, o, _, _, _, _, h⟩ :=
    unref_destroys_exactly_once_at_last Nat 9 1
      [RefOp.ref, RefOp.unref, RefOp.unref] (by decide) (by decide)
      (by
        intro k hk
        have hk3 : k < 3 := hk
        interval_cases k
        · exact ⟨_, rfl, by rw [new_fields]; decide⟩
        · refine ⟨xmms_object_ref (__int_xmms_object_new (some 9)), rfl, ?_⟩
          rw [new_fields]
          simp [xmms_object_ref, XMMS_IS_OBJECT, gint_wrap]
        · refine ⟨{ xmms_object_ref (__int_xmms_object_new (some 9)) with
              ref := gint_wrap ((xmms_object_ref (__int_xmms_object_new (some 9))).ref - 1) },
            ?_, ?_⟩
          · show (ref_step Nat (some (xmms_object_ref (__int_xmms_object_new (some 9))))
              RefOp.unref).1 = _
            simp only [ref_step]
            rw [unref_alive Nat _ hw]
          · rw [new_fields]
            simp [xmms_object_ref, XMMS_IS_OBJECT, gint_wrap])
  simpa using h

/-! ## `remove_list` -/

theorem remove_list_scan_spec (plid : Int) (it : xmmsv_list_iter_t) :
    (∀ id ∈ (remove_list_scan plid it).2, id ∈ it)
    ∧ ((remove_list_scan plid it).1 = true → plid ∈ it) := by
  induction it with
  | nil => simp [remove_list_scan]
  | cons id rest ih =>
    unfold remove_list_scan
    by_cases h : plid = id
    · simp [h]
    · simp only [h, if_false]
      refine ⟨fun x hx => List.mem_cons_of_mem _ (ih.1 x hx), fun hb => ?_⟩
      exact List.mem_cons_of_mem _ (ih.2 hb)

theorem playlist_remove_entry_at_length {α : Type} (pre : List α) (x : α) (post : List α)
    (p : Int) (hp : p = pre.length) :
    playlist_remove_entry (pre ++ x :: post) p = some (pre ++ post) := by
  subst hp
  unfold playlist_remove_entry
  have h : (0 : Int) ≤ pre.length ∧ ((pre.length : Int) < ((pre ++ x :: post).length : Int)) := by
    constructor
    · omega
    · simp only [List.length_append, List.length_cons]; omega
  rw [if_pos h]
  simp

theorem remove_list_loop_spec (matchval : List Int) (plistit : xmmsv_list_iter_t) :
    ∀ (matchit : xmmsv_list_iter_t) (pre : List Int) (i offset : Int),
      i - offset = pre.length → (∀ id ∈ matchit, id ∈ matchval) →
      ∃ r, playlist_run (pre ++ plistit) (remove_list_loop plistit matchit i offset)
          = some (pre ++ r)
        ∧ r.Sublist plistit
        ∧ r.filter (fun x => decide (x ∉ matchval))
            = plistit.filter (fun x => decide (x ∉ matchval)) := by
  induction plistit with
  | nil =>
    intro matchit pre i offset _ _
    exact ⟨[], by simp [remove_list_loop, playlist_run], List.Sublist.refl _, rfl⟩
  | cons plid plistit ih =>
    intro matchit pre i offset hlen hsub
    have hscan := remove_list_scan_spec plid matchit
    unfold remove_list_loop
    rcases hres : remove_list_scan plid matchit with ⟨b, matchit1⟩
    rw [hres] at hscan
    have hsub1 : ∀ id ∈ matchit1, id ∈ matchval := fun id hid => hsub id (hscan.1 id hid)
    cases b with
    | true =>
      have hmem : plid ∈ matchval := hsub plid (hscan.2 rfl)
      obtain ⟨r, hrun, hsl, hfil⟩ := ih matchit1 pre (i + 1) (offset + 1) (by omega) hsub1
      refine ⟨r, ?_, List.Sublist.cons plid hsl, ?_⟩
      · simp only [playlist_run, playlist_apply]
        rw [playlist_remove_entry_at_length pre plid plistit (i - offset) hlen]
        exact hrun
      · rw [hfil]
        simp [List.filter_cons, hmem]
    | false =>
      obtain ⟨r, hrun, hsl, hfil⟩ :=
        ih matchit1 (pre ++ [plid]) (i + 1) offset (by simp; omega) hsub1
      refine ⟨plid :: r, ?_, List.Sublist.cons₂ plid hsl, ?_⟩
      · simpa using hrun
      · simp only [List.filter_cons, hfil]

/-- C6: for every playlist and match sequence the daemon accepts every
remove-at command that `remove_list` issues, and what is left is the playlist
with some slots deleted, every entry whose id is not in the match sequence
still there in the original order: only slots whose id occurs in the match
sequence are gone. -/
theorem remove_list_keeps_unmatched (matchval plistval : List Int) :
    ∃ r, playlist_run plistval (remove_list matchval plistval) = some r
      ∧ r.Sublist plistval
      ∧ r.filter (fun x => decide (x ∉ matchval))
          = plistval.filter (fun x => decide (x ∉ matchval)) := by
  obtain ⟨r, hrun, hsl, hfil⟩ :=
    remove_list_loop_spec matchval plistval matchval [] 0 0 (by simp) (fun _ h => h)
  exact ⟨r, by simpa [remove_list] using hrun, hsl, hfil⟩

/-- C5, the code at the failing input: for the playlist `[1, 2]` and the match
sequence `[2]` the scan for slot 0 runs the match cursor to its end, nothing
rewinds it, and `remove_list` issues no command at all: id 2 is still in the
playlist, after one pass and after any number of passes. -/
theorem remove_list_leaves_matched_id :
    remove_list [2] [1, 2] = []
    ∧ playlist_run [1, 2] (remove_list [2] [1, 2]) = some [1, 2]
    ∧ (2 : Int) ∈ [1, 2] ∧ (2 : Int) ∈ [2] := by
  decide

/-! ## `move_entries` -/

/-- C4, the code at the failing input: playlist `[1, 2, 3, 4, 5]`, matches
`[1, 4]`, target 2.  Entry 1 is moved forward with `move(0, 1)`; `inc` is not
reset at the change of phase, so entry 4 gets `move(3, 2 + 1)` and stays where
it is: the result is `[2, 1, 3, 4, 5]`, where the specification has
`[2, 1, 4, 3, 5]`. -/
theorem move_entries_both_sides :
    move_entries [1, 4] [1, 2, 3, 4, 5] 2 = [Cmd.move_entry 0 1, Cmd.move_entry 3 3]
    ∧ playlist_run [1, 2, 3, 4, 5] (move_entries [1, 4] [1, 2, 3, 4, 5] 2)
        = some [2, 1, 3, 4, 5]
    ∧ moved_to_spec [1, 4] [1, 2, 3, 4, 5] 2 = [2, 1, 4, 3, 5] := by
  decide

/-! ## `list_jump_rel` -/

theorem list_jump_rel_scan_spec (plid : Nat) (it : xmmsv_list_iter_t) :
    ((list_jump_rel_scan plid it).1 = true → ∃ id ∈ it, plid = guint_of_gint id)
    ∧ ((list_jump_rel_scan plid it).1 = false → (list_jump_rel_scan plid it).2 = []) := by
  induction it with
  | nil => simp [list_jump_rel_scan]
  | cons id rest ih =>
    unfold list_jump_rel_scan
    by_cases h : plid = guint_of_gint id
    · simp [h]
    · simp only [h, if_false]
      refine ⟨fun hb => ?_, ih.2⟩
      obtain ⟨x, hx, hp⟩ := ih.1 hb
      exact ⟨x, List.mem_cons_of_mem _ hx, hp⟩

theorem tmod_step_forward (i n : Int) (h0 : 0 ≤ i) (h1 : i < n) :
    Int.tmod (i + (1 + n)) n = if i + 1 < n then i + 1 else 0 := by
  rw [Int.tmod_eq_emod (by omega) (by omega)]
  split_ifs with h
  · have e : i + (1 + n) = (i + 1) + n * 1 := by ring
    rw [e, Int.add_mul_emod_self_left]
    exact Int.emod_eq_of_lt (by omega) h
  · have e : i + (1 + n) = 0 + n * 2 := by omega
    rw [e, Int.add_mul_emod_self_left]
    simp

theorem tmod_step_backward (i n : Int) (h0 : 0 ≤ i) (h1 : i < n) :
    Int.tmod (i + (-1 + n)) n = if 0 < i then i - 1 else n - 1 := by
  rw [Int.tmod_eq_emod (by omega) (by omega)]
  split_ifs with h
  · have e : i + (-1 + n) = (i - 1) + n * 1 := by ring
    rw [e, Int.add_mul_emod_self_left]
    exact Int.emod_eq_of_lt (by omega) (by omega)
  · have e : i + (-1 + n) = n - 1 := by omega
    rw [e]
    exact Int.emod_eq_of_lt (by omega) (by omega)

/-- The loop of `list_jump_rel` under a measure `m` that every step away from
`currpos` decreases: with more fuel than `m i` it ends, either with the report
or with one `set_next` and one tickle. -/
theorem list_jump_rel_loop_spec (playlist : List Nat) (val : List Int)
    (currpos inc plsize : Int) (m : Int → Nat) (hsize : plsize = playlist.length)
    (hm : ∀ i, 0 ≤ i → i < plsize → i ≠ currpos →
      0 ≤ Int.tmod (i + inc) plsize ∧ Int.tmod (i + inc) plsize < plsize
        ∧ m (Int.tmod (i + inc) plsize) < m i) (fuel : Nat) :
    ∀ (i : Int) (it : xmmsv_list_iter_t), 0 ≤ i → i < plsize → (∀ id ∈ it, id ∈ val) →
      m i < fuel →
      list_jump_rel_loop playlist currpos inc plsize fuel i it
          = some [ClientEvent.g_printf no_match_msg]
      ∨ ∃ p : Nat, p < playlist.length ∧ (p : Int) ≠ currpos
          ∧ (∃ id ∈ val, playlist[p]? = some (guint_of_gint id))
          ∧ list_jump_rel_loop playlist currpos inc plsize fuel i it
              = some [ClientEvent.call (Cmd.set_next p), ClientEvent.call Cmd.tickle] := by
  induction fuel with
  | zero => intro i it _ _ _ hfuel; omega
  | succ fuel ih =>
    intro i it h0 h1 hsub hfuel
    unfold list_jump_rel_loop
    by_cases hi : i = currpos
    · left; simp [hi]
    · simp only [hi, if_false]
      have hscan := list_jump_rel_scan_spec (playlist.getD i.toNat 0) it
      rcases hres : list_jump_rel_scan (playlist.getD i.toNat 0) it with ⟨b, it1⟩
      rw [hres] at hscan
      cases b with
      | true =>
        right
        obtain ⟨id, hid, hp⟩ := hscan.1 rfl
        have hlt : i.toNat < playlist.length := by omega
        refine ⟨i.toNat, hlt, ?_, ⟨id, hsub id hid, ?_⟩, ?_⟩
        · rw [Int.toNat_of_nonneg h0]; exact hi
        · rw [← hp, List.getD_eq_getElem?_getD, List.getElem?_eq_getElem hlt]
          simp
        · simp [Int.toNat_of_nonneg h0]
      | false =>
        have hit1 : it1 = [] := hscan.2 rfl
        obtain ⟨hn0, hn1, hmlt⟩ := hm i h0 h1 hi
        exact ih (Int.tmod (i + inc) plsize) it1 hn0 hn1 (by simp [hit1]) (by omega)

theorem list_jump_rel_from_start (playlist : List Nat) (val : List Int) (currpos d n : Int)
    (hn : n = playlist.length) (hd : d = 1 ∨ d = -1) (hc0 : 0 ≤ currpos) (hc1 : currpos < n)
    (fuel : Nat) (hfuel : n ≤ fuel) :
    list_jump_rel_loop playlist currpos (d + n) n fuel (Int.tmod (currpos + (d + n)) n) val
        = some [ClientEvent.g_printf no_match_msg]
    ∨ ∃ p : Nat, p < playlist.length ∧ (p : Int) ≠ currpos
        ∧ (∃ id ∈ val, playlist[p]? = some (guint_of_gint id))
        ∧ list_jump_rel_loop playlist currpos (d + n) n fuel
            (Int.tmod (currpos + (d + n)) n) val
            = some [ClientEvent.call (Cmd.set_next p), ClientEvent.call Cmd.tickle] := by
  rcases hd with h | h
  · subst h
    have hstart := tmod_step_forward currpos n hc0 hc1
    refine list_jump_rel_loop_spec playlist val currpos (1 + n) n
      (fun i => (if i ≤ currpos then currpos - i else currpos - i + n).toNat) hn ?_ fuel
      _ val ?_ ?_ (fun _ h => h) ?_
    · intro i h0 h1 hi
      rw [tmod_step_forward i n h0 h1]
      beta_reduce
      split_ifs <;> omega
    · rw [hstart]; split_ifs <;> omega
    · rw [hstart]; split_ifs <;> omega
    · rw [hstart]
      beta_reduce
      split_ifs <;> omega
  · subst h
    have hstart := tmod_step_backward currpos n hc0 hc1
    refine list_jump_rel_loop_spec playlist val currpos (-1 + n) n
      (fun i => (if currpos ≤ i then i - currpos else i - currpos + n).toNat) hn ?_ fuel
      _ val ?_ ?_ (fun _ h => h) ?_
    · intro i h0 h1 hi
      rw [tmod_step_backward i n h0 h1]
      beta_reduce
      split_ifs <;> omega
    · rw [hstart]; split_ifs <;> omega
    · rw [hstart]; split_ifs <;> omega
    · rw [hstart]
      beta_reduce
      split_ifs <;> omega

theorem list_jump_rel_eq (fuel : Nat) (val : List Int) (cache_currpos : Int)
    (active_playlist : List Nat) (inc : Int) (hne : active_playlist ≠ []) :
    list_jump_rel fuel val cache_currpos active_playlist inc =
      (list_jump_rel_loop active_playlist (if cache_currpos < 0 then 0 else cache_currpos)
        (inc + active_playlist.length) active_playlist.length fuel
        (Int.tmod ((if cache_currpos < 0 then 0 else cache_currpos)
          + (inc + active_playlist.length)) active_playlist.length) val).map Except.ok := by
  have hlen : 0 < active_playlist.length := List.length_pos.mpr hne
  have hsz : ¬ ((active_playlist.length : Int) = 0) := by omega
  unfold list_jump_rel
  simp only [hsz, if_false]

/-- C8: for a non-empty playlist, a cached position below its length (a
negative one counts as 0), direction +1 or -1, any match sequence and at least
as much fuel as the playlist is long, `list_jump_rel` ends and does exactly one
of two things: it prints the "no matching media" line and sends nothing, or it
sends one `set_next p` followed by one tickle, where `p` is a playlist position
other than the start whose id occurs in the match sequence.  When no playlist
id occurs in the match sequence it is the first. -/
theorem list_jump_rel_outcome (fuel : Nat) (val : List Int) (cache_currpos : Int)
    (active_playlist : List Nat) (inc : Int)
    (hne : active_playlist ≠ []) (hcur : cache_currpos < active_playlist.length)
    (hinc : inc = 1 ∨ inc = -1) (hfuel : active_playlist.length ≤ fuel) :
    (list_jump_rel fuel val cache_currpos active_playlist inc
        = some (Except.ok [ClientEvent.g_printf no_match_msg])
      ∨ ∃ p : Nat, p < active_playlist.length
          ∧ (p : Int) ≠ (if cache_currpos < 0 then 0 else cache_currpos)
          ∧ (∃ id ∈ val, active_playlist[p]? = some (guint_of_gint id))
          ∧ list_jump_rel fuel val cache_currpos active_playlist inc
              = some (Except.ok
                  [ClientEvent.call (Cmd.set_next p), ClientEvent.call Cmd.tickle]))
    ∧ ((∀ x ∈ active_playlist, ∀ id ∈ val, x ≠ guint_of_gint id) →
        list_jump_rel fuel val cache_currpos active_playlist inc
          = some (Except.ok [ClientEvent.g_printf no_match_msg])) := by
  have hlen : 0 < active_playlist.length := List.length_pos.mpr hne
  have key : list_jump_rel fuel val cache_currpos active_playlist inc
        = some (Except.ok [ClientEvent.g_printf no_match_msg])
      ∨ ∃ p : Nat, p < active_playlist.length
          ∧ (p : Int) ≠ (if cache_currpos < 0 then 0 else cache_currpos)
          ∧ (∃ id ∈ val, active_playlist[p]? = some (guint_of_gint id))
          ∧ list_jump_rel fuel val cache_currpos active_playlist inc
              = some (Except.ok
                  [ClientEvent.call (Cmd.set_next p), ClientEvent.call Cmd.tickle]) := by
    rw [list_jump_rel_eq fuel val cache_currpos active_playlist inc hne]
    have hc : 0 ≤ (if cache_currpos < 0 then 0 else cache_currpos)
        ∧ (if cache_currpos < 0 then 0 else cache_currpos) < (active_playlist.length : Int) := by
      split_ifs <;> omega
    rcases list_jump_rel_from_start active_playlist val
        (if cache_currpos < 0 then 0 else cache_currpos) inc active_playlist.length rfl hinc
        hc.1 hc.2 fuel (by omega) with h | ⟨p, h1, h2, h3, h4⟩
    · left; rw [h]; rfl
    · right; exact ⟨p, h1, h2, h3, by rw [h4]; rfl⟩
  refine ⟨key, fun hno => ?_⟩
  rcases key with h | ⟨p, hp, _, ⟨id, hid, hget⟩, _⟩
  · exact h
  · exfalso
    rw [List.getElem?_eq_getElem hp] at hget
    exact hno _ (List.getElem_mem hp) id hid (by simpa using hget)

/-- Witness of `list_jump_rel_outcome`: playlist `[1, 2, 3, 4]`, position 0,
direction +1, match `[9]`: nothing matches and the report is printed. -/
theorem list_jump_rel_outcome_witness :
    list_jump_rel 4 [9] 0 [1, 2, 3, 4] 1
      = some (Except.ok [ClientEvent.g_printf no_match_msg]) :=
  (list_jump_rel_outcome 4 [9] 0 [1, 2, 3, 4] 1 (by decide) (by decide) (by decide)
    (by decide)).2 (by decide)

/-- C7, the code at the failing input: playlist `[1, 2, 3, 4]`, position 0,
direction +1, match `[3]`.  Position 2 holds id 3, but the scan for position 1
runs the match cursor to its end and nothing rewinds it, so positions 2 and 3
are compared with nothing: no `set_next` is sent and the "no matching media"
line is printed, whatever the fuel from 4 up. -/
theorem list_jump_rel_misses_later_match (fuel : Nat) :
    list_jump_rel (fuel + 4) [3] 0 [1, 2, 3, 4] 1
        = some (Except.ok [ClientEvent.g_printf no_match_msg])
    ∧ ([1, 2, 3, 4] : List Nat)[2]? = some (guint_of_gint 3) := by
  refine ⟨?_, by decide⟩
  simp [list_jump_rel, list_jump_rel_loop, list_jump_rel_scan, guint_of_gint, Int.tmod]

/-! ## `matching_ids_tree` -/

theorem compare_uint_eq_zero (a b : Nat) : compare_uint a b = 0 ↔ a = b := by
  unfold compare_uint
  simp only
  split_ifs <;> constructor <;> intro h <;> first | omega | simp_all

theorem compare_uint_neg (a b : Nat) : compare_uint a b < 0 ↔ a < b := by
  unfold compare_uint
  simp only
  split_ifs <;> constructor <;> intro h <;> omega

theorem g_tree_insert_keys (t : GTree) (key value x : Nat) :
    x ∈ (g_tree_insert compare_uint t key value).keys ↔ x = key ∨ x ∈ t.keys := by
  induction t with
  | nil => simp [g_tree_insert, GTree.keys]
  | node left k v right ihl ihr =>
    unfold g_tree_insert
    simp only
    by_cases h0 : compare_uint key k = 0
    · have hk : key = k := (compare_uint_eq_zero key k).mp h0
      simp only [h0, if_true, GTree.keys, List.mem_append, List.mem_cons]
      subst hk
      tauto
    · by_cases h1 : compare_uint key k < 0
      · simp only [h0, h1, if_true, if_false, GTree.keys, List.mem_append, List.mem_cons, ihl]
        tauto
      · simp only [h0, h1, if_false, GTree.keys, List.mem_append, List.mem_cons, ihr]
        tauto

theorem g_tree_insert_ordered (t : GTree) (key value : Nat) (ht : t.ordered) :
    (g_tree_insert compare_uint t key value).ordered := by
  induction t with
  | nil => simp [g_tree_insert, GTree.ordered, GTree.keys]
  | node left k v right ihl ihr =>
    obtain ⟨hl, hr, hlt, hgt⟩ := ht
    unfold g_tree_insert
    simp only
    by_cases h0 : compare_uint key k = 0
    · simp only [h0, if_true]
      exact ⟨hl, hr, hlt, hgt⟩
    · have hne : key ≠ k := fun h => h0 ((compare_uint_eq_zero key k).mpr h)
      by_cases h1 : compare_uint key k < 0
      · have hlt1 : key < k := (compare_uint_neg key k).mp h1
        simp only [h0, h1, if_true, if_false]
        refine ⟨ihl hl, hr, ?_, hgt⟩
        intro x hx
        rcases (g_tree_insert_keys left key value x).mp hx with h | h
        · omega
        · exact hlt x h
      · have hgt1 : k < key := by
          have := (compare_uint_neg key k).not.mp h1
          omega
        simp only [h0, h1, if_false]
        refine ⟨hl, ihr hr, hlt, ?_⟩
        intro x hx
        rcases (g_tree_insert_keys right key value x).mp hx with h | h
        · omega
        · exact hgt x h

theorem g_tree_lookup_ne_none (t : GTree) (key : Nat) (ht : t.ordered) :
    g_tree_lookup compare_uint t key ≠ none ↔ key ∈ t.keys := by
  induction t with
  | nil => simp [g_tree_lookup, GTree.keys]
  | node left k v right ihl ihr =>
    obtain ⟨hl, hr, hlt, hgt⟩ := ht
    unfold g_tree_lookup
    simp only
    by_cases h0 : compare_uint key k = 0
    · have hk : key = k := (compare_uint_eq_zero key k).mp h0
      subst hk
      simp [h0, GTree.keys]
    · have hne : key ≠ k := fun h => h0 ((compare_uint_eq_zero key k).mpr h)
      by_cases h1 : compare_uint key k < 0
      · have hlt1 : key < k := (compare_uint_neg key k).mp h1
        simp only [h0, h1, if_true, if_false, ihl hl, GTree.keys, List.mem_append, List.mem_cons]
        constructor
        · intro h; exact Or.inl h
        · rintro (h | h | h)
          · exact h
          · exact absurd h hne
          · have := hgt key h; omega
      · have hgt1 : k < key := by
          have := (compare_uint_neg key k).not.mp h1
          omega
        simp only [h0, h1, if_false, ihr hr, GTree.keys, List.mem_append, List.mem_cons]
        constructor
        · intro h; exact Or.inr (Or.inr h)
        · rintro (h | h | h)
          · have := hlt key h; omega
          · exact absurd h hne
          · exact h

theorem g_tree_insert_nnodes (t : GTree) (key value : Nat) (ht : t.ordered) :
    g_tree_nnodes (g_tree_insert compare_uint t key value)
      = if key ∈ t.keys then g_tree_nnodes t else g_tree_nnodes t + 1 := by
  induction t with
  | nil => simp [g_tree_insert, g_tree_nnodes, GTree.keys]
  | node left k v right ihl ihr =>
    obtain ⟨hl, hr, hlt, hgt⟩ := ht
    unfold g_tree_insert
    simp only
    by_cases h0 : compare_uint key k = 0
    · have hk : key = k := (compare_uint_eq_zero key k).mp h0
      subst hk
      simp [h0, GTree.keys, g_tree_nnodes]
    · have hne : key ≠ k := fun h => h0 ((compare_uint_eq_zero key k).mpr h)
      by_cases h1 : compare_uint key k < 0
      · have hlt1 : key < k := (compare_uint_neg key k).mp h1
        have hnr : key ∉ right.keys := fun h => by have := hgt key h; omega
        simp only [h0, h1, if_true, if_false, g_tree_nnodes, ihl hl, GTree.keys,
          List.mem_append, List.mem_cons, hne, hnr, or_false, false_or]
        split_ifs <;> omega
      · have hgt1 : k < key := by
          have := (compare_uint_neg key k).not.mp h1
          omega
        have hnl : key ∉ left.keys := fun h => by have := hlt key h; omega
        simp only [h0, h1, if_false, g_tree_nnodes, ihr hr, GTree.keys,
          List.mem_append, List.mem_cons, hne, hnl, or_false, false_or]
        split_ifs <;> omega

/-- The invariant of the loop of `matching_ids_tree`: the tree is ordered,
holds the keys of the finite set `s` and has as many nodes as `s` has
members. -/
theorem matching_ids_tree_loop_spec (it : xmmsv_list_iter_t) :
    ∀ (list : GTree) (s : Finset Nat), list.ordered → (∀ x, x ∈ list.keys ↔ x ∈ s) →
      g_tree_nnodes list = s.card →
      (matching_ids_tree_loop it list).ordered
      ∧ (∀ x, x ∈ (matching_ids_tree_loop it list).keys
          ↔ x ∈ s ∪ (it.map guint_of_gint).toFinset)
      ∧ g_tree_nnodes (matching_ids_tree_loop it list)
          = (s ∪ (it.map guint_of_gint).toFinset).card := by
  induction it with
  | nil =>
    intro list s ho hk hn
    simp [matching_ids_tree_loop, ho, hk, hn]
  | cons id it ih =>
    intro list s ho hk hn
    have ho1 := g_tree_insert_ordered list (guint_of_gint id) (guint_of_gint id) ho
    have hk1 : ∀ x, x ∈ (g_tree_insert compare_uint list (guint_of_gint id)
        (guint_of_gint id)).keys ↔ x ∈ insert (guint_of_gint id) s := by
      intro x
      rw [g_tree_insert_keys, Finset.mem_insert, hk]
    have hn1 : g_tree_nnodes (g_tree_insert compare_uint list (guint_of_gint id)
        (guint_of_gint id)) = (insert (guint_of_gint id) s).card := by
      rw [g_tree_insert_nnodes list _ _ ho]
      by_cases hmem : guint_of_gint id ∈ list.keys
      · rw [if_pos hmem, Finset.card_insert_of_mem ((hk _).mp hmem), hn]
      · rw [if_neg hmem, Finset.card_insert_of_not_mem (fun h => hmem ((hk _).mpr h)), hn]
    obtain ⟨r1, r2, r3⟩ := ih _ _ ho1 hk1 hn1
    have hset : insert (guint_of_gint id) s ∪ (it.map guint_of_gint).toFinset
        = s ∪ ((id :: it).map guint_of_gint).toFinset := by
      ext x
      simp only [Finset.mem_union, Finset.mem_insert, List.map_cons, List.toFinset_cons]
      tauto
    unfold matching_ids_tree_loop
    simp only
    rw [← hset]
    exact ⟨r1, r2, r3⟩

theorem guint_of_gint_inj (x y : Int) (hx : is_gint32 x) (hy : is_gint32 y)
    (h : guint_of_gint x = guint_of_gint y) : x = y := by
  unfold guint_of_gint at h
  unfold is_gint32 at hx hy
  omega

/-- C9: for every list of `gint32` ids and every `gint32` id `x`, the lookup
of `x` in the tree built by `matching_ids_tree` (ordered by `compare_uint`)
finds an entry if and only if `x` occurs in the list, and the tree has as many
entries as the list has distinct ids. -/
theorem matching_ids_tree_membership (ids : List Int) (x : Int)
    (hids : ∀ id ∈ ids, is_gint32 id) (hx : is_gint32 x) :
    (g_tree_lookup compare_uint (matching_ids_tree ids) (guint_of_gint x) ≠ none ↔ x ∈ ids)
    ∧ g_tree_nnodes (matching_ids_tree ids) = ids.dedup.length := by
  obtain ⟨ho, hk, hn⟩ := matching_ids_tree_loop_spec ids GTree.nil ∅ trivial
    (by simp [GTree.keys]) (by simp [g_tree_nnodes])
  constructor
  · unfold matching_ids_tree
    rw [g_tree_lookup_ne_none _ _ ho, hk]
    simp only [Finset.empty_union, List.mem_toFinset, List.mem_map]
    constructor
    · rintro ⟨y, hy, hxy⟩
      have := guint_of_gint_inj y x (hids y hy) hx hxy
      rwa [← this]
    · intro h
      exact ⟨x, h, rfl⟩
  · unfold matching_ids_tree
    have himg : (ids.map guint_of_gint).toFinset = ids.toFinset.image guint_of_gint := by
      ext y
      simp
    rw [hn, Finset.empty_union, himg, Finset.card_image_of_injOn, List.card_toFinset]
    intro a ha b hb hab
    have ha1 : a ∈ ids := by simpa using ha
    have hb1 : b ∈ ids := by simpa using hb
    exact guint_of_gint_inj a b (hids a ha1) (hids b hb1) hab

/-- Witness of `matching_ids_tree_membership`: the list `[3, 1, 2, 1]`;
1, 2 and 3 are found, 4 is not, and the tree has 3 entries. -/
theorem matching_ids_tree_membership_witness :
    g_tree_lookup compare_uint (matching_ids_tree [3, 1, 2, 1]) (guint_of_gint 1) ≠ none
    ∧ g_tree_lookup compare_uint (matching_ids_tree [3, 1, 2, 1]) (guint_of_gint 2) ≠ none
    ∧ g_tree_lookup compare_uint (matching_ids_tree [3, 1, 2, 1]) (guint_of_gint 3) ≠ none
    ∧ ¬ (g_tree_lookup compare_uint (matching_ids_tree [3, 1, 2, 1]) (guint_of_gint 4) ≠ none)
    ∧ g_tree_nnodes (matching_ids_tree [3, 1, 2, 1]) = 3 := by
  have hids : ∀ id ∈ ([3, 1, 2, 1] : List Int), is_gint32 id := by
    intro id hid
    simp only [List.mem_cons, List.mem_singleton, List.not_mem_nil, or_false] at hid
    unfold is_gint32
    omega
  have h1 := matching_ids_tree_membership [3, 1, 2, 1] 1 hids (by unfold is_gint32; omega)
  have h2 := matching_ids_tree_membership [3, 1, 2, 1] 2 hids (by unfold is_gint32; omega)
  have h3 := matching_ids_tree_membership [3, 1, 2, 1] 3 hids (by unfold is_gint32; omega)
  have h4 := matching_ids_tree_membership [3, 1, 2, 1] 4 hids (by unfold is_gint32; omega)
  refine ⟨h1.1.mpr (by decide), h2.1.mpr (by decide), h3.1.mpr (by decide), ?_, ?_⟩
  · rw [h4.1]; decide
  · rw [h1.2]; decide

/-! ## `xmms_object_connect`, teardown and the command table -/

/-- C11: on an object that passes the type-tag test, `xmms_object_connect` of
a non-`NULL` handler puts the new (handler, userdata) entry at the head of the
list of the signal kind and keeps the previous entries behind it in their
order, so the list grows by one whatever it held before; the lists of the
other signal kinds and the other fields stay as they are. -/
theorem connect_prepends (object : xmms_object_t) (signalid h userdata : Nat)
    (hobj : XMMS_IS_OBJECT object = true) :
    (xmms_object_connect object signalid (some h) userdata).signals signalid
        = ⟨some h, userdata⟩ :: object.signals signalid
    ∧ ((xmms_object_connect object signalid (some h) userdata).signals signalid).length
        = (object.signals signalid).length + 1
    ∧ (∀ s, s ≠ signalid →
        (xmms_object_connect object signalid (some h) userdata).signals s = object.signals s)
    ∧ (xmms_object_connect object signalid (some h) userdata).cmds = object.cmds
    ∧ (xmms_object_connect object signalid (some h) userdata).ref = object.ref
    ∧ (xmms_object_connect object signalid (some h) userdata).destroy_func
        = object.destroy_func := by
  have hs := connect_signals object signalid h userdata hobj
  refine ⟨?_, ?_, ?_, ?_, ?_, ?_⟩
  · rw [hs, Function.update_same]
  · rw [hs, Function.update_same, List.length_cons]
  · intro s hne
    rw [hs, Function.update_noteq hne]
  all_goals
    unfold xmms_object_connect
    cases object.signals signalid <;> simp [hobj]

/-- Witness of `connect_prepends`: the pair (7, 1) connected a second time to
signal 3 of an object that already holds it. -/
theorem connect_prepends_witness :
    (xmms_object_connect (connect_all (__int_xmms_object_new none) 3 [(7, 1)]) 3
        (some 7) 1).signals 3
      = ⟨some 7, 1⟩ :: (connect_all (__int_xmms_object_new none) 3 [(7, 1)]).signals 3 :=
  (connect_prepends (connect_all (__int_xmms_object_new none) 3 [(7, 1)]) 3 7 1
    (by decide)).1

theorem handler_calls_append {δ : Type} (a b : List (Event δ)) :
    handler_calls (a ++ b) = handler_calls a ++ handler_calls b := by
  induction a with
  | nil => rfl
  | cons e a ih => cases e <;> simp [handler_calls, ih]

theorem handler_calls_cleanup {δ : Type} (object : xmms_object_t) :
    handler_calls (xmms_object_cleanup object : List (Event δ)) = [] := by
  unfold xmms_object_cleanup
  split
  · rfl
  · rw [handler_calls_append]
    have h1 : ∀ (l : List xmms_object_handler_entry_t),
        handler_calls (l.map (fun entry => (Event.g_free_entry entry : Event δ))) = [] := by
      intro l
      induction l with
      | nil => rfl
      | cons e l ih => simp [handler_calls, ih]
    have h2 : ∀ (r : List Nat),
        handler_calls (r.flatMap (fun i =>
          match object.signals i with
          | [] => ([] : List (Event δ))
          | list => list.map (fun entry => Event.g_free_entry entry) ++ [Event.g_list_free i]))
          = [] := by
      intro r
      induction r with
      | nil => rfl
      | cons i r ih =>
        rw [List.flatMap_cons, handler_calls_append, ih]
        split
        · rfl
        · rw [handler_calls_append, h1]; rfl
    rw [h2]
    rfl

/-- What `xmms_object_cleanup` releases on an object that passes the type-tag
test: for each signal kind in turn every entry of its list and then, when the
list is not empty, the list; after the last kind the mutex. -/
theorem cleanup_releases {δ : Type} (object : xmms_object_t)
    (hobj : XMMS_IS_OBJECT object = true) :
    (xmms_object_cleanup object : List (Event δ))
      = (List.range XMMS_IPC_SIGNAL_END).flatMap (fun i =>
          (object.signals i).map (fun entry => Event.g_free_entry entry)
            ++ (if object.signals i = [] then [] else [Event.g_list_free i]))
        ++ [Event.g_mutex_free] := by
  unfold xmms_object_cleanup
  simp only [hobj, Bool.not_true, Bool.false_eq_true, if_false]
  congr 2
  funext i
  cases object.signals i <;> simp

/-- C12: on an object that passes the type-tag test, the unref that brings
the count to zero produces exactly these events, in this order: the lock and
unlock of the emission; one call per handler subscribed to the
object-destroyed signal, each given the object with its subscription table as
it was; the destroy callback (when there is one), given the same object;
then, for each signal kind of the table in turn, the release of every entry
of its list and of the list itself; the release of the mutex; the release of
the object.  So every entry and every non-empty list of the table is released
after the destroy callback.  An unref that leaves the count different from
zero produces no event and changes nothing but the count. -/
theorem unref_teardown_order (δ : Type) (object : xmms_object_t)
    (hobj : XMMS_IS_OBJECT object = true) :
    (gint_wrap (object.ref - 1) = 0 →
      __int_xmms_object_unref δ object =
        (none,
          Event.g_mutex_lock :: Event.g_mutex_unlock ::
            ((object.signals XMMS_IPC_SIGNAL_OBJECT_DESTROYED).reverse.filterMap (fun entry =>
              match entry.handler with
              | some h => some (Event.handler h { object with ref := 0 } none entry.userdata)
              | none => none)
            ++ (match object.destroy_func with
                | some f => [Event.destroy_func f { object with ref := 0 }]
                | none => [])
            ++ (List.range XMMS_IPC_SIGNAL_END).flatMap (fun i =>
                (object.signals i).map (fun entry => Event.g_free_entry entry)
                  ++ (if object.signals i = [] then [] else [Event.g_list_free i]))
            ++ [Event.g_mutex_free, Event.g_free_object])))
    ∧ (gint_wrap (object.ref - 1) = 0 →
        ∀ signalid, signalid < XMMS_IPC_SIGNAL_END → ∀ entry ∈ object.signals signalid,
          Event.g_free_entry entry ∈ (__int_xmms_object_unref δ object).2
          ∧ Event.g_list_free signalid ∈ (__int_xmms_object_unref δ object).2)
    ∧ (gint_wrap (object.ref - 1) ≠ 0 →
      __int_xmms_object_unref δ object
        = (some { object with ref := gint_wrap (object.ref - 1) }, [])) := by
  have hobj0 : XMMS_IS_OBJECT { object with ref := 0 } = true := hobj
  have htrace : gint_wrap (object.ref - 1) = 0 →
      __int_xmms_object_unref δ object =
        (none,
          Event.g_mutex_lock :: Event.g_mutex_unlock ::
            ((object.signals XMMS_IPC_SIGNAL_OBJECT_DESTROYED).reverse.filterMap (fun entry =>
              match entry.handler with
              | some h => some (Event.handler h { object with ref := 0 } none entry.userdata)
              | none => none)
            ++ (match object.destroy_func with
                | some f => [Event.destroy_func f { object with ref := 0 }]
                | none => [])
            ++ (List.range XMMS_IPC_SIGNAL_END).flatMap (fun i =>
                (object.signals i).map (fun entry => Event.g_free_entry entry)
                  ++ (if object.signals i = [] then [] else [Event.g_list_free i]))
            ++ [Event.g_mutex_free, Event.g_free_object])) := by
    intro h0
    unfold __int_xmms_object_unref
    simp only [h0, if_true]
    rw [emit_eq δ _ _ _ hobj0, cleanup_releases _ hobj0]
    simp only [List.cons_append, List.append_assoc, List.nil_append]
  refine ⟨htrace, fun h0 signalid hs entry he => ?_, unref_alive δ object⟩
  rw [htrace h0]
  have hne : object.signals signalid ≠ [] := List.ne_nil_of_mem he
  have hmem : ∀ e : Event δ,
      e ∈ (object.signals signalid).map (fun entry => Event.g_free_entry entry)
          ++ (if object.signals signalid = [] then [] else [Event.g_list_free signalid]) →
      e ∈ (List.range XMMS_IPC_SIGNAL_END).flatMap (fun i =>
          (object.signals i).map (fun entry => (Event.g_free_entry entry : Event δ))
            ++ (if object.signals i = [] then [] else [Event.g_list_free i])) :=
    fun e h => List.mem_flatMap.mpr ⟨signalid, List.mem_range.mpr hs, h⟩
  constructor
  · apply List.mem_cons_of_mem
    apply List.mem_cons_of_mem
    apply List.mem_append_left
    apply List.mem_append_right
    apply hmem
    exact List.mem_append_left _ (List.mem_map.mpr ⟨entry, he, rfl⟩)
  · apply List.mem_cons_of_mem
    apply List.mem_cons_of_mem
    apply List.mem_append_left
    apply List.mem_append_right
    apply hmem
    apply List.mem_append_right
    rw [if_neg hne]
    exact List.mem_singleton.mpr rfl

/-- Witness of `unref_teardown_order`: the last unref of an object with one
handler on the object-destroyed signal, two on signal 3 and destroy
callback 9. -/
theorem unref_teardown_order_witness :
    (__int_xmms_object_unref Nat
      { id := XMMS_OBJECT_MID,
        signals := fun s =>
          if s = XMMS_IPC_SIGNAL_OBJECT_DESTROYED then [⟨some 1, 10⟩]
          else if s = 3 then [⟨some 2, 20⟩, ⟨some 4, 40⟩] else [],
        cmds := fun _ => none, ref := 1, destroy_func := some 9 })
      = (none,
          [Event.g_mutex_lock, Event.g_mutex_unlock,
            Event.handler 1
              { id := XMMS_OBJECT_MID,
                signals := fun s =>
                  if s = XMMS_IPC_SIGNAL_OBJECT_DESTROYED then [⟨some 1, 10⟩]
                  else if s = 3 then [⟨some 2, 20⟩, ⟨some 4, 40⟩] else [],
                cmds := fun _ => none, ref := 0, destroy_func := some 9 } none 10,
            Event.destroy_func 9
              { id := XMMS_OBJECT_MID,
                signals := fun s =>
                  if s = XMMS_IPC_SIGNAL_OBJECT_DESTROYED then [⟨some 1, 10⟩]
                  else if s = 3 then [⟨some 2, 20⟩, ⟨some 4, 40⟩] else [],
                cmds := fun _ => none, ref := 0, destroy_func := some 9 },
            Event.g_free_entry ⟨some 1, 10⟩, Event.g_list_free 0,
            Event.g_free_entry ⟨some 2, 20⟩, Event.g_free_entry ⟨some 4, 40⟩,
            Event.g_list_free 3,
            Event.g_mutex_free, Event.g_free_object]) :=
  ((unref_teardown_order Nat
      { id := XMMS_OBJECT_MID,
        signals := fun s =>
          if s = XMMS_IPC_SIGNAL_OBJECT_DESTROYED then [⟨some 1, 10⟩]
          else if s = 3 then [⟨some 2, 20⟩, ⟨some 4, 40⟩] else [],
        cmds := fun _ => none, ref := 1, destroy_func := some 9 } (by decide)).1
      (by simp [gint_wrap])).trans (by rfl)

/-- C13: after `xmms_object_cmd_add` of `d1` and then of `d2` under one
command id the table holds `d2` there, the descriptors under the other ids
and the subscription table are as before, and `xmms_object_cmd_call` on that
id calls the function of `d2` once, with the object and the argument given
(and calls nothing when `d2` has no function): `d1` plays no part. -/
theorem cmd_add_overwrites (δ : Type) (object : xmms_object_t) (cmdid : Nat)
    (d1 d2 : xmms_object_cmd_desc_t) (arg : xmms_object_cmd_arg_t) :
    (xmms_object_cmd_add (xmms_object_cmd_add object cmdid (some d1)) cmdid (some d2)).cmds cmdid
        = some d2
    ∧ (∀ c, c ≠ cmdid →
        (xmms_object_cmd_add (xmms_object_cmd_add object cmdid (some d1)) cmdid (some d2)).cmds c
          = object.cmds c)
    ∧ (xmms_object_cmd_add (xmms_object_cmd_add object cmdid (some d1)) cmdid (some d2)).signals
        = object.signals
    ∧ (xmms_object_cmd_call
          (xmms_object_cmd_add (xmms_object_cmd_add object cmdid (some d1)) cmdid (some d2))
          cmdid arg : Except Fault (List (Event δ)))
        = Except.ok (match d2.func with
            | some f =>
              [Event.cmd_func f
                (xmms_object_cmd_add (xmms_object_cmd_add object cmdid (some d1)) cmdid (some d2))
                arg]
            | none => []) := by
  have hc : (xmms_object_cmd_add (xmms_object_cmd_add object cmdid (some d1)) cmdid
      (some d2)).cmds cmdid = some d2 := by
    simp [xmms_object_cmd_add]
  refine ⟨hc, ?_, rfl, ?_⟩
  · intro c hne
    simp [xmms_object_cmd_add, Function.update_noteq hne]
  · unfold xmms_object_cmd_call
    rw [hc]
    cases hf : d2.func <;> simp [hf]

/-! ## `add_list` -/

theorem add_list_loop_length (it : xmmsv_list_iter_t) (pos : Int) :
    (add_list_loop it pos).length = it.length := by
  induction it generalizing pos with
  | nil => rfl
  | cons id it ih => simp [add_list_loop, ih]

theorem gint_wrap_is_gint32 (x : Int) : is_gint32 (gint_wrap x) := by
  unfold is_gint32 gint_wrap
  omega

theorem gint_wrap_succ_add (pos : Int) (k : Nat) :
    gint_wrap (gint_wrap (pos + 1) + k) = gint_wrap (pos + ((k + 1 : Nat) : Int)) := by
  unfold gint_wrap
  push_cast
  omega

theorem add_list_loop_getElem? (it : xmmsv_list_iter_t) (pos : Int) (hpos : is_gint32 pos)
    (k : Nat) :
    (add_list_loop it pos)[k]?
      = (it[k]?).map (fun id => Cmd.insert_id (gint_wrap (pos + k)) id) := by
  induction it generalizing pos k with
  | nil => simp [add_list_loop]
  | cons id it ih =>
    cases k with
    | zero =>
      have e : gint_wrap (pos + ((0 : Nat) : Int)) = pos := by
        rw [Int.ofNat_zero, add_zero]
        exact gint_wrap_of_range pos hpos.1 hpos.2
      simp only [add_list_loop, List.getElem?_cons_zero, Option.map_some', e]
    | succ k =>
      simp only [add_list_loop, List.getElem?_cons_succ,
        ih (gint_wrap (pos + 1)) (gint_wrap_is_gint32 _) k, gint_wrap_succ_add]

/-- C20: for every id list and every start position `pos` of type `gint`,
`add_list` issues one command per id and no other: the command number `k`
(from 0) is the insertion of the `k`-th id at `pos + k`, wherever `pos + k`
is a `gint` (past `INT_MAX` it is the value `pos++` wraps to); the count it
reports is the length of the list (no command and 0 for the empty list). -/
theorem add_list_commands (idlist : List Int) (pos : Int) (hpos : is_gint32 pos) :
    (∀ k : Nat, is_gint32 (pos + k) →
      (add_list idlist pos).1[k]? = (idlist[k]?).map (fun id => Cmd.insert_id (pos + k) id))
    ∧ (∀ k : Nat, (add_list idlist pos).1[k]?
        = (idlist[k]?).map (fun id => Cmd.insert_id (gint_wrap (pos + k)) id))
    ∧ (add_list idlist pos).1.length = idlist.length
    ∧ (add_list idlist pos).2 = idlist.length
    ∧ add_list [] pos = ([], 0) := by
  refine ⟨fun k hk => ?_, fun k => add_list_loop_getElem? idlist pos hpos k,
    add_list_loop_length idlist pos, rfl, rfl⟩
  have h := add_list_loop_getElem? idlist pos hpos k
  rw [gint_wrap_of_range (pos + k) hk.1 hk.2] at h
  exact h

/-- Witness of `add_list_commands`: the ids 7, 8, 9 inserted from position 5
on. -/
theorem add_list_commands_witness :
    (add_list [7, 8, 9] 5).1[1]? = some (Cmd.insert_id 6 8)
    ∧ (add_list [7, 8, 9] 5).1.length = 3 := by
  have h := add_list_commands [7, 8, 9] 5 ⟨by decide, by decide⟩
  refine ⟨?_, h.2.2.1⟩
  have h1 := h.1 1 ⟨by decide, by decide⟩
  simpa using h1

/-- At `INT_MAX` the second insertion goes to `INT_MIN`. -/
theorem add_list_wraps :
    (add_list [7, 8] 2147483647).1
      = [Cmd.insert_id 2147483647 7, Cmd.insert_id (-2147483648) 8] := by
  simp [add_list, add_list_loop, gint_wrap]

/-! ## `remove_list`: the match cursor -/

theorem remove_list_loop_length (plistit : xmmsv_list_iter_t) :
    ∀ (matchit : xmmsv_list_iter_t) (i offset : Int),
      (remove_list_loop plistit matchit i offset).length ≤ plistit.length := by
  induction plistit with
  | nil => intro _ _ _; simp [remove_list_loop]
  | cons plid plistit ih =>
    intro matchit i offset
    unfold remove_list_loop
    rcases remove_list_scan plid matchit with ⟨b, matchit1⟩
    cases b with
    | true =>
      have := ih matchit1 (i + 1) (offset + 1)
      simp only [List.length_cons]
      omega
    | false =>
      have := ih matchit1 (i + 1) offset
      simp only [List.length_cons]
      omega

theorem remove_list_scan_stays (plid : Int) (it : xmmsv_list_iter_t) :
    (remove_list_scan plid it).1 = false ∨ (remove_list_scan plid it).2.head? = some plid := by
  induction it with
  | nil => left; rfl
  | cons id rest ih =>
    unfold remove_list_scan
    by_cases h : plid = id
    · right; simp [h]
    · simp only [h, if_false]; exact ih

theorem remove_list_loop_replicate (a : Int) (k : Nat) :
    ∀ (rest : xmmsv_list_iter_t) (i offset : Int), i = offset →
      remove_list_loop (List.replicate k a) (a :: rest) i offset
        = List.replicate k (Cmd.remove_entry 0) := by
  induction k with
  | zero => intro _ _ _ _; rfl
  | succ k ih =>
    intro rest i offset h
    simp only [List.replicate_succ, remove_list_loop, remove_list_scan, if_true]
    rw [ih rest (i + 1) (offset + 1) (by omega)]
    have : i - offset = 0 := by omega
    rw [this]

/-- C19 (as amended): in `remove_list` a hit leaves the match cursor on the
entry found (the `break` comes before the advance), so one entry of the match
sequence can account for any number of removals: a playlist of `k` copies of
`a` with the match sequence `[a]` gets `k` remove-at commands; the number of
commands is at most the length of the playlist. -/
theorem remove_list_cursor_stays (matchval plistval : List Int) (plid a : Int) (k : Nat) :
    ((remove_list_scan plid matchval).1 = false
      ∨ (remove_list_scan plid matchval).2.head? = some plid)
    ∧ remove_list [a] (List.replicate k a) = List.replicate k (Cmd.remove_entry 0)
    ∧ (remove_list matchval plistval).length ≤ plistval.length :=
  ⟨remove_list_scan_stays plid matchval, remove_list_loop_replicate a k [] 0 0 rfl,
    remove_list_loop_length plistval matchval 0 0⟩

/-- C19, counterexample: playlist `[1, 1]` with the match sequence `[1]`:
both slots are removed, two commands for a match sequence of length one. -/
theorem remove_list_duplicate_counterexample :
    remove_list [1] [1, 1] = [Cmd.remove_entry 0, Cmd.remove_entry 0]
    ∧ playlist_run [1, 1] (remove_list [1] [1, 1]) = some []
    ∧ ¬ ((remove_list [1] [1, 1]).length ≤ ([1] : List Int).length) := by
  decide

/-! ## `move_entries`: the commands of the two phases -/

theorem move_entries_loop_hit (list : GTree) (pos : Int) (id : Int) (it : xmmsv_list_iter_t)
    (curr inc : Int) (up : Bool) (h : tree_has list id = true) :
    move_entries_loop list pos (id :: it) curr inc up =
      (if (if curr = pos then false else up) = true then Cmd.move_entry (curr - inc) (pos - 1)
        else Cmd.move_entry curr (pos + inc))
      :: move_entries_loop list pos it (curr + 1) (inc + 1) (if curr = pos then false else up) := by
  have h1 : g_tree_lookup compare_uint list (guint_of_gint id) ≠ none := by
    simpa [tree_has] using h
  simp only [move_entries_loop, h1, ne_eq, not_false_eq_true, if_true]

theorem move_entries_loop_miss (list : GTree) (pos : Int) (id : Int) (it : xmmsv_list_iter_t)
    (curr inc : Int) (up : Bool) (h : tree_has list id = false) :
    move_entries_loop list pos (id :: it) curr inc up =
      move_entries_loop list pos it (curr + 1) inc (if curr = pos then false else up) := by
  have h1 : g_tree_lookup compare_uint list (guint_of_gint id) = none := by
    simpa [tree_has] using h
  simp only [move_entries_loop, h1, ne_eq, not_true_eq_false, if_false]

theorem move_entries_loop_backward (list : GTree) (pos : Int) (it : xmmsv_list_iter_t) :
    ∀ (curr inc : Int) (j : Nat) (id : Int), it[j]? = some id → tree_has list id = true →
      (move_entries_loop list pos it curr inc false)[((it.take j).filter (tree_has list)).length]?
        = some (Cmd.move_entry (curr + j)
            (pos + (inc + ((it.take j).filter (tree_has list)).length))) := by
  induction it with
  | nil => intro _ _ j id h; simp at h
  | cons id0 it ih =>
    intro curr inc j id hj hm
    cases j with
    | zero =>
      simp only [List.getElem?_cons_zero, Option.some.injEq] at hj
      subst hj
      rw [move_entries_loop_hit list pos id0 it curr inc false hm]
      simp
    | succ j =>
      simp only [List.getElem?_cons_succ] at hj
      by_cases h0 : tree_has list id0 = true
      · rw [move_entries_loop_hit list pos id0 it curr inc false h0]
        simp only [List.take_succ_cons, List.filter_cons, h0, if_true, List.length_cons,
          List.getElem?_cons_succ]
        have hf : (if curr = pos then false else false) = false := by split_ifs <;> rfl
        rw [hf, ih (curr + 1) (inc + 1) j id hj hm]
        congr 2
        · push_cast; ring
        · push_cast; ring
      · have h0f : tree_has list id0 = false := by simpa using h0
        rw [move_entries_loop_miss list pos id0 it curr inc false h0f]
        simp only [List.take_succ_cons, List.filter_cons, h0f, Bool.false_eq_true, if_false]
        have hf : (if curr = pos then false else false) = false := by split_ifs <;> rfl
        rw [hf, ih (curr + 1) inc j id hj hm]
        congr 2
        push_cast; ring

theorem move_entries_loop_forward (list : GTree) (pos : Int) (it : xmmsv_list_iter_t) :
    ∀ (curr inc : Int) (j : Nat) (id : Int), curr + j < pos → it[j]? = some id →
      tree_has list id = true →
      (move_entries_loop list pos it curr inc true)[((it.take j).filter (tree_has list)).length]?
        = some (Cmd.move_entry (curr + j - (inc + ((it.take j).filter (tree_has list)).length))
            (pos - 1)) := by
  induction it with
  | nil => intro _ _ j id _ h; simp at h
  | cons id0 it ih =>
    intro curr inc j id hlt hj hm
    have hne : ¬ curr = pos := by omega
    have hup : (if curr = pos then false else true) = true := by simp [hne]
    cases j with
    | zero =>
      simp only [List.getElem?_cons_zero, Option.some.injEq] at hj
      subst hj
      rw [move_entries_loop_hit list pos id0 it curr inc true hm, hup]
      simp
    | succ j =>
      simp only [List.getElem?_cons_succ] at hj
      have hlt1 : curr + 1 + (j : Int) < pos := by push_cast at hlt; omega
      by_cases h0 : tree_has list id0 = true
      · rw [move_entries_loop_hit list pos id0 it curr inc true h0, hup]
        simp only [List.take_succ_cons, List.filter_cons, h0, if_true, List.length_cons,
          List.getElem?_cons_succ]
        rw [ih (curr + 1) (inc + 1) j id hlt1 hj hm]
        congr 2
        push_cast; ring
      · have h0f : tree_has list id0 = false := by simpa using h0
        rw [move_entries_loop_miss list pos id0 it curr inc true h0f, hup]
        simp only [List.take_succ_cons, List.filter_cons, h0f, Bool.false_eq_true, if_false]
        rw [ih (curr + 1) inc j id hlt1 hj hm]
        congr 2
        push_cast; ring

theorem move_entries_loop_at_pos (list : GTree) (pos : Int) (it : xmmsv_list_iter_t)
    (inc : Int) :
    move_entries_loop list pos it pos inc true = move_entries_loop list pos it pos inc false := by
  cases it with
  | nil => rfl
  | cons id0 it =>
    by_cases h0 : tree_has list id0 = true
    · rw [move_entries_loop_hit list pos id0 it pos inc true h0,
        move_entries_loop_hit list pos id0 it pos inc false h0]
      simp
    · have h0f : tree_has list id0 = false := by simpa using h0
      rw [move_entries_loop_miss list pos id0 it pos inc true h0f,
        move_entries_loop_miss list pos id0 it pos inc false h0f]
      simp

theorem move_entries_loop_after_pos (list : GTree) (pos : Int) (it : xmmsv_list_iter_t) :
    ∀ (curr inc : Int) (j : Nat) (id : Int), curr ≤ pos →
      (∀ (j1 : Nat) (id1 : Int), curr + j1 < pos → it[j1]? = some id1 →
        tree_has list id1 = false) →
      pos ≤ curr + j → it[j]? = some id → tree_has list id = true →
      (move_entries_loop list pos it curr inc true)[((it.take j).filter (tree_has list)).length]?
        = some (Cmd.move_entry (curr + j)
            (pos + (inc + ((it.take j).filter (tree_has list)).length))) := by
  induction it with
  | nil => intro _ _ j id _ _ _ h; simp at h
  | cons id0 it ih =>
    intro curr inc j id hle hnone hge hj hm
    by_cases hcp : curr = pos
    · subst hcp
      rw [move_entries_loop_at_pos]
      exact move_entries_loop_backward list curr (id0 :: it) curr inc j id hj hm
    · have hlt : curr < pos := by omega
      cases j with
      | zero => simp at hge; omega
      | succ j =>
        simp only [List.getElem?_cons_succ] at hj
        have h0f : tree_has list id0 = false := hnone 0 id0 (by simpa using hlt) (by simp)
        rw [move_entries_loop_miss list pos id0 it curr inc true h0f]
        simp only [hcp, if_false, List.take_succ_cons, List.filter_cons, h0f,
          Bool.false_eq_true]
        rw [ih (curr + 1) inc j id (by omega)
          (fun j1 id1 h1 h2 => hnone (j1 + 1) id1 (by push_cast; omega) (by simpa using h2))
          (by push_cast at hge; omega) hj hm]
        congr 2
        push_cast; ring

theorem filter_take_drop_of_prefix_false {α : Type} (p : α → Bool) (l : List α) (q c : Nat)
    (h : ∀ (j : Nat) (x : α), j < q → l[j]? = some x → p x = false) :
    (l.take c).filter p = ((l.take c).drop q).filter p := by
  induction q generalizing l c with
  | zero => simp
  | succ q ih =>
    cases l with
    | nil => simp
    | cons x l =>
      cases c with
      | zero => simp
      | succ c =>
        have hx : p x = false := h 0 x (by omega) (by simp)
        simp only [List.take_succ_cons, List.filter_cons, hx, Bool.false_eq_true, if_false,
          List.drop_succ_cons]
        exact ih l c (fun j y hj hy => h (j + 1) y (by omega) (by simpa using hy))

/-- C18 (as amended): for a target `pos ≥ 0` with no matched entry at a raw
index below it, `move_entries` issues for the matched entry at raw index
`curr ≥ pos` the command `move(curr, pos + backOffset)`, where `backOffset` is
the number of matched entries already moved in the backward phase, those at
raw indices from `pos` up to `curr`; it is the command number `backOffset` of
the batch. -/
theorem move_entries_backward_command (matching lisval : List Int) (pos curr : Nat) (id : Int)
    (hnofwd : ∀ (j : Nat) (x : Int), j < pos → lisval[j]? = some x →
      is_matching matching x = false)
    (hcurr : pos ≤ curr) (hid : lisval[curr]? = some id)
    (hm : is_matching matching id = true) :
    (move_entries matching lisval pos)[
        (((lisval.take curr).drop pos).filter (is_matching matching)).length]?
      = some (Cmd.move_entry curr
          (pos + (((lisval.take curr).drop pos).filter (is_matching matching)).length)) := by
  have hcount := filter_take_drop_of_prefix_false (is_matching matching) lisval pos curr hnofwd
  have h := move_entries_loop_after_pos (matching_ids_tree matching) pos lisval 0 0 curr id
    (by omega)
    (fun j1 id1 h1 h2 => hnofwd j1 id1 (by omega) h2)
    (by omega) hid hm
  have e : (tree_has (matching_ids_tree matching)) = is_matching matching := rfl
  rw [e, hcount] at h
  simp only [zero_add] at h
  exact h

/-- Witness of `move_entries_backward_command`: playlist `[1, 2, 3, 4, 5]`,
matches `[2, 4]`, target 1: the entry at raw index 3 is the second one moved
and gets `move(3, 2)`. -/
theorem move_entries_backward_command_witness :
    (move_entries [2, 4] [1, 2, 3, 4, 5] 1)[1]? = some (Cmd.move_entry 3 2) :=
  move_entries_backward_command [2, 4] [1, 2, 3, 4, 5] 1 3 4
    (by
      intro j x hj hx
      have hj0 : j = 0 := by omega
      subst hj0
      simp only [List.getElem?_cons_zero, Option.some.injEq] at hx
      subst hx
      decide)
    (by decide) (by decide) (by decide)

/-- C18, counterexample: playlist `[1, 2, 3, 4, 5]`, matches `[2, 4]`,
target 1: the batch is `move(1, 1)` then `move(3, 2)`, not `move(1, 1)` then
`move(4, 1)`; the offset is added to the destination, not to the source. -/
theorem move_entries_backward_counterexample :
    move_entries [2, 4] [1, 2, 3, 4, 5] 1 = [Cmd.move_entry 1 1, Cmd.move_entry 3 2]
    ∧ move_entries [2, 4] [1, 2, 3, 4, 5] 1 ≠ [Cmd.move_entry 1 1, Cmd.move_entry 4 1]
    ∧ playlist_run [1, 2, 3, 4, 5] [Cmd.move_entry 1 1, Cmd.move_entry 4 1]
        = some [1, 5, 2, 3, 4] := by
  decide

/-! ## Deleting by raw index -/

theorem delete_indices_from_congr {α : Type} (l : List α) :
    ∀ (i : Int) (s t : List Int), (∀ j, i ≤ j → j < i + l.length → (j ∈ s ↔ j ∈ t)) →
      delete_indices_from i l s = delete_indices_from i l t := by
  induction l with
  | nil => intro _ _ _ _; rfl
  | cons x xs ih =>
    intro i s t h
    have hi : i ∈ s ↔ i ∈ t :=
      h i (le_refl i) (by simp only [List.length_cons]; push_cast; omega)
    have hrec := ih (i + 1) s t (fun j hj hj2 =>
      h j (by omega) (by simp only [List.length_cons]; push_cast; omega))
    unfold delete_indices_from
    by_cases his : i ∈ s
    · rw [if_pos his, if_pos (hi.mp his), hrec]
    · rw [if_neg his, if_neg (fun ht => his (hi.mpr ht)), hrec]

theorem delete_indices_from_none {α : Type} (l : List α) :
    ∀ (i : Int) (s : List Int), (∀ j ∈ s, j < i) → delete_indices_from i l s = l := by
  induction l with
  | nil => intro _ _ _; rfl
  | cons x xs ih =>
    intro i s h
    have hi : i ∉ s := fun hmem => by have := h i hmem; omega
    unfold delete_indices_from
    rw [if_neg hi, ih (i + 1) s (fun j hj => by have := h j hj; omega)]

theorem delete_indices_from_append {α : Type} (a b : List α) :
    ∀ (i : Int) (s : List Int),
      delete_indices_from i (a ++ b) s
        = delete_indices_from i a s ++ delete_indices_from (i + a.length) b s := by
  induction a with
  | nil => intro i s; simp [delete_indices_from]
  | cons x xs ih =>
    intro i s
    have e : i + ((x :: xs).length : Int) = i + 1 + (xs.length : Int) := by
      simp only [List.length_cons]; push_cast; ring
    simp only [List.cons_append, delete_indices_from]
    rw [e]
    split_ifs <;> simp [ih (i + 1) s]

theorem delete_indices_descending_step {α : Type} (a b : List α) (x : α) (p : Int)
    (rest : List Int) (hlen : (a.length : Int) = p) (hlt : ∀ q ∈ rest, q < p) :
    delete_indices (a ++ b) rest = delete_indices (a ++ x :: b) (p :: rest) := by
  unfold delete_indices
  rw [delete_indices_from_append, delete_indices_from_append, zero_add, hlen]
  have h1 : delete_indices_from p b rest = b :=
    delete_indices_from_none b p rest hlt
  have h2 : delete_indices_from p (x :: b) (p :: rest) = b := by
    unfold delete_indices_from
    rw [if_pos (List.mem_cons_self p rest)]
    exact delete_indices_from_none b (p + 1) (p :: rest) (fun j hj => by
      rcases List.mem_cons.mp hj with h | h
      · omega
      · have := hlt j h; omega)
  have h3 : delete_indices_from 0 a (p :: rest) = delete_indices_from 0 a rest :=
    delete_indices_from_congr a 0 (p :: rest) rest (fun j _ hj2 => by
      constructor
      · intro hj
        rcases List.mem_cons.mp hj with h | h
        · omega
        · exact h
      · intro hj
        exact List.mem_cons_of_mem p hj)
  rw [h1, h2, h3]

/-- Removing at strictly descending positions, each inside the playlist,
deletes the entries at exactly those raw indices. -/
theorem playlist_run_descending_removes (visit : List Int) :
    ∀ (pl : List Int), visit.Pairwise (· > ·) → (∀ p ∈ visit, 0 ≤ p ∧ p < pl.length) →
      playlist_run pl (visit.map Cmd.remove_entry) = some (delete_indices pl visit) := by
  induction visit with
  | nil =>
    intro pl _ _
    simp [playlist_run, delete_indices, delete_indices_from_none]
  | cons p rest ih =>
    intro pl hpw hrange
    obtain ⟨hp0, hp1⟩ := hrange p (List.mem_cons_self p rest)
    have hlt : ∀ q ∈ rest, q < p := fun q hq => (List.pairwise_cons.mp hpw).1 q hq
    have hpn : p.toNat < pl.length := by omega
    have hsplit : pl = pl.take p.toNat ++ pl[p.toNat] :: pl.drop (p.toNat + 1) := by
      rw [List.getElem_cons_drop pl p.toNat hpn, List.take_append_drop]
    have hlen : (pl.take p.toNat).length = p.toNat := by
      rw [List.length_take]; omega
    have hstep : playlist_apply pl (Cmd.remove_entry p)
        = some (pl.take p.toNat ++ pl.drop (p.toNat + 1)) := by
      simp only [playlist_apply, playlist_remove_entry]
      rw [if_pos ⟨hp0, hp1⟩]
    have hrest := ih (pl.take p.toNat ++ pl.drop (p.toNat + 1)) (List.pairwise_cons.mp hpw).2
      (fun q hq => by
        have h1 := hrange q (List.mem_cons_of_mem p hq)
        have h2 := hlt q hq
        refine ⟨h1.1, ?_⟩
        rw [List.length_append, hlen, List.length_drop]
        omega)
    simp only [List.map_cons, playlist_run, hstep]
    rw [hrest]
    congr 1
    conv_rhs => rw [hsplit]
    exact delete_indices_descending_step (pl.take p.toNat) (pl.drop (p.toNat + 1))
      pl[p.toNat] p rest (by rw [hlen]; omega) hlt

/-! ## `remove_list`: the running offset -/

theorem remove_list_hits_bounds (plistit : xmmsv_list_iter_t) :
    ∀ (matchit : xmmsv_list_iter_t) (i : Int), ∀ h ∈ remove_list_hits plistit matchit i,
      i ≤ h ∧ h < i + plistit.length := by
  induction plistit with
  | nil => intro _ _ h hh; simp [remove_list_hits] at hh
  | cons plid plistit ih =>
    intro matchit i h hh
    unfold remove_list_hits at hh
    rcases hres : remove_list_scan plid matchit with ⟨b, matchit1⟩
    rw [hres] at hh
    simp only [List.length_cons]
    push_cast
    cases b with
    | true =>
      simp only [List.mem_cons] at hh
      rcases hh with h0 | h1
      · omega
      · have := ih matchit1 (i + 1) h h1; omega
    | false =>
      simp only at hh
      have := ih matchit1 (i + 1) h hh; omega

theorem remove_list_hits_pairwise (plistit : xmmsv_list_iter_t) :
    ∀ (matchit : xmmsv_list_iter_t) (i : Int),
      (remove_list_hits plistit matchit i).Pairwise (· < ·) := by
  induction plistit with
  | nil => intro _ _; simp [remove_list_hits]
  | cons plid plistit ih =>
    intro matchit i
    unfold remove_list_hits
    rcases remove_list_scan plid matchit with ⟨b, matchit1⟩
    cases b with
    | true =>
      simp only
      refine List.pairwise_cons.mpr ⟨fun h hh => ?_, ih matchit1 (i + 1)⟩
      have := remove_list_hits_bounds plistit matchit1 (i + 1) h hh
      omega
    | false => exact ih matchit1 (i + 1)

theorem remove_list_hits_matched (plistit : xmmsv_list_iter_t) :
    ∀ (matchit : xmmsv_list_iter_t) (i : Int), ∀ h ∈ remove_list_hits plistit matchit i,
      ∃ id ∈ matchit, plistit[(h - i).toNat]? = some id := by
  induction plistit with
  | nil => intro _ _ h hh; simp [remove_list_hits] at hh
  | cons plid plistit ih =>
    intro matchit i h hh
    have hscan := remove_list_scan_spec plid matchit
    unfold remove_list_hits at hh
    rcases hres : remove_list_scan plid matchit with ⟨b, matchit1⟩
    rw [hres] at hscan hh
    have hrec : ∀ h ∈ remove_list_hits plistit matchit1 (i + 1),
        ∃ id ∈ matchit, (plid :: plistit)[(h - i).toNat]? = some id := by
      intro h1 hh1
      obtain ⟨id, hid, hget⟩ := ih matchit1 (i + 1) h1 hh1
      have hb := remove_list_hits_bounds plistit matchit1 (i + 1) h1 hh1
      refine ⟨id, hscan.1 id hid, ?_⟩
      have e : (h1 - i).toNat = (h1 - (i + 1)).toNat + 1 := by omega
      rw [e, List.getElem?_cons_succ]
      exact hget
    cases b with
    | true =>
      simp only [List.mem_cons] at hh
      rcases hh with h0 | h1
      · subst h0
        exact ⟨plid, hscan.2 rfl, by simp⟩
      · exact hrec h h1
    | false => exact hrec h hh

theorem remove_list_loop_getElem? (plistit : xmmsv_list_iter_t) :
    ∀ (matchit : xmmsv_list_iter_t) (i offset : Int) (k : Nat),
      (remove_list_loop plistit matchit i offset)[k]?
        = ((remove_list_hits plistit matchit i)[k]?).map
            (fun h => Cmd.remove_entry (h - (offset + k))) := by
  induction plistit with
  | nil => intro _ _ _ _; simp [remove_list_loop, remove_list_hits]
  | cons plid plistit ih =>
    intro matchit i offset k
    unfold remove_list_loop remove_list_hits
    rcases remove_list_scan plid matchit with ⟨b, matchit1⟩
    cases b with
    | true =>
      cases k with
      | zero => simp
      | succ k =>
        simp only [List.getElem?_cons_succ, ih matchit1 (i + 1) (offset + 1) k]
        have e : offset + 1 + (k : Int) = offset + ((k + 1 : Nat) : Int) := by push_cast; ring
        rw [e]
    | false => exact ih matchit1 (i + 1) offset k

theorem remove_list_loop_run (plistit : xmmsv_list_iter_t) :
    ∀ (matchit : xmmsv_list_iter_t) (pre : List Int) (i offset : Int),
      i - offset = pre.length →
      playlist_run (pre ++ plistit) (remove_list_loop plistit matchit i offset)
        = some (pre ++ delete_indices_from i plistit (remove_list_hits plistit matchit i)) := by
  induction plistit with
  | nil =>
    intro _ pre _ _ _
    simp [remove_list_loop, playlist_run, delete_indices_from]
  | cons plid plistit ih =>
    intro matchit pre i offset hlen
    unfold remove_list_loop remove_list_hits delete_indices_from
    rcases hres : remove_list_scan plid matchit with ⟨b, matchit1⟩
    cases b with
    | true =>
      simp only [List.mem_cons, true_or, if_true, playlist_run, playlist_apply]
      rw [playlist_remove_entry_at_length pre plid plistit (i - offset) hlen]
      simp only
      rw [ih matchit1 pre (i + 1) (offset + 1) (by omega)]
      congr 2
      exact (delete_indices_from_congr plistit (i + 1) _ _ (fun j hj _ => by
        constructor
        · intro h
          rcases List.mem_cons.mp h with h0 | h1
          · omega
          · exact h1
        · intro h
          exact List.mem_cons_of_mem i h)).symm
    | false =>
      simp only
      have hni : i ∉ remove_list_hits plistit matchit1 (i + 1) := fun hmem => by
        have := remove_list_hits_bounds plistit matchit1 (i + 1) i hmem
        omega
      rw [if_neg hni]
      have := ih matchit1 (pre ++ [plid]) (i + 1) offset (by simp; omega)
      simpa using this

/-- C14: for every playlist and match sequence, with `i_0 < i_1 < ...` the raw
indices of the slots the scan of `remove_list` matches (each inside the
playlist and holding an id of the match sequence), the command number `k` is
`remove-at(i_k - k)` and there is no other command; the daemon accepts the
batch and is left with the playlist without the entries at the raw indices
`i_0, i_1, ...`. -/
theorem remove_list_offsets (matchval plistval : List Int) :
    (∀ k : Nat, (remove_list matchval plistval)[k]?
        = ((remove_list_hits plistval matchval 0)[k]?).map
            (fun i => Cmd.remove_entry (i - k)))
    ∧ (remove_list_hits plistval matchval 0).Pairwise (· < ·)
    ∧ (∀ i ∈ remove_list_hits plistval matchval 0,
        0 ≤ i ∧ i < plistval.length ∧ ∃ id ∈ matchval, plistval[i.toNat]? = some id)
    ∧ playlist_run plistval (remove_list matchval plistval)
        = some (delete_indices plistval (remove_list_hits plistval matchval 0)) := by
  refine ⟨fun k => ?_, remove_list_hits_pairwise plistval matchval 0, fun i hi => ?_, ?_⟩
  · have := remove_list_loop_getElem? plistval matchval 0 0 k
    simpa [remove_list] using this
  · have hb := remove_list_hits_bounds plistval matchval 0 i hi
    have hm := remove_list_hits_matched plistval matchval 0 i hi
    refine ⟨hb.1, by omega, ?_⟩
    simpa using hm
  · have := remove_list_loop_run plistval matchval [] 0 0 (by simp)
    simpa [remove_list, delete_indices] using this

/-! ## `positions_remove` and `remove_cached_list` -/

theorem positions_visit_remove (visit : List Int) (udata : pl_pos_udata_t) :
    (positions_visit pos_remove_cb visit udata).2 = visit.map Cmd.remove_entry := by
  induction visit generalizing udata with
  | nil => rfl
  | cons p rest ih => simp [positions_visit, pos_remove_cb, ih]

/-- C15: `positions_remove` issues `remove-at(p)` for each position `p` in
the order the backward traversal visits them, unchanged; when that order is
strictly descending and every position lies inside the playlist, the daemon
accepts the batch and is left with the playlist without the entries at those
raw indices, the others in their original order. -/
theorem positions_remove_descending (pl : List Int) (positions : List Int)
    (hdesc : positions.reverse.Pairwise (· > ·))
    (hrange : ∀ p ∈ positions, 0 ≤ p ∧ p < pl.length) :
    positions_remove positions = positions.reverse.map Cmd.remove_entry
    ∧ playlist_run pl (positions_remove positions)
        = some (delete_indices pl positions.reverse) := by
  have h1 : positions_remove positions = positions.reverse.map Cmd.remove_entry := by
    simp [positions_remove, playlist_positions_foreach, positions_visit_remove]
  refine ⟨h1, ?_⟩
  rw [h1]
  exact playlist_run_descending_removes positions.reverse pl hdesc
    (fun p hp => hrange p (List.mem_reverse.mp hp))

/-- Witness of `positions_remove_descending`: positions 1 and 3 of
`[10, 11, 12, 13, 14]`. -/
theorem positions_remove_descending_witness :
    playlist_run [10, 11, 12, 13, 14] (positions_remove [1, 3])
      = some (delete_indices [10, 11, 12, 13, 14] [3, 1]) :=
  (positions_remove_descending [10, 11, 12, 13, 14] [1, 3] (by decide) (by decide)).2

theorem remove_cached_list_scan_spec (plid : Nat) (it : xmmsv_list_iter_t) :
    (∀ id ∈ (remove_cached_list_scan plid it).2, id ∈ it)
    ∧ ((remove_cached_list_scan plid it).1 = true → ∃ id ∈ it, plid = guint_of_gint id) := by
  induction it with
  | nil => simp [remove_cached_list_scan]
  | cons id rest ih =>
    unfold remove_cached_list_scan
    by_cases h : plid = guint_of_gint id
    · simp [h]
    · simp only [h, if_false]
      refine ⟨fun x hx => List.mem_cons_of_mem _ (ih.1 x hx), fun hb => ?_⟩
      obtain ⟨x, hx, hp⟩ := ih.2 hb
      exact ⟨x, List.mem_cons_of_mem _ hx, hp⟩

theorem remove_cached_list_loop_spec (playlist : List Nat) (matching : List Int) (k : Nat) :
    ∀ (it : xmmsv_list_iter_t), k ≤ playlist.length → (∀ id ∈ it, id ∈ matching) →
      remove_cached_list_loop playlist k it
          = (removed_positions (remove_cached_list_loop playlist k it)).map Cmd.remove_entry
      ∧ (removed_positions (remove_cached_list_loop playlist k it)).Pairwise (· > ·)
      ∧ ∀ p ∈ removed_positions (remove_cached_list_loop playlist k it),
          0 ≤ p ∧ p < k ∧ ∃ id ∈ matching, playlist[p.toNat]? = some (guint_of_gint id) := by
  induction k with
  | zero =>
    intro it _ _
    simp [remove_cached_list_loop, removed_positions]
  | succ k ih =>
    intro it hk hsub
    have hscan := remove_cached_list_scan_spec (playlist.getD k 0) it
    unfold remove_cached_list_loop
    simp only
    rcases hres : remove_cached_list_scan (playlist.getD k 0) it with ⟨b, it1⟩
    rw [hres] at hscan
    obtain ⟨r1, r2, r3⟩ := ih it1 (by omega) (fun id hid => hsub id (hscan.1 id hid))
    cases b with
    | true =>
      simp only [removed_positions, List.map_cons]
      refine ⟨by rw [← r1], List.pairwise_cons.mpr ⟨fun q hq => ?_, r2⟩, fun p hp => ?_⟩
      · have := r3 q hq
        omega
      · rcases List.mem_cons.mp hp with h0 | h1
        · subst h0
          obtain ⟨id, hid, hp⟩ := hscan.2 rfl
          refine ⟨by omega, by omega, id, hsub id hid, ?_⟩
          have hlt : k < playlist.length := by omega
          simp only [Int.toNat_ofNat]
          rw [← hp, List.getD_eq_getElem?_getD, List.getElem?_eq_getElem hlt]
          simp
        · have := r3 p h1
          exact ⟨this.1, by omega, this.2.2⟩
    | false =>
      simp only
      exact ⟨r1, r2, fun p hp => by
        have := r3 p hp
        exact ⟨this.1, by omega, this.2.2⟩⟩

/-- C16: for every cached playlist and match sequence `remove_cached_list`
issues remove-at commands only; their positions are raw indices inside the
cached array, strictly decreasing, each holding an id of the match sequence;
the daemon accepts the batch and is left with the cached playlist without the
entries at those raw indices, the others in their original order. -/
theorem remove_cached_list_descending (matching : List Int) (active_playlist : List Nat) :
    remove_cached_list matching active_playlist
        = (removed_positions (remove_cached_list matching active_playlist)).map
            Cmd.remove_entry
    ∧ (removed_positions (remove_cached_list matching active_playlist)).Pairwise (· > ·)
    ∧ (∀ p ∈ removed_positions (remove_cached_list matching active_playlist),
        0 ≤ p ∧ p < active_playlist.length
          ∧ ∃ id ∈ matching, active_playlist[p.toNat]? = some (guint_of_gint id))
    ∧ playlist_run (active_playlist.map Int.ofNat) (remove_cached_list matching active_playlist)
        = some (delete_indices (active_playlist.map Int.ofNat)
            (removed_positions (remove_cached_list matching active_playlist))) := by
  obtain ⟨r1, r2, r3⟩ := remove_cached_list_loop_spec active_playlist matching
    active_playlist.length matching (le_refl _) (fun _ h => h)
  have r3a : ∀ p ∈ removed_positions (remove_cached_list matching active_playlist),
      0 ≤ p ∧ p < active_playlist.length
        ∧ ∃ id ∈ matching, active_playlist[p.toNat]? = some (guint_of_gint id) := r3
  refine ⟨r1, r2, r3a, ?_⟩
  have hrun := playlist_run_descending_removes
    (removed_positions (remove_cached_list matching active_playlist))
    (active_playlist.map Int.ofNat) r2
    (fun p hp => by
      have := r3a p hp
      rw [List.length_map]
      exact ⟨this.1, this.2.1⟩)
  have r1a : remove_cached_list matching active_playlist
      = (removed_positions (remove_cached_list matching active_playlist)).map
          Cmd.remove_entry := r1
  rw [← r1a] at hrun
  exact hrun

/-! ## `move_entries`: where the entries stand during the forward phase -/

theorem playlist_move_entry_block {α : Type} (u r m t : List α) (x : α) (a b : Int)
    (ha : a = u.length) (hb : b = u.length + r.length + m.length) :
    playlist_move_entry (u ++ x :: (r ++ (m ++ t))) a b = some (u ++ (r ++ (m ++ x :: t))) := by
  have e1 : a.toNat = u.length := by omega
  have e2 : b.toNat = (u ++ (r ++ m)).length := by
    simp only [List.length_append]; omega
  have hcond : 0 ≤ a ∧ a < ((u ++ x :: (r ++ (m ++ t))).length : Int) ∧ 0 ≤ b
      ∧ b < ((u ++ x :: (r ++ (m ++ t))).length : Int) := by
    simp only [List.length_append, List.length_cons]
    push_cast
    omega
  have hget : (u ++ x :: (r ++ (m ++ t)))[a.toNat]? = some x := by
    rw [e1, List.getElem?_append_right (le_refl _), Nat.sub_self]
    exact List.getElem?_cons_zero
  have htake : (u ++ x :: (r ++ (m ++ t))).take a.toNat = u := by
    rw [e1]; exact List.take_left u _
  have hdrop : (u ++ x :: (r ++ (m ++ t))).drop (a.toNat + 1) = r ++ (m ++ t) := by
    rw [e1]; simp
  unfold playlist_move_entry
  rw [if_pos hcond, hget]
  simp only [htake, hdrop]
  have hre : u ++ (r ++ (m ++ t)) = (u ++ (r ++ m)) ++ t := by simp
  rw [hre, e2, List.take_left, List.drop_left]
  simp

theorem move_entries_forward_state (list : GTree) (it : xmmsv_list_iter_t) :
    ∀ (curr inc : Int) (u m : List Int) (j d : Nat) (id : Int),
      (u.length : Int) = curr - inc → (m.length : Int) = inc → j < d → d ≤ it.length →
      it[j]? = some id → tree_has list id = true →
      playlist_run (u ++ (it.take d ++ (m ++ it.drop d)))
          ((move_entries_loop list (curr + d) it curr inc true).take
            ((it.take j).filter (tree_has list)).length)
        = some (u ++ ((it.take j).filter (fun x => !tree_has list x)
            ++ ((it.drop j).take (d - j)
            ++ ((m ++ (it.take j).filter (tree_has list)) ++ it.drop d)))) := by
  induction it with
  | nil => intro _ _ _ _ j _ id _ _ _ _ h; simp at h
  | cons id0 it ih =>
    intro curr inc u m j d id hu hm hjd hd hj hhit
    cases j with
    | zero => simp [playlist_run]
    | succ j =>
      cases d with
      | zero => omega
      | succ d =>
        simp only [List.getElem?_cons_succ] at hj
        have hd1 : d ≤ it.length := by simpa using hd
        have hne : ¬ curr = curr + ((d + 1 : Nat) : Int) := by push_cast; omega
        have hup : (if curr = curr + ((d + 1 : Nat) : Int) then false else true) = true :=
          if_neg hne
        have hpos : curr + ((d + 1 : Nat) : Int) = curr + 1 + (d : Int) := by push_cast; ring
        by_cases h0 : tree_has list id0 = true
        · rw [move_entries_loop_hit list _ id0 it curr inc true h0, hup]
          simp only [if_true, List.take_succ_cons, List.filter_cons, h0, List.length_cons,
            List.take_succ_cons, List.drop_succ_cons, playlist_run, playlist_apply,
            Bool.not_true, Bool.false_eq_true, if_false, List.cons_append]
          rw [playlist_move_entry_block u (it.take d) m (it.drop d) id0 (curr - inc)
            (curr + ((d + 1 : Nat) : Int) - 1) (by omega)
            (by rw [List.length_take, Nat.min_eq_left hd1]; push_cast; omega)]
          simp only
          have hrec := ih (curr + 1) (inc + 1) u (m ++ [id0]) j d id (by omega)
            (by simp only [List.length_append, List.length_singleton]; push_cast; omega)
            (by omega) hd1 hj hhit
          rw [hpos]
          have e : u ++ (it.take d ++ (m ++ id0 :: it.drop d))
              = u ++ (it.take d ++ ((m ++ [id0]) ++ it.drop d)) := by simp
          rw [e, hrec]
          simp
        · have h0f : tree_has list id0 = false := by simpa using h0
          rw [move_entries_loop_miss list _ id0 it curr inc true h0f, hup]
          simp only [List.take_succ_cons, List.filter_cons, h0f, Bool.false_eq_true, if_false,
            List.drop_succ_cons, Bool.not_false, if_true, List.cons_append]
          have hrec := ih (curr + 1) inc (u ++ [id0]) m j d id
            (by simp only [List.length_append, List.length_singleton]; push_cast; omega)
            hm (by omega) hd1 hj hhit
          rw [hpos]
          have e : u ++ id0 :: (it.take d ++ (m ++ it.drop d))
              = (u ++ [id0]) ++ (it.take d ++ (m ++ it.drop d)) := by simp
          rw [e, hrec]
          simp

theorem filter_not_length_take {α : Type} (p : α → Bool) (l : List α) (c : Nat)
    (hc : c ≤ l.length) :
    ((l.take c).filter (fun x => !p x)).length + ((l.take c).filter p).length = c := by
  induction l generalizing c with
  | nil =>
    have : c = 0 := by simpa using hc
    subst this
    rfl
  | cons x l ih =>
    cases c with
    | zero => rfl
    | succ c =>
      have := ih c (by simpa using hc)
      simp only [List.take_succ_cons, List.filter_cons]
      cases p x <;> simp <;> omega

/-- C17 (as amended): for every playlist, match list and target `pos`, the
matched entry at a raw index `curr < pos` gets the command
`move(curr - fwdOffset, pos - 1)`, `fwdOffset` being the number of matched
entries at lower raw indices, and it is the command number `fwdOffset` of the
batch; when `pos` is at most the length of the playlist, the daemon accepts
the commands before it and at that moment the playlist reads: the unmatched
entries that stood before `curr`, the entries from `curr` up to `pos`, the
matched entries that stood before `curr`, the entries from `pos` on, so the
entry originally at `curr` stands at `curr - fwdOffset`. -/
theorem move_entries_forward_command (matching lisval : List Int) (pos : Int) (curr : Nat)
    (id : Int) (hcurr : (curr : Int) < pos) (hid : lisval[curr]? = some id)
    (hm : is_matching matching id = true) :
    (move_entries matching lisval pos)[((lisval.take curr).filter (is_matching matching)).length]?
        = some (Cmd.move_entry
            (curr - ((lisval.take curr).filter (is_matching matching)).length) (pos - 1))
    ∧ (pos ≤ lisval.length →
        playlist_run lisval ((move_entries matching lisval pos).take
            ((lisval.take curr).filter (is_matching matching)).length)
          = some ((lisval.take curr).filter (fun x => !is_matching matching x)
              ++ ((lisval.drop curr).take (pos.toNat - curr)
              ++ ((lisval.take curr).filter (is_matching matching)
              ++ lisval.drop pos.toNat)))
        ∧ ((lisval.take curr).filter (fun x => !is_matching matching x)
              ++ ((lisval.drop curr).take (pos.toNat - curr)
              ++ ((lisval.take curr).filter (is_matching matching)
              ++ lisval.drop pos.toNat)))[
            curr - ((lisval.take curr).filter (is_matching matching)).length]?
          = some id) := by
  have e : (tree_has (matching_ids_tree matching)) = is_matching matching := rfl
  constructor
  · have h := move_entries_loop_forward (matching_ids_tree matching) pos lisval 0 0 curr id
      (by omega) hid hm
    rw [e] at h
    simp only [zero_add] at h
    exact h
  · intro hpos
    have hlt : curr < lisval.length := by
      rcases Nat.lt_or_ge curr lisval.length with h | h
      · exact h
      · rw [List.getElem?_eq_none h] at hid
        exact absurd hid (by simp)
    have hp : ((pos.toNat : Nat) : Int) = pos := by omega
    have hcd : curr < pos.toNat := by omega
    have hdn : pos.toNat ≤ lisval.length := by omega
    have h := move_entries_forward_state (matching_ids_tree matching) lisval 0 0 [] []
      curr pos.toNat id rfl rfl hcd hdn hid hm
    rw [e] at h
    simp only [zero_add, List.nil_append, hp, List.take_append_drop] at h
    refine ⟨h, ?_⟩
    have hcount := filter_not_length_take (is_matching matching) lisval curr (by omega)
    have hidx : curr - ((lisval.take curr).filter (is_matching matching)).length
        = ((lisval.take curr).filter (fun x => !is_matching matching x)).length := by omega
    rw [hidx, List.getElem?_append_right (le_refl _), Nat.sub_self]
    have hdrop : lisval.drop curr = id :: lisval.drop (curr + 1) := by
      rw [List.drop_eq_getElem_cons hlt]
      rw [List.getElem?_eq_getElem hlt] at hid
      simp only [Option.some.injEq] at hid
      rw [hid]
    have hpc : pos.toNat - curr = (pos.toNat - curr - 1) + 1 := by omega
    rw [hdrop, hpc, List.take_succ_cons]
    simp

/-- Witness of `move_entries_forward_command`: playlist `[1, 2, 3, 4, 5]`,
matches `[1, 2]`, target 3: the entry at raw index 1 is the second one moved,
with `move(0, 2)`, and stands at index 0 when its command is sent. -/
theorem move_entries_forward_command_witness :
    (move_entries [1, 2] [1, 2, 3, 4, 5] 3)[1]? = some (Cmd.move_entry 0 2)
    ∧ playlist_run [1, 2, 3, 4, 5] ((move_entries [1, 2] [1, 2, 3, 4, 5] 3).take 1)
        = some [2, 3, 1, 4, 5] := by
  have h := move_entries_forward_command [1, 2] [1, 2, 3, 4, 5] 3 1 2 (by decide) (by decide)
    (by decide)
  exact ⟨h.1, (h.2 (by decide)).1⟩

/-- C17, counterexample: playlist `[1, 2]`, matches `[1, 2]`, target 5, beyond
the end.  The entry at raw index 1 gets `move(0, 4)` as the formula says, but
the daemon has rejected the `move(0, 4)` sent before it, so the entry still
stands at index 1 and index 0 holds the other entry. -/
theorem move_entries_forward_counterexample :
    move_entries [1, 2] [1, 2] 5 = [Cmd.move_entry 0 4, Cmd.move_entry 0 4]
    ∧ playlist_run [1, 2] ((move_entries [1, 2] [1, 2] 5).take 1) = none
    ∧ playlist_run_lenient [1, 2] ((move_entries [1, 2] [1, 2] 5).take 1) = [1, 2]
    ∧ ([1, 2] : List Int)[1]? = some 2
    ∧ ([1, 2] : List Int)[0]? ≠ some 2 := by
  decide

/-! ## `xmms_object_emit_f` -/

theorem emit_f_switch_read (type : xmms_object_cmd_arg_type_t) (ap : va_arg_type type)
    (arg : xmms_object_cmd_arg_t) :
    retval_read type (emit_f_switch type ap arg).retval = some ap := by
  cases type <;> rfl

/-- C21: on an object that passes the type-tag test, for every signal kind,
every type tag and every value of the C type of that tag, whatever the local
`arg` held before, `xmms_object_emit_f` calls every handler subscribed to the
signal kind with one and the same payload, whose tag is the given type and
whose value, read through the member of that tag, is the given value. -/
theorem emit_f_payload (object : xmms_object_t) (signalid : Nat)
    (type : xmms_object_cmd_arg_type_t) (ap : va_arg_type type) (arg : xmms_object_cmd_arg_t)
    (hobj : XMMS_IS_OBJECT object = true) :
    ∃ payload : xmms_object_cmd_arg_t,
      payload.rettype = type
      ∧ retval_read type payload.retval = some ap
      ∧ xmms_object_emit_f object signalid type ap arg =
          Event.g_mutex_lock :: Event.g_mutex_unlock ::
            (object.signals signalid).reverse.filterMap (fun entry =>
              match entry.handler with
              | some h => some (Event.handler h object (some payload) entry.userdata)
              | none => none) := by
  refine ⟨{ emit_f_switch type ap arg with rettype := type }, rfl,
    emit_f_switch_read type ap arg, ?_⟩
  unfold xmms_object_emit_f
  exact emit_eq _ object signalid _ hobj

/-- Witness of `emit_f_payload`: the value 7 emitted as a `guint32` to one
handler. -/
theorem emit_f_payload_witness :
    ∃ payload : xmms_object_cmd_arg_t,
      payload.rettype = xmms_object_cmd_arg_type_t.XMMS_OBJECT_CMD_ARG_UINT32
      ∧ payload.retval = xmms_object_cmd_retval_t.uint32 7
      ∧ handler_calls (xmms_object_emit_f
          (connect_all (__int_xmms_object_new none) 2 [(1, 10)]) 2
          xmms_object_cmd_arg_type_t.XMMS_OBJECT_CMD_ARG_UINT32 (7 : Nat)
          ⟨xmms_object_cmd_arg_type_t.XMMS_OBJECT_CMD_ARG_NONE,
            xmms_object_cmd_retval_t.unwritten⟩) = [(1, 10)] := by
  obtain ⟨payload, h1, h2, h3⟩ := emit_f_payload
    (connect_all (__int_xmms_object_new none) 2 [(1, 10)]) 2
    xmms_object_cmd_arg_type_t.XMMS_OBJECT_CMD_ARG_UINT32 (7 : Nat)
    ⟨xmms_object_cmd_arg_type_t.XMMS_OBJECT_CMD_ARG_NONE, xmms_object_cmd_retval_t.unwritten⟩
    (by decide)
  refine ⟨payload, h1, ?_, ?_⟩
  · cases hp : payload.retval <;> rw [hp] at h2 <;> simp [retval_read] at h2
    rw [h2]
  · rw [h3]
    rfl

/-! ## Connect then disconnect -/

/-- C28: `xmms_object_disconnect` of a handler right after
`xmms_object_connect` of that handler on the same signal kind gives back the
object as it was before the connect, whatever was subscribed already: the
entry taken out is the one at the head, the one just connected. -/
theorem connect_disconnect_restores (object : xmms_object_t) (signalid h userdata : Nat) :
    xmms_object_disconnect (xmms_object_connect object signalid (some h) userdata)
      signalid (some h) = object := by
  by_cases hobj : XMMS_IS_OBJECT object = true
  · have hobj1 : XMMS_IS_OBJECT (xmms_object_connect object signalid (some h) userdata)
        = true := by rw [connect_is_object]; exact hobj
    have hs := connect_signals object signalid h userdata hobj
    rw [disconnect_eq _ signalid h hobj1, hs, Function.update_same]
    simp only [disconnect_find, if_true, List.eraseIdx_cons_zero, Function.update_idem,
      Function.update_eq_self]
    unfold xmms_object_connect
    cases object.signals signalid <;> simp [hobj]
  · unfold xmms_object_connect
    simp only [hobj, Bool.not_false, if_true]
    unfold xmms_object_disconnect
    simp [hobj]

/-! ## `move_entries`: the range of the indices -/

/-- C27, the code at the failing input: playlist `[1, 2, 3, 4]`, every entry
matched, target 2.  The two backward commands are `move(2, 4)` and
`move(3, 5)`: their destinations `pos + inc` count the two forward moves as
well and lie outside the playlist of length 4; the daemon rejects the
batch. -/
theorem move_entries_destination_out_of_range :
    move_entries [1, 2, 3, 4] [1, 2, 3, 4] 2
      = [Cmd.move_entry 0 1, Cmd.move_entry 0 1, Cmd.move_entry 2 4, Cmd.move_entry 3 5]
    ∧ ¬ ((4 : Int) < ([1, 2, 3, 4] : List Int).length)
    ∧ playlist_run [1, 2, 3, 4] (move_entries [1, 2, 3, 4] [1, 2, 3, 4] 2) = none := by
  decide

/-! ## `decode_url` -/

theorem decode_url_loop_plus (rest : List Nat) :
    decode_url_loop (43 :: rest) = (decode_url_loop rest).map (fun url => 32 :: url) := by
  rw [decode_url_loop.eq_def]
  simp

theorem decode_url_loop_escape (a b : Nat) (rest : List Nat) (h : (strtoul_ts a b).2 = 2) :
    decode_url_loop (37 :: a :: b :: rest)
      = (decode_url_loop rest).map (fun url => (strtoul_ts a b).1 :: url) := by
  rw [decode_url_loop.eq_def]
  simp [h]

theorem decode_url_loop_bad_escape (tail : List Nat)
    (h : ∀ a b rest, tail = a :: b :: rest → (strtoul_ts a b).2 ≠ 2) :
    decode_url_loop (37 :: tail) = none := by
  match tail, h with
  | [], _ => rw [decode_url_loop.eq_def]; simp
  | [_], _ => rw [decode_url_loop.eq_def]; simp
  | a :: b :: rest, h =>
    have := h a b rest rfl
    rw [decode_url_loop.eq_def]
    simp [this]

theorem decode_url_loop_other (c : Nat) (rest : List Nat) (h1 : c ≠ 43) (h2 : c ≠ 37) :
    decode_url_loop (c :: rest) = (decode_url_loop rest).map (fun url => c :: url) := by
  rw [decode_url_loop.eq_def]
  simp [h1, h2]

theorem decode_url_loop_append_aux (n : Nat) :
    ∀ (pre a rest : List Nat), pre.length ≤ n → decode_url_loop pre = some a →
      decode_url_loop (pre ++ rest) = (decode_url_loop rest).map (fun url => a ++ url) := by
  induction n with
  | zero =>
    intro pre a rest hlen h
    have hp : pre = [] := List.length_eq_zero.mp (by omega)
    subst hp
    rw [decode_url_loop.eq_def] at h; simp only [Option.some.injEq] at h
    subst h
    simp
  | succ n ih =>
    intro pre a rest hlen h
    match pre, hlen, h with
    | [], _, h =>
      rw [decode_url_loop.eq_def] at h; simp only [Option.some.injEq] at h
      subst h
      simp
    | c :: pre1, hlen, h =>
      have hl1 : pre1.length ≤ n := by simp only [List.length_cons] at hlen; omega
      by_cases h43 : c = 43
      · subst h43
        rw [decode_url_loop_plus] at h
        rw [List.cons_append, decode_url_loop_plus]
        cases hd : decode_url_loop pre1 with
        | none => rw [hd] at h; simp at h
        | some a1 =>
          rw [hd] at h
          simp only [Option.map_some', Option.some.injEq] at h
          subst h
          rw [ih pre1 a1 rest hl1 hd]
          cases decode_url_loop rest <;> simp
      · by_cases h37 : c = 37
        · subst h37
          match pre1, hl1, h with
          | [], _, h => rw [decode_url_loop.eq_def] at h; simp at h
          | [_], _, h => rw [decode_url_loop.eq_def] at h; simp at h
          | x :: y :: pre2, hl1, h =>
            have hl2 : pre2.length ≤ n := by simp only [List.length_cons] at hl1; omega
            by_cases hok : (strtoul_ts x y).2 = 2
            · rw [decode_url_loop_escape x y pre2 hok] at h
              rw [List.cons_append, List.cons_append, List.cons_append,
                decode_url_loop_escape x y _ hok]
              cases hd : decode_url_loop pre2 with
              | none => rw [hd] at h; simp at h
              | some a1 =>
                rw [hd] at h
                simp only [Option.map_some', Option.some.injEq] at h
                subst h
                rw [ih pre2 a1 rest hl2 hd]
                cases decode_url_loop rest <;> simp
            · rw [decode_url_loop.eq_def] at h; simp [hok] at h
        · rw [decode_url_loop_other c pre1 h43 h37] at h
          rw [List.cons_append, decode_url_loop_other c _ h43 h37]
          cases hd : decode_url_loop pre1 with
          | none => rw [hd] at h; simp at h
          | some a1 =>
            rw [hd] at h
            simp only [Option.map_some', Option.some.injEq] at h
            subst h
            rw [ih pre1 a1 rest hl1 hd]
            cases decode_url_loop rest <;> simp

theorem decode_url_loop_none_aux (n : Nat) :
    ∀ (s : List Nat), s.length ≤ n → decode_url_loop s = none →
      ∃ pre tail, s = pre ++ 37 :: tail ∧ (decode_url_loop pre).isSome = true
        ∧ ∀ a b rest, tail = a :: b :: rest → (strtoul_ts a b).2 ≠ 2 := by
  induction n with
  | zero =>
    intro s hlen h
    have hp : s = [] := List.length_eq_zero.mp (by omega)
    subst hp
    rw [decode_url_loop.eq_def] at h; simp at h
  | succ n ih =>
    intro s hlen h
    match s, hlen, h with
    | [], _, h => rw [decode_url_loop.eq_def] at h; simp at h
    | c :: s1, hlen, h =>
      have hl1 : s1.length ≤ n := by simp only [List.length_cons] at hlen; omega
      by_cases h43 : c = 43
      · subst h43
        rw [decode_url_loop_plus] at h
        have hn : decode_url_loop s1 = none := by
          cases hd : decode_url_loop s1 with
          | none => rfl
          | some _ => rw [hd] at h; simp at h
        obtain ⟨pre, tail, he, hs, ht⟩ := ih s1 hl1 hn
        refine ⟨43 :: pre, tail, by rw [he]; rfl, ?_, ht⟩
        rw [decode_url_loop_plus]
        cases hd : decode_url_loop pre with
        | none => rw [hd] at hs; simp at hs
        | some _ => rfl
      · by_cases h37 : c = 37
        · subst h37
          match s1, hl1, h with
          | [], _, _ => exact ⟨[], [], rfl, rfl, fun a b rest he => by simp at he⟩
          | [x], _, _ => exact ⟨[], [x], rfl, rfl, fun a b rest he => by simp at he⟩
          | x :: y :: s2, hl1, h =>
            have hl2 : s2.length ≤ n := by simp only [List.length_cons] at hl1; omega
            by_cases hok : (strtoul_ts x y).2 = 2
            · rw [decode_url_loop_escape x y s2 hok] at h
              have hn : decode_url_loop s2 = none := by
                cases hd : decode_url_loop s2 with
                | none => rfl
                | some _ => rw [hd] at h; simp at h
              obtain ⟨pre, tail, he, hs, ht⟩ := ih s2 hl2 hn
              refine ⟨37 :: x :: y :: pre, tail, by rw [he]; rfl, ?_, ht⟩
              rw [decode_url_loop_escape x y pre hok]
              cases hd : decode_url_loop pre with
              | none => rw [hd] at hs; simp at hs
              | some _ => rfl
            · refine ⟨[], x :: y :: s2, rfl, rfl, fun a b rest he => ?_⟩
              simp only [List.cons.injEq] at he
              obtain ⟨ha, hb, _⟩ := he
              subst ha; subst hb
              exact hok
        · rw [decode_url_loop_other c s1 h43 h37] at h
          have hn : decode_url_loop s1 = none := by
            cases hd : decode_url_loop s1 with
            | none => rfl
            | some _ => rw [hd] at h; simp at h
          obtain ⟨pre, tail, he, hs, ht⟩ := ih s1 hl1 hn
          refine ⟨c :: pre, tail, by rw [he]; rfl, ?_, ht⟩
          rw [decode_url_loop_other c pre h43 h37]
          cases hd : decode_url_loop pre with
          | none => rw [hd] at hs; simp at hs
          | some _ => rfl

theorem decode_url_loop_length_aux (n : Nat) :
    ∀ (s url : List Nat), s.length ≤ n → decode_url_loop s = some url → url.length ≤ s.length := by
  induction n with
  | zero =>
    intro s url hlen h
    have hp : s = [] := List.length_eq_zero.mp (by omega)
    subst hp
    rw [decode_url_loop.eq_def] at h; simp only [Option.some.injEq] at h
    subst h
    simp
  | succ n ih =>
    intro s url hlen h
    match s, hlen, h with
    | [], _, h =>
      rw [decode_url_loop.eq_def] at h; simp only [Option.some.injEq] at h
      subst h
      simp
    | c :: s1, hlen, h =>
      have hl1 : s1.length ≤ n := by simp only [List.length_cons] at hlen; omega
      by_cases h43 : c = 43
      · subst h43
        rw [decode_url_loop_plus] at h
        cases hd : decode_url_loop s1 with
        | none => rw [hd] at h; simp at h
        | some u1 =>
          rw [hd] at h
          simp only [Option.map_some', Option.some.injEq] at h
          subst h
          have := ih s1 u1 hl1 hd
          simp only [List.length_cons]
          omega
      · by_cases h37 : c = 37
        · subst h37
          match s1, hl1, h with
          | [], _, h => rw [decode_url_loop.eq_def] at h; simp at h
          | [_], _, h => rw [decode_url_loop.eq_def] at h; simp at h
          | x :: y :: s2, hl1, h =>
            have hl2 : s2.length ≤ n := by simp only [List.length_cons] at hl1; omega
            by_cases hok : (strtoul_ts x y).2 = 2
            · rw [decode_url_loop_escape x y s2 hok] at h
              cases hd : decode_url_loop s2 with
              | none => rw [hd] at h; simp at h
              | some u1 =>
                rw [hd] at h
                simp only [Option.map_some', Option.some.injEq] at h
                subst h
                have := ih s2 u1 hl2 hd
                simp only [List.length_cons]
                omega
            · rw [decode_url_loop.eq_def] at h; simp [hok] at h
        · rw [decode_url_loop_other c s1 h43 h37] at h
          cases hd : decode_url_loop s1 with
          | none => rw [hd] at h; simp at h
          | some u1 =>
            rw [hd] at h
            simp only [Option.map_some', Option.some.injEq] at h
            subst h
            have := ih s1 u1 hl1 hd
            simp only [List.length_cons]
            omega

theorem decode_url_loop_plain (s : List Nat) (h1 : 43 ∉ s) (h2 : 37 ∉ s) :
    decode_url_loop s = some s := by
  induction s with
  | nil => rfl
  | cons c s ih =>
    have hc1 : c ≠ 43 := fun h => h1 (by simp [h])
    have hc2 : c ≠ 37 := fun h => h2 (by simp [h])
    rw [decode_url_loop_other c s hc1 hc2,
      ih (fun h => h1 (List.mem_cons_of_mem c h)) (fun h => h2 (List.mem_cons_of_mem c h))]
    rfl

theorem strtoul_ts_accepts (a b : Nat) :
    (strtoul_ts a b).2 = 2 ↔
      (hex_digit b).isSome = true
        ∧ ((hex_digit a).isSome = true ∨ is_space a = true ∨ a = 43 ∨ a = 45) := by
  unfold strtoul_ts
  cases ha : hex_digit a <;> cases hb : hex_digit b <;> simp
  by_cases h1 : is_space a = true ∨ a = 43
  · simp only [h1, if_true]
    rcases h1 with h | h
    · simp [h]
    · simp [h]
  · simp only [h1, if_false]
    have hs : ¬ is_space a = true := fun h => h1 (Or.inl h)
    have hp : ¬ a = 43 := fun h => h1 (Or.inr h)
    by_cases h2 : a = 45
    · simp [h2]
    · simp [h2, hs, hp]

/-- The loop of `decode_url` jumps to `err` exactly when the scan reaches a
`%` (what stands before it decodes) that is not followed by two characters
which `strtoul` in base 16 takes in full, that is a hexadecimal digit
preceded by a hexadecimal digit, a white-space character or a sign; otherwise
it writes the input with every `+` turned into a space, every such `%XY`
into the one byte `strtoul` yields (`16 X + Y` for two digits) and every
other byte copied, so what it writes is never longer than the input and is
the input itself when this holds neither `+` nor `%`. -/
theorem decode_url_loop_behaviour (s : List Nat) :
    (decode_url_loop s = none ↔
      ∃ pre tail, s = pre ++ 37 :: tail ∧ (decode_url_loop pre).isSome = true
        ∧ ∀ a b rest, tail = a :: b :: rest → (strtoul_ts a b).2 ≠ 2)
    ∧ (∀ a b, (strtoul_ts a b).2 = 2 ↔
        (hex_digit b).isSome = true
          ∧ ((hex_digit a).isSome = true ∨ is_space a = true ∨ a = 43 ∨ a = 45))
    ∧ (∀ a b x y, hex_digit a = some x → hex_digit b = some y →
        strtoul_ts a b = (16 * x + y, 2))
    ∧ decode_url_loop (43 :: s) = (decode_url_loop s).map (fun url => 32 :: url)
    ∧ (∀ a b, (strtoul_ts a b).2 = 2 →
        decode_url_loop (37 :: a :: b :: s)
          = (decode_url_loop s).map (fun url => (strtoul_ts a b).1 :: url))
    ∧ (∀ c, c ≠ 43 → c ≠ 37 →
        decode_url_loop (c :: s) = (decode_url_loop s).map (fun url => c :: url))
    ∧ (∀ url, decode_url_loop s = some url → url.length ≤ s.length)
    ∧ (43 ∉ s → 37 ∉ s → decode_url_loop s = some s) := by
  refine ⟨⟨decode_url_loop_none_aux s.length s (le_refl _), ?_⟩, strtoul_ts_accepts, ?_,
    decode_url_loop_plus s, fun a b h => decode_url_loop_escape a b s h,
    fun c h1 h2 => decode_url_loop_other c s h1 h2,
    fun url h => decode_url_loop_length_aux s.length s url (le_refl _) h, decode_url_loop_plain s⟩
  · rintro ⟨pre, tail, he, hs, ht⟩
    cases hd : decode_url_loop pre with
    | none => rw [hd] at hs; simp at hs
    | some a =>
      rw [he, decode_url_loop_append_aux pre.length pre a _ (le_refl _) hd,
        decode_url_loop_bad_escape tail ht]
      rfl
  · intro a b x y ha hb
    simp [strtoul_ts, ha, hb]

/-- C29, the code at the failing inputs.  In `%+5` the `%` is followed by
`+` and `5`, which are not two hexadecimal digits, and `decode_url` does not
fail: `strtoul` takes the sign and the digit, `t` reaches `&ts[2]`, and the
result is the one byte 5.  Likewise `% 5` gives the byte 5 and `%-5` the byte
251.  In `a%00b` the loop writes `a`, NUL, `b`, and the string returned is
`a`. -/
theorem decode_url_accepts_sign :
    decode_url [37, 43, 53] = some [5]
    ∧ hex_digit 43 = none
    ∧ decode_url [37, 32, 53] = some [5]
    ∧ hex_digit 32 = none
    ∧ decode_url [37, 45, 53] = some [251]
    ∧ decode_url [97, 37, 48, 48, 98] = some [97]
    ∧ decode_url_loop [97, 37, 48, 48, 98] = some [97, 0, 98] := by
  decide

/-! ## `list_jump_rel`: termination of the search -/

theorem list_jump_rel_examined_spec (playlist : List Nat)
    (currpos inc plsize : Int) (m : Int → Nat)
    (hm : ∀ i, 0 ≤ i → i < plsize → i ≠ currpos →
      0 ≤ Int.tmod (i + inc) plsize ∧ Int.tmod (i + inc) plsize < plsize
        ∧ m (Int.tmod (i + inc) plsize) < m i) (fuel : Nat) :
    ∀ (i : Int) (it : xmmsv_list_iter_t), 0 ≤ i → i < plsize → m i < fuel →
      ∃ l, list_jump_rel_examined playlist currpos inc plsize fuel i it = some l
        ∧ (∀ x ∈ l, 0 ≤ x ∧ x < plsize ∧ x ≠ currpos ∧ m x ≤ m i)
        ∧ l.Pairwise (fun a b => m b < m a)
        ∧ l.length ≤ m i := by
  induction fuel with
  | zero => intro i it _ _ hfuel; omega
  | succ fuel ih =>
    intro i it h0 h1 hfuel
    unfold list_jump_rel_examined
    by_cases hi : i = currpos
    · exact ⟨[], by simp [hi], by simp, List.Pairwise.nil, by simp⟩
    · simp only [hi, if_false]
      obtain ⟨hn0, hn1, hmlt⟩ := hm i h0 h1 hi
      rcases list_jump_rel_scan (playlist.getD i.toNat 0) it with ⟨b, it1⟩
      cases b with
      | true =>
        refine ⟨[i], rfl, ?_, by simp, ?_⟩
        · intro x hx
          have : x = i := by simpa using hx
          subst this
          exact ⟨h0, h1, hi, le_refl _⟩
        · simp only [List.length_singleton]; omega
      | false =>
        obtain ⟨l, hl, hall, hpw, hlen⟩ :=
          ih (Int.tmod (i + inc) plsize) it1 hn0 hn1 (by omega)
        refine ⟨i :: l, by simp [hl], ?_, ?_, ?_⟩
        · intro x hx
          rcases List.mem_cons.mp hx with h | h
          · subst h
            exact ⟨h0, h1, hi, le_refl _⟩
          · obtain ⟨a1, a2, a3, a4⟩ := hall x h
            exact ⟨a1, a2, a3, by omega⟩
        · refine List.pairwise_cons.mpr ⟨fun x hx => ?_, hpw⟩
          have := (hall x hx).2.2.2
          omega
        · simp only [List.length_cons]; omega

theorem nodup_of_pairwise_measure (m : Int → Nat) (l : List Int)
    (h : l.Pairwise (fun a b => m b < m a)) : l.Nodup := by
  refine List.Pairwise.imp ?_ h
  intro a b hab heq
  subst heq
  omega

theorem list_jump_rel_examined_from_start (playlist : List Nat) (val : List Int)
    (currpos d n : Int) (hd : d = 1 ∨ d = -1) (hc0 : 0 ≤ currpos) (hc1 : currpos < n)
    (fuel : Nat) (hfuel : n ≤ fuel) :
    ∃ l, list_jump_rel_examined playlist currpos (d + n) n fuel
          (Int.tmod (currpos + (d + n)) n) val = some l
      ∧ (∀ x ∈ l, 0 ≤ x ∧ x < n ∧ x ≠ currpos)
      ∧ l.Nodup
      ∧ (l.length : Int) ≤ n - 1 := by
  rcases hd with h | h
  · subst h
    have hstart := tmod_step_forward currpos n hc0 hc1
    obtain ⟨l, hl, hall, hpw, hlen⟩ := list_jump_rel_examined_spec playlist currpos (1 + n) n
      (fun i => (if i ≤ currpos then currpos - i else currpos - i + n).toNat)
      (by
        intro i h0 h1 hi
        rw [tmod_step_forward i n h0 h1]
        beta_reduce
        split_ifs <;> omega)
      fuel (Int.tmod (currpos + (1 + n)) n) val
      (by rw [hstart]; split_ifs <;> omega)
      (by rw [hstart]; split_ifs <;> omega)
      (by
        rw [hstart]
        beta_reduce
        split_ifs <;> omega)
    refine ⟨l, hl, fun x hx => ?_, nodup_of_pairwise_measure _ l hpw, ?_⟩
    · obtain ⟨a1, a2, a3, _⟩ := hall x hx
      exact ⟨a1, a2, a3⟩
    · rw [hstart] at hlen
      split_ifs at hlen <;> omega
  · subst h
    have hstart := tmod_step_backward currpos n hc0 hc1
    obtain ⟨l, hl, hall, hpw, hlen⟩ := list_jump_rel_examined_spec playlist currpos (-1 + n) n
      (fun i => (if currpos ≤ i then i - currpos else i - currpos + n).toNat)
      (by
        intro i h0 h1 hi
        rw [tmod_step_backward i n h0 h1]
        beta_reduce
        split_ifs <;> omega)
      fuel (Int.tmod (currpos + (-1 + n)) n) val
      (by rw [hstart]; split_ifs <;> omega)
      (by rw [hstart]; split_ifs <;> omega)
      (by
        rw [hstart]
        beta_reduce
        split_ifs <;> omega)
    refine ⟨l, hl, fun x hx => ?_, nodup_of_pairwise_measure _ l hpw, ?_⟩
    · obtain ⟨a1, a2, a3, _⟩ := hall x hx
      exact ⟨a1, a2, a3⟩
    · rw [hstart] at hlen
      split_ifs at hlen <;> omega

/-- C26: for a playlist of length `n ≥ 1`, a cached position below `n` (a
negative one counts as 0), direction +1 or -1 and at least `n` units of fuel,
`list_jump_rel` takes no modulus by zero and returns; its search loop runs
its body at no more than `n - 1` playlist positions, each of them in
`[0, n)`, none of them the start position and none of them twice. -/
theorem list_jump_rel_terminates (fuel : Nat) (val : List Int) (cache_currpos : Int)
    (active_playlist : List Nat) (inc : Int)
    (hne : active_playlist ≠ []) (hcur : cache_currpos < active_playlist.length)
    (hinc : inc = 1 ∨ inc = -1) (hfuel : active_playlist.length ≤ fuel) :
    (∃ out, list_jump_rel fuel val cache_currpos active_playlist inc = some (Except.ok out))
    ∧ ∃ l, list_jump_rel_positions fuel val cache_currpos active_playlist inc
          = some (Except.ok l)
      ∧ l.length ≤ active_playlist.length - 1
      ∧ (∀ x ∈ l, 0 ≤ x ∧ x < active_playlist.length
          ∧ x ≠ (if cache_currpos < 0 then 0 else cache_currpos))
      ∧ l.Nodup := by
  have hlen : 0 < active_playlist.length := List.length_pos.mpr hne
  have hc : 0 ≤ (if cache_currpos < 0 then 0 else cache_currpos)
      ∧ (if cache_currpos < 0 then 0 else cache_currpos) < (active_playlist.length : Int) := by
    split_ifs <;> omega
  constructor
  · rw [list_jump_rel_eq fuel val cache_currpos active_playlist inc hne]
    rcases list_jump_rel_from_start active_playlist val
        (if cache_currpos < 0 then 0 else cache_currpos) inc active_playlist.length rfl hinc
        hc.1 hc.2 fuel (by omega) with h | ⟨p, _, _, _, h4⟩
    · exact ⟨_, by rw [h]; rfl⟩
    · exact ⟨_, by rw [h4]; rfl⟩
  · obtain ⟨l, hl, hall, hnd, hlen1⟩ := list_jump_rel_examined_from_start active_playlist val
      (if cache_currpos < 0 then 0 else cache_currpos) inc active_playlist.length hinc
      hc.1 hc.2 fuel (by omega)
    refine ⟨l, ?_, by omega, hall, hnd⟩
    have hsz : ¬ ((active_playlist.length : Int) = 0) := by omega
    unfold list_jump_rel_positions
    simp only [hsz, if_false]
    rw [hl]
    rfl

/-- Witness of `list_jump_rel_terminates`: playlist `[1, 2, 3, 4]`,
position 0, direction -1, match `[9]`: the loop looks at position 3, then at
2 and 1 with the match cursor at its end, and stops. -/
theorem list_jump_rel_terminates_witness :
    ∃ l, list_jump_rel_positions 4 [9] 0 [1, 2, 3, 4] (-1) = some (Except.ok l)
      ∧ l.length ≤ 3 :=
  have h := (list_jump_rel_terminates 4 [9] 0 [1, 2, 3, 4] (-1) (by decide) (by decide)
    (by decide) (by decide)).2
  h.elim fun l hl => ⟨l, hl.1, hl.2.1⟩

/-! ## `move_entries`: matches on one side of the target -/

theorem move_entries_loop_all_miss (list : GTree) (pos : Int) (it : xmmsv_list_iter_t) :
    ∀ (curr inc : Int) (up : Bool), (∀ id ∈ it, tree_has list id = false) →
      move_entries_loop list pos it curr inc up = [] := by
  induction it with
  | nil => intro _ _ _ _; rfl
  | cons id0 it ih =>
    intro curr inc up h
    rw [move_entries_loop_miss list pos id0 it curr inc up (h id0 (List.mem_cons_self _ _))]
    exact ih _ _ _ (fun id hid => h id (List.mem_cons_of_mem _ hid))

theorem filter_eq_nil_of_all_false {α : Type} (p : α → Bool) (l : List α)
    (h : ∀ x ∈ l, p x = false) : l.filter p = [] := by
  induction l with
  | nil => rfl
  | cons x l ih =>
    simp only [List.filter_cons, h x (List.mem_cons_self _ _), Bool.false_eq_true, if_false]
    exact ih (fun y hy => h y (List.mem_cons_of_mem _ hy))

theorem filter_not_eq_self_of_all_false {α : Type} (p : α → Bool) (l : List α)
    (h : ∀ x ∈ l, p x = false) : l.filter (fun x => !p x) = l := by
  induction l with
  | nil => rfl
  | cons x l ih =>
    simp only [List.filter_cons, h x (List.mem_cons_self _ _), Bool.not_false, if_true]
    rw [ih (fun y hy => h y (List.mem_cons_of_mem _ hy))]

theorem move_entries_forward_run (list : GTree) (it : xmmsv_list_iter_t) :
    ∀ (curr inc : Int) (u m : List Int) (d : Nat),
      (u.length : Int) = curr - inc → (m.length : Int) = inc → d ≤ it.length →
      (∀ id ∈ it.drop d, tree_has list id = false) →
      playlist_run (u ++ (it.take d ++ (m ++ it.drop d)))
          (move_entries_loop list (curr + d) it curr inc true)
        = some (u ++ ((it.take d).filter (fun x => !tree_has list x)
            ++ ((m ++ (it.take d).filter (tree_has list)) ++ it.drop d))) := by
  induction it with
  | nil =>
    intro curr inc u m d _ _ hd _
    have : d = 0 := by simpa using hd
    subst this
    simp [move_entries_loop, playlist_run]
  | cons id0 it ih =>
    intro curr inc u m d hu hm hd hmiss
    cases d with
    | zero =>
      rw [move_entries_loop_all_miss list _ (id0 :: it) curr inc true
        (by simpa using hmiss)]
      simp [playlist_run]
    | succ d =>
      have hd1 : d ≤ it.length := by simpa using hd
      have hmiss1 : ∀ id ∈ it.drop d, tree_has list id = false := by simpa using hmiss
      have hne : ¬ curr = curr + ((d + 1 : Nat) : Int) := by push_cast; omega
      have hup : (if curr = curr + ((d + 1 : Nat) : Int) then false else true) = true :=
        if_neg hne
      have hpos : curr + ((d + 1 : Nat) : Int) = curr + 1 + (d : Int) := by push_cast; ring
      by_cases h0 : tree_has list id0 = true
      · rw [move_entries_loop_hit list _ id0 it curr inc true h0, hup]
        simp only [if_true, List.take_succ_cons, List.filter_cons, h0,
          List.drop_succ_cons, playlist_run, playlist_apply,
          Bool.not_true, Bool.false_eq_true, if_false, List.cons_append]
        rw [playlist_move_entry_block u (it.take d) m (it.drop d) id0 (curr - inc)
          (curr + ((d + 1 : Nat) : Int) - 1) (by omega)
          (by rw [List.length_take, Nat.min_eq_left hd1]; push_cast; omega)]
        simp only
        have hrec := ih (curr + 1) (inc + 1) u (m ++ [id0]) d (by omega)
          (by simp only [List.length_append, List.length_singleton]; push_cast; omega)
          hd1 hmiss1
        rw [hpos]
        have e : u ++ (it.take d ++ (m ++ id0 :: it.drop d))
            = u ++ (it.take d ++ ((m ++ [id0]) ++ it.drop d)) := by simp
        rw [e, hrec]
        simp
      · have h0f : tree_has list id0 = false := by simpa using h0
        rw [move_entries_loop_miss list _ id0 it curr inc true h0f, hup]
        simp only [List.take_succ_cons, List.filter_cons, h0f, Bool.false_eq_true, if_false,
          List.drop_succ_cons, Bool.not_false, if_true, List.cons_append]
        have hrec := ih (curr + 1) inc (u ++ [id0]) m d
          (by simp only [List.length_append, List.length_singleton]; push_cast; omega)
          hm hd1 hmiss1
        rw [hpos]
        have e : u ++ id0 :: (it.take d ++ (m ++ it.drop d))
            = (u ++ [id0]) ++ (it.take d ++ (m ++ it.drop d)) := by simp
        rw [e, hrec]
        simp

theorem playlist_move_entry_back {α : Type} (a v t : List α) (x : α) (src dst : Int)
    (hs : src = a.length + v.length) (hd : dst = a.length) :
    playlist_move_entry (a ++ (v ++ x :: t)) src dst = some (a ++ x :: (v ++ t)) := by
  have e1 : src.toNat = (a ++ v).length := by
    simp only [List.length_append]; omega
  have e2 : dst.toNat = a.length := by omega
  have hcond : 0 ≤ src ∧ src < ((a ++ (v ++ x :: t)).length : Int) ∧ 0 ≤ dst
      ∧ dst < ((a ++ (v ++ x :: t)).length : Int) := by
    simp only [List.length_append, List.length_cons]
    push_cast
    omega
  have hre : a ++ (v ++ x :: t) = (a ++ v) ++ x :: t := by simp
  have hget : (a ++ (v ++ x :: t))[src.toNat]? = some x := by
    rw [e1, hre, List.getElem?_append_right (le_refl _), Nat.sub_self]
    exact List.getElem?_cons_zero
  have htake : (a ++ (v ++ x :: t)).take src.toNat = a ++ v := by
    rw [e1, hre]; exact List.take_left (a ++ v) _
  have hdrop : (a ++ (v ++ x :: t)).drop (src.toNat + 1) = t := by
    rw [e1, show (a ++ v).length + 1 = (a ++ v ++ [x]).length from by
        simp only [List.length_append, List.length_singleton],
      show a ++ (v ++ x :: t) = (a ++ v ++ [x]) ++ t from by simp, List.drop_left]
  unfold playlist_move_entry
  rw [if_pos hcond, hget]
  simp only [htake, hdrop]
  have hre2 : a ++ v ++ t = a ++ (v ++ t) := by simp
  rw [hre2, e2, List.take_left, List.drop_left]

theorem move_entries_backward_run (list : GTree) (pos : Int) (it : xmmsv_list_iter_t) :
    ∀ (curr inc : Int) (a m v : List Int),
      (a.length : Int) = pos → (m.length : Int) = inc →
      (a.length : Int) + m.length + v.length = curr →
      playlist_run (a ++ (m ++ (v ++ it))) (move_entries_loop list pos it curr inc false)
        = some (a ++ ((m ++ it.filter (tree_has list))
            ++ (v ++ it.filter (fun x => !tree_has list x)))) := by
  induction it with
  | nil =>
    intro curr inc a m v _ _ _
    simp [move_entries_loop, playlist_run]
  | cons id0 it ih =>
    intro curr inc a m v ha hm hc
    have hf : (if curr = pos then false else false) = false := by split_ifs <;> rfl
    by_cases h0 : tree_has list id0 = true
    · rw [move_entries_loop_hit list pos id0 it curr inc false h0, hf]
      simp only [Bool.false_eq_true, if_false, playlist_run, playlist_apply,
        List.filter_cons, h0, if_true, Bool.not_true]
      have hblock := playlist_move_entry_back (a ++ m) v it id0 curr (pos + inc)
        (by simp only [List.length_append]; push_cast; omega)
        (by simp only [List.length_append]; push_cast; omega)
      have e : a ++ (m ++ (v ++ id0 :: it)) = (a ++ m) ++ (v ++ id0 :: it) := by simp
      rw [e, hblock]
      simp only
      have hrec := ih (curr + 1) (inc + 1) a (m ++ [id0]) v ha
        (by simp only [List.length_append, List.length_singleton]; push_cast; omega)
        (by simp only [List.length_append, List.length_singleton]; push_cast; omega)
      have e2 : a ++ m ++ id0 :: (v ++ it) = a ++ ((m ++ [id0]) ++ (v ++ it)) := by simp
      rw [e2, hrec]
      simp
    · have h0f : tree_has list id0 = false := by simpa using h0
      rw [move_entries_loop_miss list pos id0 it curr inc false h0f, hf]
      simp only [List.filter_cons, h0f, Bool.false_eq_true, if_false, Bool.not_false, if_true]
      have hrec := ih (curr + 1) inc a m (v ++ [id0]) ha hm
        (by simp only [List.length_append, List.length_singleton]; push_cast; omega)
      have e : a ++ (m ++ (v ++ id0 :: it)) = a ++ (m ++ ((v ++ [id0]) ++ it)) := by simp
      rw [e, hrec]
      simp

theorem move_entries_loop_skip_misses (list : GTree) (it : xmmsv_list_iter_t) :
    ∀ (curr inc : Int) (d : Nat), d ≤ it.length →
      (∀ id ∈ it.take d, tree_has list id = false) →
      move_entries_loop list (curr + d) it curr inc true
        = move_entries_loop list (curr + d) (it.drop d) (curr + d) inc false := by
  induction it with
  | nil =>
    intro curr inc d hd _
    have : d = 0 := by simpa using hd
    subst this
    rfl
  | cons id0 it ih =>
    intro curr inc d hd hmiss
    cases d with
    | zero =>
      simp only [Nat.cast_zero, add_zero, List.drop_zero]
      exact move_entries_loop_at_pos list curr (id0 :: it) inc
    | succ d =>
      have hd1 : d ≤ it.length := by simpa using hd
      have h0f : tree_has list id0 = false := hmiss id0 (by simp)
      have hne : ¬ curr = curr + ((d + 1 : Nat) : Int) := by push_cast; omega
      have hpos : curr + ((d + 1 : Nat) : Int) = curr + 1 + (d : Int) := by push_cast; ring
      rw [move_entries_loop_miss list _ id0 it curr inc true h0f, if_neg hne,
        List.drop_succ_cons, hpos]
      exact ih (curr + 1) inc d hd1
        (fun id hid => hmiss id (by simp only [List.take_succ_cons]; exact List.mem_cons_of_mem _ hid))

theorem is_matching_iff_mem (matching : List Int) (x : Int)
    (hm : ∀ id ∈ matching, is_gint32 id) (hx : is_gint32 x) :
    is_matching matching x = true ↔ x ∈ matching := by
  obtain ⟨ho, hk, _⟩ := matching_ids_tree_loop_spec matching GTree.nil ∅ trivial
    (by simp [GTree.keys]) (by simp [g_tree_nnodes])
  unfold is_matching tree_has matching_ids_tree
  rw [decide_eq_true_iff, g_tree_lookup_ne_none _ _ ho, hk]
  simp only [Finset.empty_union, List.mem_toFinset, List.mem_map]
  constructor
  · rintro ⟨y, hy, hxy⟩
    have := guint_of_gint_inj y x (hm y hy) hx hxy
    rwa [← this]
  · intro h
    exact ⟨x, h, rfl⟩

theorem filter_is_matching_eq (matching l : List Int)
    (hm : ∀ id ∈ matching, is_gint32 id) (hl : ∀ id ∈ l, is_gint32 id) :
    l.filter (is_matching matching) = l.filter (fun x => decide (x ∈ matching))
    ∧ l.filter (fun x => !is_matching matching x)
        = l.filter (fun x => decide (x ∉ matching)) := by
  constructor
  · apply List.filter_congr
    intro x hx
    have := is_matching_iff_mem matching x hm (hl x hx)
    by_cases h : x ∈ matching
    · simp [h, this.mpr h]
    · have hf : is_matching matching x = false := by
        cases hb : is_matching matching x with
        | false => rfl
        | true => exact absurd (this.mp hb) h
      simp [h, hf]
  · apply List.filter_congr
    intro x hx
    have := is_matching_iff_mem matching x hm (hl x hx)
    by_cases h : x ∈ matching
    · simp [h, this.mpr h]
    · have hf : is_matching matching x = false := by
        cases hb : is_matching matching x with
        | false => rfl
        | true => exact absurd (this.mp hb) h
      simp [h, hf]

/-- C24: for a playlist of `gint32` ids, a match list of `gint32` ids and a
target `pos` between 0 and the length of the playlist, when no matched entry
stands at a raw index from `pos` on, or none below `pos`, the daemon accepts
the batch of `move_entries` and is left with: the unmatched entries that
stood before `pos`, then all matched entries in their original order, then
the unmatched entries that stood at `pos` or after. -/
theorem move_entries_one_side (matching lisval : List Int) (pos : Nat)
    (hpos : pos ≤ lisval.length)
    (hm : ∀ id ∈ matching, is_gint32 id) (hl : ∀ id ∈ lisval, is_gint32 id)
    (hside : (∀ x ∈ lisval.drop pos, x ∉ matching) ∨ (∀ x ∈ lisval.take pos, x ∉ matching)) :
    playlist_run lisval (move_entries matching lisval pos)
      = some (moved_to_spec matching lisval pos) := by
  have hmiss : ∀ (l : List Int), (∀ id ∈ l, is_gint32 id) → (∀ x ∈ l, x ∉ matching) →
      ∀ id ∈ l, tree_has (matching_ids_tree matching) id = false := by
    intro l hl1 hno id hid
    cases hb : tree_has (matching_ids_tree matching) id with
    | false => rfl
    | true => exact absurd ((is_matching_iff_mem matching id hm (hl1 id hid)).mp hb) (hno id hid)
  have hltake : ∀ id ∈ lisval.take pos, is_gint32 id :=
    fun id hid => hl id (List.mem_of_mem_take hid)
  have hldrop : ∀ id ∈ lisval.drop pos, is_gint32 id :=
    fun id hid => hl id (List.mem_of_mem_drop hid)
  have hsplit : lisval.filter (is_matching matching)
      = (lisval.take pos).filter (is_matching matching)
        ++ (lisval.drop pos).filter (is_matching matching) := by
    rw [← List.filter_append, List.take_append_drop]
  have hspec : moved_to_spec matching lisval pos
      = (lisval.take pos).filter (fun x => !is_matching matching x)
        ++ (((lisval.take pos).filter (is_matching matching)
            ++ (lisval.drop pos).filter (is_matching matching))
        ++ (lisval.drop pos).filter (fun x => !is_matching matching x)) := by
    unfold moved_to_spec
    rw [← hsplit, (filter_is_matching_eq matching lisval hm hl).1,
      (filter_is_matching_eq matching _ hm hltake).2,
      (filter_is_matching_eq matching _ hm hldrop).2]
    simp
  have hdef : tree_has (matching_ids_tree matching) = is_matching matching := rfl
  rw [hspec]
  unfold move_entries
  simp only
  rcases hside with hafter | hbefore
  · have hmd := hmiss _ hldrop hafter
    have h := move_entries_forward_run (matching_ids_tree matching) lisval 0 0 [] [] pos
      rfl rfl hpos hmd
    simp only [zero_add, List.nil_append, List.take_append_drop] at h
    rw [hdef] at h
    have e1 : (lisval.drop pos).filter (is_matching matching) = [] :=
      filter_eq_nil_of_all_false _ _ hmd
    have e2 : (lisval.drop pos).filter (fun x => !is_matching matching x) = lisval.drop pos :=
      filter_not_eq_self_of_all_false _ _ hmd
    rw [h, e1, e2]
    simp
  · have hmt := hmiss _ hltake hbefore
    have hskip := move_entries_loop_skip_misses (matching_ids_tree matching) lisval 0 0 pos
      hpos hmt
    simp only [zero_add] at hskip
    rw [hskip]
    have h := move_entries_backward_run (matching_ids_tree matching) pos (lisval.drop pos)
      pos 0 (lisval.take pos) [] []
      (by rw [List.length_take, Nat.min_eq_left hpos])
      rfl
      (by rw [List.length_take, Nat.min_eq_left hpos]; simp)
    simp only [List.nil_append, List.take_append_drop] at h
    rw [hdef] at h
    have e1 : (lisval.take pos).filter (is_matching matching) = [] :=
      filter_eq_nil_of_all_false _ _ hmt
    have e2 : (lisval.take pos).filter (fun x => !is_matching matching x) = lisval.take pos :=
      filter_not_eq_self_of_all_false _ _ hmt
    rw [h, e1, e2]
    simp

/-- Witness of `move_entries_one_side`: playlist `[1, 2, 3, 4, 5]`, matches
`[2, 4]`, target 1: the result is `[1, 2, 4, 3, 5]`. -/
theorem move_entries_one_side_witness :
    playlist_run [1, 2, 3, 4, 5] (move_entries [2, 4] [1, 2, 3, 4, 5] 1)
      = some [1, 2, 4, 3, 5] := by
  have h := move_entries_one_side [2, 4] [1, 2, 3, 4, 5] 1 (by decide)
    (by
      intro id hid
      simp only [List.mem_cons, List.mem_singleton, List.not_mem_nil, or_false] at hid
      unfold is_gint32
      omega)
    (by
      intro id hid
      simp only [List.mem_cons, List.mem_singleton, List.not_mem_nil, or_false] at hid
      unfold is_gint32
      omega)
    (Or.inr (by decide))
  have h2 : playlist_run [1, 2, 3, 4, 5] (move_entries [2, 4] [1, 2, 3, 4, 5] ((1 : Nat) : Int))
      = some [1, 2, 4, 3, 5] := by
    rw [h]
    decide
  exact h2

/-! ## `positions_move` -/

theorem select_indices_from_congr {α : Type} (l : List α) :
    ∀ (i : Int) (s t : List Int), (∀ j, i ≤ j → j < i + l.length → (j ∈ s ↔ j ∈ t)) →
      select_indices_from i l s = select_indices_from i l t := by
  induction l with
  | nil => intro _ _ _ _; rfl
  | cons x xs ih =>
    intro i s t h
    have hi : i ∈ s ↔ i ∈ t :=
      h i (le_refl i) (by simp only [List.length_cons]; push_cast; omega)
    have hrec := ih (i + 1) s t (fun j hj hj2 =>
      h j (by omega) (by simp only [List.length_cons]; push_cast; omega))
    unfold select_indices_from
    by_cases his : i ∈ s
    · rw [if_pos his, if_pos (hi.mp his), hrec]
    · rw [if_neg his, if_neg (fun ht => his (hi.mpr ht)), hrec]

theorem select_indices_from_none {α : Type} (l : List α) :
    ∀ (i : Int) (s : List Int), (∀ j ∈ s, j < i) → select_indices_from i l s = [] := by
  induction l with
  | nil => intro _ _ _; rfl
  | cons x xs ih =>
    intro i s h
    have hi : i ∉ s := fun hmem => by have := h i hmem; omega
    unfold select_indices_from
    rw [if_neg hi, ih (i + 1) s (fun j hj => by have := h j hj; omega)]

theorem select_indices_from_append {α : Type} (a b : List α) :
    ∀ (i : Int) (s : List Int),
      select_indices_from i (a ++ b) s
        = select_indices_from i a s ++ select_indices_from (i + a.length) b s := by
  induction a with
  | nil => intro i s; simp [select_indices_from]
  | cons x xs ih =>
    intro i s
    have e : i + ((x :: xs).length : Int) = i + 1 + (xs.length : Int) := by
      simp only [List.length_cons]; push_cast; ring
    simp only [List.cons_append, select_indices_from]
    rw [e]
    split_ifs <;> simp [ih (i + 1) s]

theorem delete_indices_from_step {α : Type} (a b : List α) (x : α) (i p : Int)
    (rest : List Int) (hlen : i + (a.length : Int) = p) (hlt : ∀ q ∈ rest, q < p) :
    delete_indices_from i (a ++ x :: b) (p :: rest) = delete_indices_from i a rest ++ b := by
  rw [delete_indices_from_append, hlen]
  have h2 : delete_indices_from p (x :: b) (p :: rest) = b := by
    unfold delete_indices_from
    rw [if_pos (List.mem_cons_self p rest)]
    exact delete_indices_from_none b (p + 1) (p :: rest) (fun j hj => by
      rcases List.mem_cons.mp hj with h | h
      · omega
      · have := hlt j h; omega)
  have h3 : delete_indices_from i a (p :: rest) = delete_indices_from i a rest :=
    delete_indices_from_congr a i (p :: rest) rest (fun j _ hj2 => by
      constructor
      · intro hj
        rcases List.mem_cons.mp hj with h | h
        · omega
        · exact h
      · intro hj
        exact List.mem_cons_of_mem p hj)
  rw [h2, h3]

theorem select_indices_from_step {α : Type} (a b : List α) (x : α) (i p : Int)
    (rest : List Int) (hlen : i + (a.length : Int) = p) (hlt : ∀ q ∈ rest, q < p) :
    select_indices_from i (a ++ x :: b) (p :: rest) = select_indices_from i a rest ++ [x] := by
  rw [select_indices_from_append, hlen]
  have h2 : select_indices_from p (x :: b) (p :: rest) = [x] := by
    unfold select_indices_from
    rw [if_pos (List.mem_cons_self p rest)]
    rw [select_indices_from_none b (p + 1) (p :: rest) (fun j hj => by
      rcases List.mem_cons.mp hj with h | h
      · omega
      · have := hlt j h; omega)]
  have h3 : select_indices_from i a (p :: rest) = select_indices_from i a rest :=
    select_indices_from_congr a i (p :: rest) rest (fun j _ hj2 => by
      constructor
      · intro hj
        rcases List.mem_cons.mp hj with h | h
        · omega
        · exact h
      · intro hj
        exact List.mem_cons_of_mem p hj)
  rw [h2, h3]

theorem split_at_index (r : List Int) (k : Nat) (hk : k < r.length) :
    r = r.take k ++ r[k] :: r.drop (k + 1) ∧ (r.take k).length = k := by
  constructor
  · rw [List.getElem_cons_drop r k hk, List.take_append_drop]
  · rw [List.length_take]; omega

theorem split_at_index_append (r t : List Int) (k : Nat) (hk : k < r.length) :
    r ++ t = r.take k ++ r[k] :: (r.drop (k + 1) ++ t) := by
  rw [← List.cons_append, List.getElem_cons_drop r k hk, ← List.append_assoc,
    List.take_append_drop]

theorem positions_visit_append (f : Int → pl_pos_udata_t → pl_pos_udata_t × List Cmd)
    (a b : List Int) (udata : pl_pos_udata_t) :
    positions_visit f (a ++ b) udata
      = ((positions_visit f b (positions_visit f a udata).1).1,
          (positions_visit f a udata).2 ++ (positions_visit f b (positions_visit f a udata).1).2) := by
  induction a generalizing udata with
  | nil => simp [positions_visit]
  | cons p a ih =>
    show positions_visit f (p :: (a ++ b)) udata = _
    simp only [positions_visit]
    rw [ih]
    simp only [List.append_assoc]

theorem playlist_run_append (c1 c2 : List Cmd) :
    ∀ (pl pl1 : List Int), playlist_run pl c1 = some pl1 →
      playlist_run pl (c1 ++ c2) = playlist_run pl1 c2 := by
  induction c1 with
  | nil =>
    intro pl pl1 h
    simp only [playlist_run, Option.some.injEq] at h
    subst h
    rfl
  | cons c c1 ih =>
    intro pl pl1 h
    simp only [List.cons_append, playlist_run] at h ⊢
    cases hc : playlist_apply pl c with
    | none => rw [hc] at h; simp at h
    | some pl2 =>
      rw [hc] at h
      simp only at h ⊢
      exact ih pl2 pl1 h

theorem positions_move_backward_phase (pos : Int) (vb : List Int) :
    ∀ (pack : pl_pos_udata_t) (a mv r t : List Int),
      pack.pos = pos → (a.length : Int) = pos → (mv.length : Int) = pack.inc →
      vb.Pairwise (· > ·) → (∀ p ∈ vb, pos ≤ p ∧ p < pos + r.length) →
      (positions_visit pos_move_cb vb pack).1 = { inc := pack.inc + vb.length, pos := pos }
      ∧ playlist_run (a ++ (mv ++ (r ++ t))) (positions_visit pos_move_cb vb pack).2
          = some (a ++ (select_indices_from pos r vb
              ++ (mv ++ (delete_indices_from pos r vb ++ t)))) := by
  induction vb with
  | nil =>
    intro pack a mv r t hp _ _ _ _
    refine ⟨?_, ?_⟩
    · cases pack
      simp only at hp
      simp [positions_visit, hp]
    · simp only [positions_visit, playlist_run]
      rw [select_indices_from_none r pos [] (by simp),
        delete_indices_from_none r pos [] (by simp)]
      simp
  | cons p rest ih =>
    intro pack a mv r t hp ha hmv hpw hrange
    obtain ⟨hp0, hp1⟩ := hrange p (List.mem_cons_self _ _)
    have hlt : ∀ q ∈ rest, q < p := fun q hq => (List.pairwise_cons.mp hpw).1 q hq
    have hk : (p - pos).toNat < r.length := by omega
    obtain ⟨hsplit, hlen1⟩ := split_at_index r (p - pos).toNat hk
    have hcb : pos_move_cb p pack
        = ({ pack with inc := pack.inc + 1 }, [Cmd.move_entry (p + pack.inc) pack.pos]) := by
      unfold pos_move_cb
      rw [if_neg (by rw [hp]; omega)]
    have hmove : playlist_apply (a ++ (mv ++ (r ++ t))) (Cmd.move_entry (p + pack.inc) pack.pos)
        = some (a ++ ((r[(p - pos).toNat] :: mv)
            ++ (r.take (p - pos).toNat ++ (r.drop ((p - pos).toNat + 1) ++ t)))) := by
      have e : a ++ (mv ++ (r ++ t))
          = a ++ ((mv ++ r.take (p - pos).toNat)
              ++ r[(p - pos).toNat] :: (r.drop ((p - pos).toNat + 1) ++ t)) := by
        rw [List.append_assoc, ← split_at_index_append r t (p - pos).toNat hk]
      rw [e]
      simp only [playlist_apply]
      rw [playlist_move_entry_back a (mv ++ r.take (p - pos).toNat)
        (r.drop ((p - pos).toNat + 1) ++ t) r[(p - pos).toNat] (p + pack.inc) pack.pos
        (by simp only [List.length_append, hlen1]; push_cast; omega)
        (by rw [hp]; omega)]
      simp
    obtain ⟨ih1, ih2⟩ := ih { pack with inc := pack.inc + 1 } a (r[(p - pos).toNat] :: mv)
      (r.take (p - pos).toNat) (r.drop ((p - pos).toNat + 1) ++ t) hp ha
      (by simp only [List.length_cons]; push_cast; omega)
      (List.pairwise_cons.mp hpw).2
      (fun q hq => by
        have h1 := hrange q (List.mem_cons_of_mem _ hq)
        have h2 := hlt q hq
        rw [hlen1]
        omega)
    refine ⟨?_, ?_⟩
    · simp only [positions_visit, hcb, ih1, List.length_cons]
      congr 1
      push_cast
      ring
    · simp only [positions_visit, hcb, List.singleton_append, playlist_run, hmove]
      rw [ih2]
      have hd := delete_indices_from_step (r.take (p - pos).toNat)
        (r.drop ((p - pos).toNat + 1)) r[(p - pos).toNat] pos p rest
        (by rw [hlen1]; omega) hlt
      have hs := select_indices_from_step (r.take (p - pos).toNat)
        (r.drop ((p - pos).toNat + 1)) r[(p - pos).toNat] pos p rest
        (by rw [hlen1]; omega) hlt
      rw [← hsplit] at hd hs
      rw [hd, hs]
      simp

theorem positions_move_forward_phase (pos : Int) (vf : List Int) :
    ∀ (pack : pl_pos_udata_t) (r w mf z : List Int),
      pack.pos = pos → (r.length : Int) + w.length + mf.length = pos →
      (pack.inc = -((mf.length : Int) + 1) ∨ (mf.length = 0 ∧ 0 ≤ pack.inc)) →
      vf.Pairwise (· > ·) → (∀ p ∈ vf, 0 ≤ p ∧ p < r.length) →
      playlist_run (r ++ (w ++ (mf ++ z))) (positions_visit pos_move_cb vf pack).2
        = some (delete_indices_from 0 r vf
            ++ (w ++ (select_indices_from 0 r vf ++ (mf ++ z)))) := by
  induction vf with
  | nil =>
    intro pack r w mf z _ _ _ _ _
    simp only [positions_visit, playlist_run]
    rw [select_indices_from_none r 0 [] (by simp),
      delete_indices_from_none r 0 [] (by simp)]
    simp
  | cons p rest ih =>
    intro pack r w mf z hp hlen hinc hpw hrange
    obtain ⟨hp0, hp1⟩ := hrange p (List.mem_cons_self _ _)
    have hlt : ∀ q ∈ rest, q < p := fun q hq => (List.pairwise_cons.mp hpw).1 q hq
    have hk : p.toNat < r.length := by omega
    obtain ⟨hsplit, hlen1⟩ := split_at_index r p.toNat hk
    have hcb : pos_move_cb p pack
        = ({ pack with inc := -((mf.length : Int) + 1) - 1 },
            [Cmd.move_entry p (pos + -((mf.length : Int) + 1))]) := by
      unfold pos_move_cb
      rw [if_pos (by rw [hp]; omega)]
      rcases hinc with h | ⟨h1, h2⟩
      · have hneg : ¬ pack.inc ≥ 0 := by omega
        rw [if_neg hneg]
        simp only [hp, h]
      · have hpos0 : pack.inc ≥ 0 := h2
        simp only [hpos0, if_true, hp, h1]
        simp
    have hlr : r.length = p.toNat + 1 + (r.drop (p.toNat + 1)).length := by
      rw [List.length_drop]; omega
    have hmove : playlist_apply (r ++ (w ++ (mf ++ z)))
          (Cmd.move_entry p (pos + -((mf.length : Int) + 1)))
        = some (r.take p.toNat ++ ((r.drop (p.toNat + 1) ++ w)
            ++ ((r[p.toNat] :: mf) ++ z))) := by
      have e : r ++ (w ++ (mf ++ z))
          = r.take p.toNat ++ r[p.toNat] :: (r.drop (p.toNat + 1) ++ (w ++ (mf ++ z))) :=
        split_at_index_append r (w ++ (mf ++ z)) p.toNat hk
      rw [e]
      simp only [playlist_apply]
      rw [playlist_move_entry_block (r.take p.toNat) (r.drop (p.toNat + 1)) w (mf ++ z)
        r[p.toNat] p (pos + -((mf.length : Int) + 1))
        (by rw [hlen1]; omega)
        (by rw [hlen1]; omega)]
      simp
    have hrec := ih { pack with inc := -((mf.length : Int) + 1) - 1 } (r.take p.toNat)
      (r.drop (p.toNat + 1) ++ w) (r[p.toNat] :: mf) z hp
      (by
        simp only [List.length_append, List.length_cons, hlen1]
        push_cast at hlen ⊢
        omega)
      (Or.inl (by simp only [List.length_cons]; push_cast; ring))
      (List.pairwise_cons.mp hpw).2
      (fun q hq => by
        have h1 := hrange q (List.mem_cons_of_mem _ hq)
        have h2 := hlt q hq
        rw [hlen1]
        omega)
    simp only [positions_visit, hcb, List.singleton_append, playlist_run, hmove]
    rw [hrec]
    have hd := delete_indices_from_step (r.take p.toNat) (r.drop (p.toNat + 1)) r[p.toNat]
      0 p rest (by rw [hlen1]; omega) hlt
    have hs := select_indices_from_step (r.take p.toNat) (r.drop (p.toNat + 1)) r[p.toNat]
      0 p rest (by rw [hlen1]; omega) hlt
    rw [← hsplit] at hd hs
    rw [hd, hs]
    simp

theorem descending_split (pos : Int) (l : List Int) (h : l.Pairwise (· > ·)) :
    l = l.filter (fun p => decide (pos ≤ p)) ++ l.filter (fun p => decide (p < pos)) := by
  induction l with
  | nil => rfl
  | cons p rest ih =>
    have hrest := ih (List.pairwise_cons.mp h).2
    have hlt : ∀ q ∈ rest, q < p := fun q hq => (List.pairwise_cons.mp h).1 q hq
    by_cases hp : pos ≤ p
    · have hnp : ¬ p < pos := by omega
      simp only [List.filter_cons, hp, decide_True, if_true, hnp, decide_False,
        Bool.false_eq_true, if_false, List.cons_append]
      rw [← hrest]
    · have hp2 : p < pos := by omega
      have hnone : rest.filter (fun q => decide (pos ≤ q)) = [] := by
        apply filter_eq_nil_of_all_false
        intro q hq
        have := hlt q hq
        simp only [decide_eq_false_iff_not]
        omega
      have hall : rest.filter (fun q => decide (q < pos)) = rest := by
        apply List.filter_eq_self.mpr
        intro q hq
        have := hlt q hq
        simp only [decide_eq_true_eq]
        omega
      simp only [List.filter_cons, hp, decide_False, Bool.false_eq_true, if_false, hp2,
        decide_True, if_true, hnone, hall, List.nil_append]

/-- C25: for a playlist of length `n`, a target `pos` between 0 and `n` and
positions inside the playlist that the backward traversal visits in strictly
descending order, the daemon accepts the batch of `positions_move` and is
left with: the entries before `pos` that were not selected, then the selected
entries in ascending order of their original position, then the entries from
`pos` on that were not selected. -/
theorem positions_move_result (pl : List Int) (positions : List Int) (pos : Nat)
    (hpos : pos ≤ pl.length) (hdesc : positions.reverse.Pairwise (· > ·))
    (hrange : ∀ p ∈ positions, 0 ≤ p ∧ p < pl.length) :
    playlist_run pl (positions_move positions pos)
      = some (delete_indices (pl.take pos) positions
          ++ (select_indices pl positions
          ++ delete_indices_from pos (pl.drop pos) positions)) := by
  have hsplit := descending_split pos positions.reverse hdesc
  have hvb_pw : (positions.reverse.filter (fun p => decide ((pos : Int) ≤ p))).Pairwise (· > ·) :=
    List.Pairwise.filter _ hdesc
  have hvf_pw : (positions.reverse.filter (fun p => decide (p < (pos : Int)))).Pairwise (· > ·) :=
    List.Pairwise.filter _ hdesc
  have hltake : (pl.take pos).length = pos := by rw [List.length_take]; omega
  have hldrop : (pl.drop pos).length = pl.length - pos := List.length_drop pos pl
  have hmemb : ∀ j, j ∈ positions.reverse.filter (fun p => decide ((pos : Int) ≤ p))
      ↔ j ∈ positions ∧ (pos : Int) ≤ j := by
    intro j
    simp [List.mem_filter]
  have hmemf : ∀ j, j ∈ positions.reverse.filter (fun p => decide (p < (pos : Int)))
      ↔ j ∈ positions ∧ j < (pos : Int) := by
    intro j
    simp [List.mem_filter]
  obtain ⟨hb1, hb2⟩ := positions_move_backward_phase pos
    (positions.reverse.filter (fun p => decide ((pos : Int) ≤ p)))
    { inc := 0, pos := pos } (pl.take pos) [] (pl.drop pos) [] rfl
    (by rw [hltake]) rfl hvb_pw
    (fun p hp => by
      have h1 := (hmemb p).mp hp
      have h2 := hrange p h1.1
      rw [hldrop]
      omega)
  have hf := positions_move_forward_phase pos
    (positions.reverse.filter (fun p => decide (p < (pos : Int))))
    { inc := (0 : Int) + ((positions.reverse.filter
        (fun p => decide ((pos : Int) ≤ p))).length : Int), pos := pos }
    (pl.take pos) [] []
    (select_indices_from pos (pl.drop pos)
        (positions.reverse.filter (fun p => decide ((pos : Int) ≤ p)))
      ++ delete_indices_from pos (pl.drop pos)
        (positions.reverse.filter (fun p => decide ((pos : Int) ≤ p))))
    rfl (by simp only [List.length_nil, hltake]; push_cast; omega)
    (Or.inr ⟨rfl, by simp only []; omega⟩) hvf_pw
    (fun p hp => by
      have h1 := (hmemf p).mp hp
      have h2 := hrange p h1.1
      rw [hltake]
      omega)
  have hcmds : positions_move positions pos
      = (positions_visit pos_move_cb
            (positions.reverse.filter (fun p => decide ((pos : Int) ≤ p)))
            { inc := 0, pos := pos }).2
        ++ (positions_visit pos_move_cb
            (positions.reverse.filter (fun p => decide (p < (pos : Int))))
            { inc := (0 : Int) + ((positions.reverse.filter
                (fun p => decide ((pos : Int) ≤ p))).length : Int), pos := pos }).2 := by
    unfold positions_move playlist_positions_foreach
    simp only [Bool.false_eq_true, if_false]
    conv_lhs => rw [hsplit]
    rw [positions_visit_append, hb1]
  simp only [List.nil_append, List.append_nil, List.take_append_drop] at hb2 hf
  rw [hcmds, playlist_run_append _ _ pl _ hb2, hf]
  congr 1
  have e1 : delete_indices_from 0 (pl.take pos)
        (positions.reverse.filter (fun p => decide (p < (pos : Int))))
      = delete_indices (pl.take pos) positions := by
    unfold delete_indices
    apply delete_indices_from_congr
    intro j hj0 hj1
    rw [hmemf, hltake] at *
    constructor
    · intro h; exact h.1
    · intro h; exact ⟨h, by omega⟩
  have e2 : select_indices_from 0 (pl.take pos)
        (positions.reverse.filter (fun p => decide (p < (pos : Int))))
      = select_indices_from 0 (pl.take pos) positions := by
    apply select_indices_from_congr
    intro j hj0 hj1
    rw [hmemf, hltake] at *
    constructor
    · intro h; exact h.1
    · intro h; exact ⟨h, by omega⟩
  have e3 : select_indices_from pos (pl.drop pos)
        (positions.reverse.filter (fun p => decide ((pos : Int) ≤ p)))
      = select_indices_from pos (pl.drop pos) positions := by
    apply select_indices_from_congr
    intro j hj0 hj1
    rw [hmemb]
    constructor
    · intro h; exact h.1
    · intro h; exact ⟨h, hj0⟩
  have e4 : delete_indices_from pos (pl.drop pos)
        (positions.reverse.filter (fun p => decide ((pos : Int) ≤ p)))
      = delete_indices_from pos (pl.drop pos) positions := by
    apply delete_indices_from_congr
    intro j hj0 hj1
    rw [hmemb]
    constructor
    · intro h; exact h.1
    · intro h; exact ⟨h, hj0⟩
  have e5 : select_indices pl positions
      = select_indices_from 0 (pl.take pos) positions
        ++ select_indices_from pos (pl.drop pos) positions := by
    unfold select_indices
    conv_lhs => rw [← List.take_append_drop pos pl]
    rw [select_indices_from_append, hltake, zero_add]
  rw [e1, e2, e3, e4, e5]
  simp

/-- Witness of `positions_move_result`: positions 0, 1 and 3 of
`[10, 11, 12, 13, 14]` moved to target 2. -/
theorem positions_move_result_witness :
    playlist_run [10, 11, 12, 13, 14] (positions_move [0, 1, 3] 2)
      = some [10, 11, 13, 12, 14] := by
  have h := positions_move_result [10, 11, 12, 13, 14] [0, 1, 3] 2 (by decide) (by decide)
    (by decide)
  have h2 : playlist_run [10, 11, 12, 13, 14] (positions_move [0, 1, 3] ((2 : Nat) : Int))
      = some [10, 11, 13, 12, 14] := by
    rw [h]
    decide
  exact h2

/-! ## The subscription table in memory -/

theorem mutex_after_append (t1 t2 : List Access) :
    ∀ held, mutex_after held (t1 ++ t2) = mutex_after (mutex_after held t1) t2 := by
  induction t1 with
  | nil => intro held; rfl
  | cons a t ih => intro held; cases a <;> simp [mutex_after, ih]

theorem calls_unlocked_append (t1 t2 : List Access) :
    ∀ held, calls_unlocked held (t1 ++ t2)
      = (calls_unlocked held t1 && calls_unlocked (mutex_after held t1) t2) := by
  induction t1 with
  | nil => intro held; simp [calls_unlocked, mutex_after]
  | cons a t ih =>
    intro held
    cases a <;> simp [calls_unlocked, mutex_after, ih, Bool.and_assoc]

theorem table_locked_append (t1 t2 : List Access) :
    ∀ held, table_locked held (t1 ++ t2)
      = (table_locked held t1 && table_locked (mutex_after held t1) t2) := by
  induction t1 with
  | nil => intro held; simp [table_locked, mutex_after]
  | cons a t ih =>
    intro held
    cases a <;> simp [table_locked, mutex_after, ih, Bool.and_assoc]

theorem called_append (t1 t2 : List Access) : called (t1 ++ t2) = called t1 ++ called t2 := by
  induction t1 with
  | nil => rfl
  | cons a t ih => cases a <;> simp [called, ih]

/-- The search loop of the disconnect only reads entries. -/
theorem disconnect_scan_trace (heap : Nat → Option xmms_object_handler_entry_t)
    (handler : Nat) (list : List Nat) :
    ∀ (node : Nat) (held : Bool),
      calls_unlocked held (disconnect_scan heap handler list node).1 = true
      ∧ table_locked held (disconnect_scan heap handler list node).1 = true
      ∧ mutex_after held (disconnect_scan heap handler list node).1 = held
      ∧ called (disconnect_scan heap handler list node).1 = [] := by
  induction list with
  | nil => intro node held; simp [disconnect_scan, calls_unlocked, table_locked, mutex_after, called]
  | cons e rest ih =>
    intro node held
    unfold disconnect_scan
    cases heap e with
    | none => simp [calls_unlocked, table_locked, mutex_after, called]
    | some en =>
      by_cases hh : en.handler = some handler
      · simp [hh, calls_unlocked, table_locked, mutex_after, called]
      · have := ih (node + 1) held
        simp [hh, calls_unlocked, table_locked, mutex_after, called, this]

/-- The connect calls no handler, never touches the mutex and never faults. -/
theorem connect_mem_trace (object : xmms_object_mem_t) (signalid : Nat)
    (handler : Option Nat) (userdata : Nat) (held : Bool) :
    calls_unlocked held (xmms_object_connect_mem object signalid handler userdata).trace = true
    ∧ mutex_after held (xmms_object_connect_mem object signalid handler userdata).trace = held
    ∧ called (xmms_object_connect_mem object signalid handler userdata).trace = []
    ∧ (xmms_object_connect_mem object signalid handler userdata).fault = none := by
  unfold xmms_object_connect_mem
  split
  · simp [calls_unlocked, mutex_after, called]
  · split
    · simp [calls_unlocked, mutex_after, called]
    · split <;> simp [calls_unlocked, mutex_after, called]

/-- The disconnect calls no handler, touches the table only between its
lock and its unlock, and has released the mutex when it returns. -/
theorem disconnect_mem_trace (object : xmms_object_mem_t) (signalid : Nat)
    (handler : Option Nat) :
    calls_unlocked false (xmms_object_disconnect_mem object signalid handler).trace = true
    ∧ table_locked false (xmms_object_disconnect_mem object signalid handler).trace = true
    ∧ called (xmms_object_disconnect_mem object signalid handler).trace = []
    ∧ ((xmms_object_disconnect_mem object signalid handler).fault = none →
        mutex_after false (xmms_object_disconnect_mem object signalid handler).trace = false) := by
  unfold xmms_object_disconnect_mem
  split
  · simp [calls_unlocked, table_locked, mutex_after, called]
  · split
    · simp [calls_unlocked, table_locked, mutex_after, called]
    · rename_i h
      split
      · simp [calls_unlocked, table_locked, mutex_after, called]
      · rename_i node0 rest0 _
        obtain ⟨s1, s2, s3, s4⟩ :=
          disconnect_scan_trace object.heap h (node0 :: rest0) 0 true
        simp only []
        split <;>
          simp [calls_unlocked, table_locked, mutex_after, called, calls_unlocked_append,
            table_locked_append, mutex_after_append, called_append, s1, s2, s3, s4]

theorem bus_op_trace (object : xmms_object_mem_t) (op : BusOp) :
    calls_unlocked false (bus_op object op).trace = true
    ∧ called (bus_op object op).trace = []
    ∧ ((bus_op object op).fault = none → mutex_after false (bus_op object op).trace = false) := by
  cases op with
  | connect s h u =>
    obtain ⟨c1, c2, c3, _⟩ := connect_mem_trace object s (some h) u false
    exact ⟨c1, c3, fun _ => c2⟩
  | disconnect s h =>
    obtain ⟨c1, _, c3, c4⟩ := disconnect_mem_trace object s (some h)
    exact ⟨c1, c3, c4⟩

/-- A handler body calls no handler, and returns with the mutex released. -/
theorem handler_body_trace (ops : List BusOp) :
    ∀ object : xmms_object_mem_t,
      calls_unlocked false (handler_body object ops).trace = true
      ∧ called (handler_body object ops).trace = []
      ∧ ((handler_body object ops).fault = none →
          mutex_after false (handler_body object ops).trace = false) := by
  induction ops with
  | nil => intro object; simp [handler_body, calls_unlocked, called, mutex_after]
  | cons op ops ih =>
    intro object
    obtain ⟨b1, b2, b3⟩ := bus_op_trace object op
    unfold handler_body
    cases hf : (bus_op object op).fault with
    | some f => simp [hf, b1, b2]
    | none =>
      obtain ⟨i1, i2, i3⟩ := ih (bus_op object op).object
      have hm := b3 hf
      simp only [hf]
      refine ⟨?_, ?_, ?_⟩
      · rw [calls_unlocked_append, b1, hm, i1]; rfl
      · rw [called_append, b2, i2]; rfl
      · intro h
        rw [mutex_after_append, hm]
        exact i3 h

/-- The calling loop of the emission, entered with the mutex released,
calls every handler with the mutex released. -/
theorem emit_calls_unlocked (body : Nat → List BusOp) (list2 : List Nat) :
    ∀ object : xmms_object_mem_t,
      calls_unlocked false (emit_calls body list2 object).trace = true := by
  induction list2 with
  | nil => intro object; rfl
  | cons e rest ih =>
    intro object
    unfold emit_calls
    cases hheap : object.heap e with
    | none => rfl
    | some en =>
      cases hh : en.handler with
      | none => simp only [hh, calls_unlocked]; exact ih object
      | some h =>
        obtain ⟨b1, _, b3⟩ := handler_body_trace (body h) object
        cases hf : (handler_body object (body h)).fault with
        | some f => simp [hh, hf, calls_unlocked, b1]
        | none =>
          have hm := b3 hf
          simp only [hh, hf, calls_unlocked, Bool.not_false, Bool.true_and]
          rw [calls_unlocked_append, b1, hm, ih]
          rfl

/-- The emission never calls a handler while the mutex is held, whatever
the handlers do. -/
theorem emit_mem_calls_unlocked (body : Nat → List BusOp) (object : xmms_object_mem_t)
    (signalid : Nat) :
    calls_unlocked false (xmms_object_emit_mem body object signalid).trace = true := by
  unfold xmms_object_emit_mem
  split
  · rfl
  · simp only [List.cons_append, List.nil_append, calls_unlocked]
    exact emit_calls_unlocked body _ object

/-- A connect leaves every allocated entry as it was and keeps `brk` above
the allocated addresses. -/
theorem connect_mem_heap (object : xmms_object_mem_t) (signalid : Nat)
    (handler : Option Nat) (userdata : Nat)
    (hfresh : ∀ e, object.heap e ≠ none → e < object.brk) :
    (∀ e, object.heap e ≠ none →
      (xmms_object_connect_mem object signalid handler userdata).object.heap e = object.heap e)
    ∧ (∀ e, (xmms_object_connect_mem object signalid handler userdata).object.heap e ≠ none →
      e < (xmms_object_connect_mem object signalid handler userdata).object.brk) := by
  have hupd : ∀ (v : Option xmms_object_handler_entry_t) (e : Nat), object.heap e ≠ none →
      Function.update object.heap object.brk v e = object.heap e := by
    intro v e he
    have := hfresh e he
    rw [Function.update_noteq (by omega)]
  have hupd2 : ∀ (v : Option xmms_object_handler_entry_t) (e : Nat),
      Function.update object.heap object.brk v e ≠ none → e < object.brk + 1 := by
    intro v e he
    by_cases h : e = object.brk
    · omega
    · rw [Function.update_noteq h] at he
      have := hfresh e he
      omega
  unfold xmms_object_connect_mem
  split
  · exact ⟨fun _ _ => rfl, hfresh⟩
  · split
    · exact ⟨fun _ _ => rfl, hfresh⟩
    · split
      · exact ⟨fun e he => hupd _ e he, fun e he => hupd2 _ e he⟩
      · exact ⟨fun e he => hupd _ e he, fun e he => hupd2 _ e he⟩

/-- A handler body made of connects only does not fault, leaves every
allocated entry as it was and keeps `brk` above the allocated addresses. -/
theorem handler_body_connects (ops : List BusOp) :
    ∀ object : xmms_object_mem_t,
      (∀ op ∈ ops, ∃ s h u, op = BusOp.connect s h u) →
      (∀ e, object.heap e ≠ none → e < object.brk) →
      (handler_body object ops).fault = none
      ∧ (∀ e, object.heap e ≠ none → (handler_body object ops).object.heap e = object.heap e)
      ∧ (∀ e, (handler_body object ops).object.heap e ≠ none →
          e < (handler_body object ops).object.brk) := by
  induction ops with
  | nil => intro object _ hfresh; exact ⟨rfl, fun _ _ => rfl, hfresh⟩
  | cons op ops ih =>
    intro object hops hfresh
    obtain ⟨s, h, u, hop⟩ := hops op (List.mem_cons_self _ _)
    subst hop
    obtain ⟨_, _, _, c4⟩ := connect_mem_trace object s (some h) u false
    obtain ⟨k1, k2⟩ := connect_mem_heap object s (some h) u hfresh
    obtain ⟨i1, i2, i3⟩ := ih (xmms_object_connect_mem object s (some h) u).object
      (fun op hop => hops op (List.mem_cons_of_mem _ hop)) k2
    unfold handler_body
    simp only [bus_op, c4]
    refine ⟨i1, ?_, i3⟩
    intro e he
    rw [i2 e (by rw [k1 e he]; exact he), k1 e he]

/-- With handlers that only connect, the calling loop does not fault and
calls the handlers of the copied entries, in the order of the copy. -/
theorem emit_calls_connects (body : Nat → List BusOp)
    (hbody : ∀ h, ∀ op ∈ body h, ∃ s h2 u, op = BusOp.connect s h2 u)
    (heap0 : Nat → Option xmms_object_handler_entry_t) (list2 : List Nat) :
    ∀ object : xmms_object_mem_t,
      (∀ e ∈ list2, heap0 e ≠ none) →
      (∀ e, heap0 e ≠ none → object.heap e = heap0 e) →
      (∀ e, object.heap e ≠ none → e < object.brk) →
      (emit_calls body list2 object).fault = none
      ∧ called (emit_calls body list2 object).trace
          = list2.filterMap (fun e => (heap0 e).bind (fun en => en.handler)) := by
  induction list2 with
  | nil => intro object _ _ _; exact ⟨rfl, rfl⟩
  | cons e rest ih =>
    intro object hlive hsame hfresh
    have he0 := hlive e (List.mem_cons_self _ _)
    have hes := hsame e he0
    have hrest : ∀ x ∈ rest, heap0 x ≠ none := fun x hx => hlive x (List.mem_cons_of_mem _ hx)
    unfold emit_calls
    cases h0 : heap0 e with
    | none => exact absurd h0 he0
    | some en =>
      rw [hes, h0]
      cases hh : en.handler with
      | none =>
        obtain ⟨i1, i2⟩ := ih object hrest hsame hfresh
        simp only [called, List.filterMap_cons, h0, Option.some_bind, hh]
        exact ⟨i1, i2⟩
      | some h =>
        obtain ⟨b1, b2, b3⟩ := handler_body_connects (body h) object (hbody h) hfresh
        obtain ⟨_, t2, _⟩ := handler_body_trace (body h) object
        obtain ⟨i1, i2⟩ := ih (handler_body object (body h)).object hrest
          (fun x hx => by
            rw [b2 x (by rw [hsame x hx]; exact hx), hsame x hx]) b3
        simp only [b1, called, called_append, t2, List.nil_append, List.filterMap_cons, h0,
          Option.some_bind, hh]
        exact ⟨i1, by rw [i2]⟩

/-- With handlers that only connect, the emission does not fault and calls
exactly the handlers subscribed when it began, in registration order. -/
theorem emit_mem_connects (body : Nat → List BusOp) (object : xmms_object_mem_t)
    (signalid : Nat) (hobj : object.id = XMMS_OBJECT_MID)
    (hbody : ∀ h, ∀ op ∈ body h, ∃ s h2 u, op = BusOp.connect s h2 u)
    (hlive : ∀ e ∈ object.signals signalid, object.heap e ≠ none)
    (hfresh : ∀ e, object.heap e ≠ none → e < object.brk) :
    (xmms_object_emit_mem body object signalid).fault = none
    ∧ called (xmms_object_emit_mem body object signalid).trace
        = (object.signals signalid).reverse.filterMap
            (fun e => (object.heap e).bind (fun en => en.handler)) := by
  have hrev : (object.signals signalid).foldl (fun list2 entry => entry :: list2) []
      = (object.signals signalid).reverse := by
    rw [foldl_prepend_eq_reverse, List.append_nil]
  obtain ⟨i1, i2⟩ := emit_calls_connects body hbody object.heap
    (object.signals signalid).reverse object
    (fun e he => hlive e (List.mem_reverse.mp he)) (fun _ _ => rfl) hfresh
  unfold xmms_object_emit_mem
  simp only [hobj, beq_self_eq_true, Bool.not_true, Bool.false_eq_true, if_false, hrev]
  refine ⟨i1, ?_⟩
  simp only [List.cons_append, List.nil_append, called]
  exact i2

/-! ## The subscription table in memory -/

/-- C22: handlers 11 and 12 are connected to signal 5 and the body of 11
disconnects 12.  The emission copies both entry pointers, calls 11 with the
mutex released, and then reads the entry of 12 that the disconnect has
released: the run stops with a use after free and 12 is not called. -/
theorem emit_reads_released_entry :
    (xmms_object_emit_mem
        (fun h => if h = 11 then [BusOp.disconnect 5 12] else [])
        (xmms_object_connect_mem
          (xmms_object_connect_mem object_mem_new 5 (some 11) 100).object
          5 (some 12) 200).object
        5).trace
      = [Access.g_mutex_lock, Access.signals_read 5, Access.g_mutex_unlock,
          Access.entry_read 1, Access.call 11 100,
          Access.g_mutex_lock, Access.signals_read 5, Access.signals_read 5,
          Access.entry_read 2, Access.g_free 2, Access.signals_write 5, Access.g_mutex_unlock,
          Access.entry_read 2]
    ∧ (xmms_object_emit_mem
        (fun h => if h = 11 then [BusOp.disconnect 5 12] else [])
        (xmms_object_connect_mem
          (xmms_object_connect_mem object_mem_new 5 (some 11) 100).object
          5 (some 12) 200).object
        5).fault = some Fault.use_after_free := by
  constructor <;> decide

/-- C23: a connect on a fresh object reads and writes the table of signal 5
and its trace has no `g_mutex_lock`: the accesses happen with the mutex not
held. -/
theorem connect_accesses_table_unlocked :
    (xmms_object_connect_mem object_mem_new 5 (some 11) 100).trace
      = [Access.g_new0 1, Access.signals_read 5, Access.signals_write 5]
    ∧ table_locked false (xmms_object_connect_mem object_mem_new 5 (some 11) 100).trace
      = false := by
  constructor <;> decide

end XMMS2
